import Mathlib

/-!
Verification of the boolean-expression engine in `logica.py`.

The Python module is shallowly embedded: Python `str` becomes `List Char`,
the frozen dataclasses `Const`, `Var`, `Not`, `And`, `Or` become the nested
inductive `Node`, exceptions become an `Except Err` result, and Python's
stable `sorted` becomes `List.insertionSort` (also a stable sort, hence
pointwise equal to Python's sort for every key function used here).
-/

namespace Logica

/-- AST node type, the closed variant set of `logica.py` (`Const`, `Var`,
`Not`, `And`, `Or`); `And`/`Or` hold an ordered sequence of children. -/
inductive Node where
  | Const (value : Bool)
  | Var (name : List Char)
  | Not (child : Node)
  | And (children : List Node)
  | Or (children : List Node)

namespace Node

mutual
/- Boolean structural equality, mirroring Python dataclass `==`. -/
def beq : Node → Node → Bool
  | .Const a, .Const b => a == b
  | .Var a, .Var b => a == b
  | .Not a, .Not b => beq a b
  | .And a, .And b => beqList a b
  | .Or a, .Or b => beqList a b
  | _, _ => false
def beqList : List Node → List Node → Bool
  | [], [] => true
  | a :: as, b :: bs => beq a b && beqList as bs
  | _, _ => false
end

mutual
/- Custom induction principle for the nested inductive `Node`. -/
def indAux {P : Node → Prop}
    (hc : ∀ b, P (.Const b)) (hv : ∀ s, P (.Var s))
    (hn : ∀ c, P c → P (.Not c))
    (ha : ∀ cs, (∀ c ∈ cs, P c) → P (.And cs))
    (ho : ∀ cs, (∀ c ∈ cs, P c) → P (.Or cs)) : ∀ n, P n
  | .Const b => hc b
  | .Var s => hv s
  | .Not c => hn c (indAux hc hv hn ha ho c)
  | .And cs => ha cs (indListAux hc hv hn ha ho cs)
  | .Or cs => ho cs (indListAux hc hv hn ha ho cs)
def indListAux {P : Node → Prop}
    (hc : ∀ b, P (.Const b)) (hv : ∀ s, P (.Var s))
    (hn : ∀ c, P c → P (.Not c))
    (ha : ∀ cs, (∀ c ∈ cs, P c) → P (.And cs))
    (ho : ∀ cs, (∀ c ∈ cs, P c) → P (.Or cs)) :
    ∀ cs : List Node, ∀ c ∈ cs, P c
  | [] => fun x hx => absurd hx (List.not_mem_nil x)
  | c :: cs => fun x hx => by
      rcases List.mem_cons.mp hx with h | h
      · exact h ▸ indAux hc hv hn ha ho c
      · exact indListAux hc hv hn ha ho cs x h
end

@[elab_as_elim]
theorem myrec {P : Node → Prop}
    (hc : ∀ b, P (.Const b)) (hv : ∀ s, P (.Var s))
    (hn : ∀ c, P c → P (.Not c))
    (ha : ∀ cs, (∀ c ∈ cs, P c) → P (.And cs))
    (ho : ∀ cs, (∀ c ∈ cs, P c) → P (.Or cs)) : ∀ n, P n :=
  indAux hc hv hn ha ho

theorem beq_iff : ∀ a b : Node, beq a b = true ↔ a = b := by
  have key : ∀ a : Node, (∀ b, beq a b = true ↔ a = b) := by
    intro a
    induction a using myrec with
    | hc x => intro b; cases b <;> simp [beq]
    | hv x => intro b; cases b <;> simp [beq]
    | hn c ih => intro b; cases b <;> simp [beq, ih]
    | ha cs ih =>
        intro b
        cases b <;> simp [beq]
        case And bs =>
          induction cs generalizing bs with
          | nil => cases bs <;> simp [beqList]
          | cons c cs ihl =>
              cases bs with
              | nil => simp [beqList]
              | cons b bs =>
                  simp [beqList, ih c (by simp), ihl (fun x hx => ih x (by simp [hx])) bs]
    | ho cs ih =>
        intro b
        cases b <;> simp [beq]
        case Or bs =>
          induction cs generalizing bs with
          | nil => cases bs <;> simp [beqList]
          | cons c cs ihl =>
              cases bs with
              | nil => simp [beqList]
              | cons b bs =>
                  simp [beqList, ih c (by simp), ihl (fun x hx => ih x (by simp [hx])) bs]
  exact fun a b => key a b

instance instDecEq : DecidableEq Node := fun a b =>
  decidable_of_iff (beq a b = true) (beq_iff a b)

end Node

/-- Node count of an AST (each `Const`/`Var`/`Not`/`And`/`Or` node counts 1). -/
def size : Node → Nat
  | .Const _ => 1
  | .Var _ => 1
  | .Not c => 1 + size c
  | .And cs => 1 + sizeList cs
  | .Or cs => 1 + sizeList cs
where sizeList : List Node → Nat
  | [] => 0
  | c :: cs => size c + sizeList cs

/-- Leaf count of an AST (`Const` and `Var` occurrences). -/
def leaves : Node → Nat
  | .Const _ => 1
  | .Var _ => 1
  | .Not c => leaves c
  | .And cs => leavesList cs
  | .Or cs => leavesList cs
where leavesList : List Node → Nat
  | [] => 0
  | c :: cs => leaves c + leavesList cs

/-- Truth-value semantics of an AST under a variable assignment. -/
def eval (σ : List Char → Bool) : Node → Bool
  | .Const v => v
  | .Var s => σ s
  | .Not c => !(eval σ c)
  | .And cs => evalAnd cs
  | .Or cs => evalOr cs
where
  evalAnd : List Node → Bool
    | [] => true
    | c :: cs => eval σ c && evalAnd cs
  evalOr : List Node → Bool
    | [] => false
    | c :: cs => eval σ c || evalOr cs

mutual
/- `node_to_str` of `logica.py`: minimally parenthesized infix rendering.
The `" & "` / `" | "` joins and the `_maybe_paren_for_and` /
`_maybe_paren_for_or` helpers are inlined as the mutual list renderers
(so that the recursion stays structural); the helpers themselves are
recovered as `_maybe_paren_for_and` / `_maybe_paren_for_or` below. -/
def node_to_str : Node → List Char
  | .Const v => if v then ['1'] else ['0']
  | .Var s => s
  | .Not c =>
      match c with
      | .And cs => '!' :: '(' :: strJoinAnd cs ++ [')']
      | .Or cs => '!' :: '(' :: strJoinOr cs ++ [')']
      | c => '!' :: node_to_str c
  | .And cs => strJoinAnd cs
  | .Or cs => strJoinOr cs
/- `" & ".join(_maybe_paren_for_and(c) for c in children)` -/
def strJoinAnd : List Node → List Char
  | [] => []
  | [c] =>
      (match c with
       | .Or gs => '(' :: strJoinOr gs ++ [')']
       | c => node_to_str c)
  | c :: cs =>
      (match c with
       | .Or gs => '(' :: strJoinOr gs ++ [')']
       | c => node_to_str c) ++ ' ' :: '&' :: ' ' :: strJoinAnd cs
/- `" | ".join(_maybe_paren_for_or(c) for c in children)` -/
def strJoinOr : List Node → List Char
  | [] => []
  | [c] =>
      (match c with
       | .And gs => '(' :: strJoinAnd gs ++ [')']
       | c => node_to_str c)
  | c :: cs =>
      (match c with
       | .And gs => '(' :: strJoinAnd gs ++ [')']
       | c => node_to_str c) ++ ' ' :: '|' :: ' ' :: strJoinOr cs
end

/-- `_maybe_paren_for_and`: parenthesize exactly the `Or` children. -/
def _maybe_paren_for_and : Node → List Char
  | .Or gs => '(' :: node_to_str (.Or gs) ++ [')']
  | c => node_to_str c

/-- `_maybe_paren_for_or`: parenthesize exactly the `And` children. -/
def _maybe_paren_for_or : Node → List Char
  | .And gs => '(' :: node_to_str (.And gs) ++ [')']
  | c => node_to_str c

/-- The cross-variant sort key of `_sort_nodes`:
rank (Const 0 with true before false, Var 1, Not 2, And 3, Or 4),
then arity, then printed string, compared lexicographically. -/
def sortKey (n : Node) : ℕ ×ₗ (ℕ ×ₗ List Char) :=
  match n with
  | .Const v => toLex (0, toLex (if v then 0 else 1, []))
  | .Var s => toLex (1, toLex (0, s))
  | .Not c => toLex (2, toLex (0, node_to_str (.Not c)))
  | .And cs => toLex (3, toLex (cs.length, node_to_str (.And cs)))
  | .Or cs => toLex (4, toLex (cs.length, node_to_str (.Or cs)))

/-- The total preorder used by `_sort_nodes` (Python's `sorted` with `key`). -/
def nodeLe (a b : Node) : Prop := sortKey a ≤ sortKey b

instance : DecidableRel nodeLe := fun a b => by
  unfold nodeLe; infer_instance

instance : IsTotal Node nodeLe := ⟨fun a b => le_total (sortKey a) (sortKey b)⟩

instance : IsTrans Node nodeLe := ⟨fun _ _ _ h h2 => le_trans h h2⟩

/-- `_sort_nodes`: Python's stable `sorted` by `sortKey`, modelled by the
stable insertion sort. -/
def _sort_nodes (nodes : List Node) : List Node := List.insertionSort nodeLe nodes

/-- Replace an `And`/`Or` that flattened to a single child by that child
(`if len(kids) == 1: return kids[0]`). -/
def collapse1 (mk : List Node → Node) (kids : List Node) : Node :=
  match kids with
  | [k] => k
  | kids => mk kids

mutual
/- `_normalize_tree`: recursively canonicalize, flattening nested
same-kind `And`/`Or` children and sorting the result. -/
def _normalize_tree : Node → Node
  | .Const v => .Const v
  | .Var s => .Var s
  | .Not c => .Not (_normalize_tree c)
  | .And cs => collapse1 .And (_sort_nodes (flattenAnd cs))
  | .Or cs => collapse1 .Or (_sort_nodes (flattenOr cs))
/- normalize each child; splice children of same-kind children -/
def flattenAnd : List Node → List Node
  | [] => []
  | c :: cs =>
      (match _normalize_tree c with
       | .And gs => gs
       | c2 => [c2]) ++ flattenAnd cs
def flattenOr : List Node → List Node
  | [] => []
  | c :: cs =>
      (match _normalize_tree c with
       | .Or gs => gs
       | c2 => [c2]) ++ flattenOr cs
end

/-- The failure modes of `logica.py` (Python exceptions become `Except`). -/
inductive Err where
  | emptyExpr
  | invalidChars (bad : List Char)
  | invalidChar (c : Char)
  | negWithoutOperand
  | insufficientOperands
  | unknownOp (op : Char)
  | unbalanced
  | unbalancedAtEnd
  | unexpectedToken (t : List Char)
  | malformed
  | fuelExhausted
  deriving DecidableEq

instance {ε α : Type} [DecidableEq ε] [DecidableEq α] : DecidableEq (Except ε α) := by
  intro a b
  cases a <;> cases b
  case ok.ok x y => exact decidable_of_iff (x = y) (by simp)
  case error.error x y => exact decidable_of_iff (x = y) (by simp)
  all_goals exact isFalse (by simp)

/-- Python `s.replace(p, v)` for a 1-character pattern `p`
(non-overlapping left-to-right replacement). -/
def replace1 (p v : Char) : List Char → List Char
  | [] => []
  | c :: s => (if c = p then v else c) :: replace1 p v s

/-- Python `s.replace(p ++ q, v)` for a 2-character pattern. -/
def replace2 (p q v : Char) : List Char → List Char
  | [] => []
  | [c] => [c]
  | c :: d :: s =>
      if c = p ∧ d = q then v :: replace2 p q v s
      else c :: replace2 p q v (d :: s)

/-- Python `s.replace(p ++ q ++ r, v)` for a 3-character pattern. -/
def replace3 (p q r v : Char) : List Char → List Char
  | c :: d :: e :: s =>
      if c = p ∧ d = q ∧ e = r then v :: replace3 p q r v s
      else c :: replace3 p q r v (d :: e :: s)
  | s => s

/-- `re.sub(r"\s+", " ", s)`: collapse each whitespace run to one space. -/
def collapseWs : List Char → List Char
  | [] => []
  | [c] => if c.isWhitespace then [' '] else [c]
  | c :: d :: s =>
      if c.isWhitespace ∧ d.isWhitespace then collapseWs (d :: s)
      else (if c.isWhitespace then ' ' else c) :: collapseWs (d :: s)

/-- Python `s.strip()`. -/
def strip (s : List Char) : List Char :=
  ((s.dropWhile Char.isWhitespace).reverse.dropWhile Char.isWhitespace).reverse

/-- The `_ALLOWED` character set of `logica.py`:
ASCII letters, digits, and `_!&|() 01`. -/
def allowedChar (c : Char) : Prop :=
  c.isAlpha = true ∨ c.isDigit = true ∨
    c = '_' ∨ c = '!' ∨ c = '&' ∨ c = '|' ∨ c = '(' ∨ c = ')' ∨ c = ' '

instance : DecidablePred allowedChar := fun c => by unfold allowedChar; infer_instance

/-- First-occurrence deduplication (Python `set` fed to `sorted`; after
sorting, which order the duplicates were dropped in is irrelevant). -/
def dedupChars : List Char → List Char → List Char
  | [], _ => []
  | c :: s, seen => if c ∈ seen then dedupChars s seen else c :: dedupChars s (c :: seen)

/-- Python `sorted(set(bad))`. -/
def sortedSet (bad : List Char) : List Char :=
  List.insertionSort (fun a b : Char => a ≤ b) (dedupChars bad [])

/-- The alias-substitution and whitespace phase of `normalize_symbols`:
apply the `_SYMBOL_MAP` substitutions longest-pattern-first
(`sorted(_SYMBOL_MAP.items(), key=lambda kv: -len(kv[0]))`, a stable sort
of the insertion order, i.e. AND, and, NOT, not, OR, or, ∧, •, *, ⋅, ∨, +,
¬, ~), collapse whitespace runs and strip. -/
def normalize_core (s : List Char) : List Char :=
  let s := replace3 'A' 'N' 'D' '&' s
  let s := replace3 'a' 'n' 'd' '&' s
  let s := replace3 'N' 'O' 'T' '!' s
  let s := replace3 'n' 'o' 't' '!' s
  let s := replace2 'O' 'R' '|' s
  let s := replace2 'o' 'r' '|' s
  let s := replace1 '∧' '&' s
  let s := replace1 '•' '&' s
  let s := replace1 '*' '&' s
  let s := replace1 '⋅' '&' s
  let s := replace1 '∨' '|' s
  let s := replace1 '+' '|' s
  let s := replace1 '¬' '!' s
  let s := replace1 '~' '!' s
  strip (collapseWs s)

/-- `normalize_symbols` of `logica.py`: alias substitution and whitespace
normalization, then failure if disallowed characters remain. -/
def normalize_symbols (s : List Char) : Except Err (List Char) :=
  let s := normalize_core s
  let bad := s.filter (fun c => ¬ allowedChar c)
  if bad = [] then .ok s else .error (.invalidChars (sortedSet bad))

/-- Token alphabet check of `_tokenize` for operator characters. -/
def isPunct (c : Char) : Prop := c = '!' ∨ c = '&' ∨ c = '|' ∨ c = '(' ∨ c = ')'

instance : DecidablePred isPunct := fun c => by unfold isPunct; infer_instance

/-- Scanner state of `_tokenize`: the tokens emitted so far (reversed) and
the currently accumulating identifier run (reversed, `[]` when no run is
open). This models the `i`/`j` cursor loop of the Python scanner as a
character-at-a-time state machine with the identical maximal-munch
semantics: a run opened by `[A-Za-z_]` is extended while `[A-Za-z0-9_]`
and emitted as one token when anything else (or the end) is reached. -/
structure TokSt where
  toks : List (List Char)
  cur : List Char

/-- Close the open identifier run, if any. -/
def flushTok (st : TokSt) : TokSt :=
  match st.cur with
  | [] => st
  | cur => { toks := cur.reverse :: st.toks, cur := [] }

/-- One character of the `_tokenize` scan. -/
def tokStep (st : TokSt) (c : Char) : Except Err TokSt :=
  if st.cur ≠ [] ∧ (c.isAlphanum = true ∨ c = '_') then
    .ok { st with cur := c :: st.cur }
  else
    let st := flushTok st
    if c.isWhitespace then .ok st
    else if isPunct c then .ok { st with toks := [c] :: st.toks }
    else if c.isDigit then .ok { st with toks := [c] :: st.toks }
    else if c.isAlpha = true ∨ c = '_' then .ok { st with cur := [c] }
    else .error (.invalidChar c)

/-- `_tokenize` of `logica.py`. -/
def _tokenize (s : List Char) : Except Err (List (List Char)) := do
  let st ← s.foldlM tokStep ⟨[], []⟩
  pure (flushTok st).toks.reverse

/-- Operator precedence (`prec = {'!': 3, '&': 2, '|': 1}`); `'('` is never
looked up by the Python code (guarded by `ops[-1] != '('`), so any value
works for it. -/
def prec : Char → Nat
  | '!' => 3
  | '&' => 2
  | '|' => 1
  | _ => 0

/-- `apply_op` of `parse_expression`: pop operand(s), push the result.
For a binary operator the first-popped node is the right operand. -/
def apply_op (op : Char) (output : List Node) : Except Err (List Node) :=
  if op = '!' then
    match output with
    | [] => .error .negWithoutOperand
    | a :: rest => .ok (.Not a :: rest)
  else if op = '&' ∨ op = '|' then
    match output with
    | b :: a :: rest =>
        .ok ((if op = '&' then Node.And [a, b] else Node.Or [a, b]) :: rest)
    | _ => .error .insufficientOperands
  else .error (.unknownOp op)

/-- `while ops and ops[-1] != '(' and prec[ops[-1]] >= prec[t]: apply_op(ops.pop())` -/
def popWhileGe (p : Nat) : List Char → List Node → Except Err (List Node × List Char)
  | [], out => .ok (out, [])
  | op :: ops, out =>
      if op ≠ '(' ∧ p ≤ prec op then do
        let out' ← apply_op op out
        popWhileGe p ops out'
      else .ok (out, op :: ops)

/-- `)` handler: apply until the matching `(`, failing if none exists. -/
def popUntilParen : List Char → List Node → Except Err (List Node × List Char)
  | [], _ => .error .unbalanced
  | op :: ops, out =>
      if op = '(' then .ok (out, ops)
      else do
        let out' ← apply_op op out
        popUntilParen ops out'

/-- End-of-input drain: apply every stacked operator, failing on a stray
parenthesis. -/
def drainOps : List Char → List Node → Except Err (List Node)
  | [], out => .ok out
  | op :: ops, out =>
      if op = '(' ∨ op = ')' then .error .unbalancedAtEnd
      else do
        let out' ← apply_op op out
        drainOps ops out'

/-- Does a token match `_var_token_re` (`[A-Za-z_][A-Za-z0-9_]*`) in full? -/
def isIdentTok : List Char → Prop
  | [] => False
  | c :: rest =>
      (c.isAlpha = true ∨ c = '_') ∧ ∀ d ∈ rest, d.isAlphanum = true ∨ d = '_'

instance : DecidablePred isIdentTok := fun t => by
  cases t <;> unfold isIdentTok <;> infer_instance

/-- One token of the shunting-yard loop of `parse_expression`. -/
def parseStep (st : List Node × List Char) (t : List Char) :
    Except Err (List Node × List Char) :=
  let (output, ops) := st
  if t = ['1'] then .ok (Node.Const true :: output, ops)
  else if t = ['0'] then .ok (Node.Const false :: output, ops)
  else if isIdentTok t then .ok (Node.Var t :: output, ops)
  else if t = ['!'] then .ok (output, '!' :: ops)
  else if t = ['&'] ∨ t = ['|'] then do
    let c := if t = ['&'] then '&' else '|'
    let (out', ops') ← popWhileGe (prec c) ops output
    .ok (out', c :: ops')
  else if t = ['('] then .ok (output, '(' :: ops)
  else if t = [')'] then do
    let (out', ops') ← popUntilParen ops output
    .ok (out', ops')
  else .error (.unexpectedToken t)

/-- `parse_expression` of `logica.py`: strip, tokenize, run the two-stack
shunting-yard loop, drain the operator stack, demand a single result and
canonicalize it. -/
def parse_expression (s : List Char) : Except Err Node := do
  let s := strip s
  if s = [] then .error .emptyExpr
  else do
    let tokens ← _tokenize s
    let (output, ops) ← tokens.foldlM parseStep ([], [])
    let output ← drainOps ops output
    match output with
    | [n] => .ok (_normalize_tree n)
    | _ => .error .malformed

/-- `structurally_equal` of `logica.py` (dataclass value equality). -/
def structurally_equal (a b : Node) : Prop := a = b

/-- `negate` of `logica.py`. -/
def negate (n : Node) : Node := .Not n

/-- `factors_and`: the conjunction factors of a term. -/
def factors_and : Node → List Node
  | .And cs => cs
  | n => [n]

/-- `factors_or`: the disjunction factors of a term. -/
def factors_or : Node → List Node
  | .Or cs => cs
  | n => [n]

def LAW_IDEMP : List Char := "Idempotencia".data
def LAW_NULL : List Char := "Anulación".data
def LAW_IDENT : List Char := "Identidad".data
def LAW_COMP : List Char := "Complementario".data
def LAW_ABS : List Char := "Absorción".data
def LAW_DNEG : List Char := "Doble negación".data
def LAW_FACT : List Char := "Organización (factor común) – Distributiva".data

/-- `_unique_nodes`: drop structural duplicates, keeping first occurrences
(the Python `seen` set is the accumulator). -/
def _unique_nodes_aux : List Node → List Node → List Node
  | [], _ => []
  | n :: ns, seen =>
      if n ∈ seen then _unique_nodes_aux ns seen
      else n :: _unique_nodes_aux ns (n :: seen)

def _unique_nodes (nodes : List Node) : List Node := _unique_nodes_aux nodes []

/-- `_has_complement_pair`: does the list contain both `X` and `Not X`? -/
def _has_complement_pair (nodes : List Node) : Bool :=
  nodes.any fun n =>
    decide (Node.Not n ∈ nodes) ||
      (match n with
       | .Not c => decide (c ∈ nodes)
       | _ => false)

/-- `_remove_factors`: drop every element of `rem` (a Python set, so only
membership matters) from `src`. -/
def _remove_factors (src rem : List Node) : List Node := src.filter (· ∉ rem)

/-- Comparison used by `sorted(common, key=lambda n: node_to_str(n))`. -/
def strLe (a b : Node) : Prop := node_to_str a ≤ node_to_str b

instance : DecidableRel strLe := fun a b => by unfold strLe; infer_instance

instance : IsTotal Node strLe := ⟨fun a b => le_total (node_to_str a) (node_to_str b)⟩

instance : IsTrans Node strLe := ⟨fun _ _ _ h h2 => le_trans h h2⟩

/-- Is the node an `And`? -/
def isAnd : Node → Bool
  | .And _ => true
  | _ => false

/-- Is the node an `Or`? -/
def isOr : Node → Bool
  | .Or _ => true
  | _ => false

/-- The running set intersection of the factor sets of the given terms
(`common = s if common is None else common & s`), as a duplicate-free list
in first-term factor order. The order of a Python set is unspecified; it
only influences how `sorted(..., key=node_to_str)` breaks ties between
distinct nodes with identical printed form. -/
def commonOfTerms (factors : Node → List Node) : List Node → List Node
  | [] => []
  | t :: ts => ts.foldl (fun acc u => acc.filter (· ∈ factors u)) (_unique_nodes (factors t))

/-- Residual rewrap of `_factor_common_for_or` / `_factor_common_for_and`:
`_normalize_tree(Mk(rest)) if len(rest) > 1 else (rest[0] if rest else Const(empty))`. -/
def rewrapRest (mk : List Node → Node) (empty : Bool) (rest : List Node) : Node :=
  match rest with
  | [] => .Const empty
  | [x] => x
  | rest => _normalize_tree (mk rest)

/-- `_factor_common_for_or`: if at least two children are `And` terms whose
factor sets share a non-empty intersection and every child is an `And`,
pull the common factors out: `And(common..., Or(residuals...))`. The
Python loop returns `None` on the first non-`And` child before appending
further residuals; with no side effects this equals the all-`And` guard. -/
def _factor_common_for_or (children : List Node) : Option Node :=
  let and_terms := children.filter isAnd
  if and_terms.length < 2 then none
  else
    let common := commonOfTerms factors_and and_terms
    if common = [] then none
    else
      let common_factors := List.insertionSort strLe common
      if common_factors = [] then none
      else if children.all isAnd then
        let rest_terms := children.map fun t =>
          rewrapRest Node.And true (_remove_factors (factors_and t) common_factors)
        let inner := _normalize_tree (.Or rest_terms)
        some (_normalize_tree (.And (common_factors ++ [inner])))
      else none

/-- `_factor_common_for_and`, the dual of `_factor_common_for_or`. -/
def _factor_common_for_and (children : List Node) : Option Node :=
  let or_terms := children.filter isOr
  if or_terms.length < 2 then none
  else
    let common := commonOfTerms factors_or or_terms
    if common = [] then none
    else
      let common_factors := List.insertionSort strLe common
      if common_factors = [] then none
      else if children.all isOr then
        let rest_terms := children.map fun t =>
          rewrapRest Node.Or false (_remove_factors (factors_or t) common_factors)
        let inner := _normalize_tree (.And rest_terms)
        some (_normalize_tree (.Or (common_factors ++ [inner])))
      else none

/-- Absorption search of the `And` branch: the first child `c` that is an
`Or` with some other sibling `x` among its children. Python skips `x is c`
(object identity); at this program point the preceding idempotence check
has removed structural duplicates, so identity and structural equality
coincide, and the model uses `x ≠ c`. -/
def absorbAnd (children : List Node) : Option Node :=
  children.findSome? fun c =>
    match c with
    | .Or gs => children.findSome? fun x => if x ≠ c ∧ x ∈ gs then some x else none
    | _ => none

/-- Absorption search of the `Or` branch (dual: `And` children). -/
def absorbOr (children : List Node) : Option Node :=
  children.findSome? fun c =>
    match c with
    | .And gs => children.findSome? fun x => if x ≠ c ∧ x ∈ gs then some x else none
    | _ => none

/-- Node-level laws of the `And` branch of `apply_rules_in_order`, tried in
priority order once every child has been processed without change. -/
def andRules (new_children : List Node) : Node × Bool × Option (List Char) :=
  let uniq := _unique_nodes new_children
  if uniq.length < new_children.length then
    (_normalize_tree (.And uniq), true, some LAW_IDEMP)
  else if new_children.any fun c => decide (c = .Const false) then
    (.Const false, true, some LAW_NULL)
  else
    let nc := new_children.filter fun c => ¬ decide (c = .Const true)
    if nc.length < new_children.length then
      match nc with
      | [] => (.Const true, true, some LAW_IDENT)
      | [x] => (x, true, some LAW_IDENT)
      | nc => (_normalize_tree (.And nc), true, some LAW_IDENT)
    else if _has_complement_pair new_children then
      (.Const false, true, some LAW_COMP)
    else
      match absorbAnd new_children with
      | some x => (x, true, some LAW_ABS)
      | none =>
          match _factor_common_for_and new_children with
          | some f => (f, true, some LAW_FACT)
          | none => (.And new_children, false, none)

/-- Node-level laws of the `Or` branch of `apply_rules_in_order`. -/
def orRules (new_children : List Node) : Node × Bool × Option (List Char) :=
  let uniq := _unique_nodes new_children
  if uniq.length < new_children.length then
    (_normalize_tree (.Or uniq), true, some LAW_IDEMP)
  else if new_children.any fun c => decide (c = .Const true) then
    (.Const true, true, some LAW_NULL)
  else
    let nc := new_children.filter fun c => ¬ decide (c = .Const false)
    if nc.length < new_children.length then
      match nc with
      | [] => (.Const false, true, some LAW_IDENT)
      | [x] => (x, true, some LAW_IDENT)
      | nc => (_normalize_tree (.Or nc), true, some LAW_IDENT)
    else if _has_complement_pair new_children then
      (.Const true, true, some LAW_COMP)
    else
      match absorbOr new_children with
      | some x => (x, true, some LAW_ABS)
      | none =>
          match _factor_common_for_or new_children with
          | some f => (f, true, some LAW_FACT)
          | none => (.Or new_children, false, none)

/-- Result of the left-to-right child scan of `apply_rules_in_order`: the
first changed child (with the processed prefix and the original suffix),
or the full processed child list if none changed. -/
inductive ScanRes where
  | changed (pre : List Node) (c2 : Node) (law : Option (List Char)) (suf : List Node)
  | unchanged (processed : List Node)

mutual
/- `apply_rules_in_order` of `logica.py`: apply at most one law, depth-first
leftmost-first, returning `(newNode, changed, law)`. -/
def apply_rules_in_order : Node → Node × Bool × Option (List Char)
  | .Const v => (.Const v, false, none)
  | .Var s => (.Var s, false, none)
  | .Not c =>
      match apply_rules_in_order c with
      | (child, true, law) => (.Not child, true, law)
      | (child, false, _) =>
          match child with
          | .Not g => (g, true, some LAW_DNEG)
          | _ => (.Not c, false, none)
  | .And cs =>
      match scanChildren cs with
      | .changed pre c2 law suf => (_normalize_tree (.And (pre ++ c2 :: suf)), true, law)
      | .unchanged new_children => andRules new_children
  | .Or cs =>
      match scanChildren cs with
      | .changed pre c2 law suf => (_normalize_tree (.Or (pre ++ c2 :: suf)), true, law)
      | .unchanged new_children => orRules new_children
/- recurse into children left-to-right, stopping at the first change -/
def scanChildren : List Node → ScanRes
  | [] => .unchanged []
  | c :: cs =>
      match apply_rules_in_order c with
      | (c2, true, law) => .changed [] c2 law cs
      | (c2, false, _) =>
          match scanChildren cs with
          | .changed pre x law suf => .changed (c2 :: pre) x law suf
          | .unchanged rest => .unchanged (c2 :: rest)
end

/-- One step record of the trace (`{"before": ..., "law": ..., "after": ...}`). -/
structure Step where
  before : List Char
  law : List Char
  after : List Char
  deriving DecidableEq

/-- The `while True` fixpoint loop of `simplify_expression`, with explicit
fuel. The Python loop is unbounded; the termination theorem below shows
the fuel used by `simplify_expression` is always sufficient, so the fueled
loop computes exactly what the Python loop computes. -/
def simplifyLoop : Nat → Node → Option (Node × List Step)
  | 0, ast =>
      match apply_rules_in_order ast with
      | (_, false, _) => some (ast, [])
      | _ => none
  | fuel + 1, ast =>
      let before := node_to_str ast
      match apply_rules_in_order ast with
      | (_, false, _) => some (ast, [])
      | (new_ast, _, law) =>
          let ast' := _normalize_tree new_ast
          let after := node_to_str ast'
          match simplifyLoop fuel ast' with
          | some (fin, steps) =>
              some (fin, { before := before, law := law.getD ("(sin cambio)".data),
                           after := after } :: steps)
          | none => none

/-- `simplify_expression` of `logica.py`: normalize, parse, rewrite to
fixpoint recording steps, return the final rendering and the trace. -/
def simplify_expression (expr : List Char) : Except Err (List Char × List Step) := do
  let s ← normalize_symbols expr
  let ast ← parse_expression s
  match simplifyLoop (3 * size ast) ast with
  | some (fin, steps) => .ok (node_to_str fin, steps)
  | none => .error .fuelExhausted


/-- Structural fixpoint characterization of `_normalize_tree`: children of
an `And` are never `And` (dually for `Or`), child lists are sorted by the
`_sort_nodes` order and are never singletons, recursively. -/
inductive CN : Node → Prop where
  | const (b : Bool) : CN (.Const b)
  | var (s : List Char) : CN (.Var s)
  | not (c : Node) : CN c → CN (.Not c)
  | and (cs : List Node) (h : ∀ c ∈ cs, CN c) (hna : ∀ c ∈ cs, isAnd c = false)
      (hs : List.Sorted nodeLe cs) (hl : cs.length ≠ 1) : CN (.And cs)
  | or (cs : List Node) (h : ∀ c ∈ cs, CN c) (hno : ∀ c ∈ cs, isOr c = false)
      (hs : List.Sorted nodeLe cs) (hl : cs.length ≠ 1) : CN (.Or cs)

/-- The canonical-form invariant of the specification: no `And` directly
contains an `And` child and no `Or` an `Or` child, every `And`/`Or` has at
least two children, and children are sorted by the `_sort_nodes` key
(rank, then arity, then printed string). -/
inductive canonInv : Node → Prop where
  | const (b : Bool) : canonInv (.Const b)
  | var (s : List Char) : canonInv (.Var s)
  | not (c : Node) : canonInv c → canonInv (.Not c)
  | and (cs : List Node) (h : ∀ c ∈ cs, canonInv c) (hna : ∀ c ∈ cs, isAnd c = false)
      (hs : List.Sorted nodeLe cs) (hl : 2 ≤ cs.length) : canonInv (.And cs)
  | or (cs : List Node) (h : ∀ c ∈ cs, canonInv c) (hno : ∀ c ∈ cs, isOr c = false)
      (hs : List.Sorted nodeLe cs) (hl : 2 ≤ cs.length) : canonInv (.Or cs)

/-- Basic shape well-formedness: every `And`/`Or` node has at least one
child (the parser only builds binary nodes, and every rewrite preserves
non-emptiness). -/
inductive wf1 : Node → Prop where
  | const (b : Bool) : wf1 (.Const b)
  | var (s : List Char) : wf1 (.Var s)
  | not (c : Node) : wf1 c → wf1 (.Not c)
  | and (cs : List Node) (h : ∀ c ∈ cs, wf1 c) (hne : cs ≠ []) : wf1 (.And cs)
  | or (cs : List Node) (h : ∀ c ∈ cs, wf1 c) (hne : cs ≠ []) : wf1 (.Or cs)


mutual
/- The token list of the rendering of a node (what `_tokenize` produces on
`node_to_str n`), following the printer structure. -/
def printToks : Node → List (List Char)
  | .Const v => if v then [['1']] else [['0']]
  | .Var s => [s]
  | .Not c =>
      match c with
      | .And cs => ['!'] :: ['('] :: joinToksAnd cs ++ [[')']]
      | .Or cs => ['!'] :: ['('] :: joinToksOr cs ++ [[')']]
      | c => ['!'] :: printToks c
  | .And cs => joinToksAnd cs
  | .Or cs => joinToksOr cs
def joinToksAnd : List Node → List (List Char)
  | [] => []
  | [c] =>
      (match c with
       | .Or gs => ['('] :: joinToksOr gs ++ [[')']]
       | c => printToks c)
  | c :: cs =>
      (match c with
       | .Or gs => ['('] :: joinToksOr gs ++ [[')']]
       | c => printToks c) ++ ['&'] :: joinToksAnd cs
def joinToksOr : List Node → List (List Char)
  | [] => []
  | [c] =>
      (match c with
       | .And gs => ['('] :: joinToksAnd gs ++ [[')']]
       | c => printToks c)
  | c :: cs =>
      (match c with
       | .And gs => ['('] :: joinToksAnd gs ++ [[')']]
       | c => printToks c) ++ ['|'] :: joinToksOr cs
end

mutual
/- The raw binary tree the shunting-yard loop builds from the rendering of
a canonical node, before the final `_normalize_tree`: `And`/`Or` chains
come out left-associated. -/
def rawParse : Node → Node
  | .Const v => .Const v
  | .Var s => .Var s
  | .Not c => .Not (rawParse c)
  | .And cs => rawChainAnd cs
  | .Or cs => rawChainOr cs
def rawChainAnd : List Node → Node
  | [] => .And []
  | [c] => rawParse c
  | c :: cs => rawFoldAnd (rawParse c) cs
def rawFoldAnd (acc : Node) : List Node → Node
  | [] => acc
  | c :: cs => rawFoldAnd (.And [acc, rawParse c]) cs
def rawChainOr : List Node → Node
  | [] => .Or []
  | [c] => rawParse c
  | c :: cs => rawFoldOr (rawParse c) cs
def rawFoldOr (acc : Node) : List Node → Node
  | [] => acc
  | c :: cs => rawFoldOr (.Or [acc, rawParse c]) cs
end

/-- Variable names are well-formed identifier tokens (true of every AST the
engine produces, since `Var` nodes are created only from identifier
tokens). -/
inductive wfN : Node → Prop where
  | const (b : Bool) : wfN (.Const b)
  | var (s : List Char) (h : isIdentTok s) : wfN (.Var s)
  | not (c : Node) : wfN c → wfN (.Not c)
  | and (cs : List Node) (h : ∀ c ∈ cs, wfN c) : wfN (.And cs)
  | or (cs : List Node) (h : ∀ c ∈ cs, wfN c) : wfN (.Or cs)

/-- Specification of tokenizing the rendering of one node: starting from
any neutral scanner state, the scan succeeds and appends exactly the
node's token list. -/
def TokSpec (n : Node) : Prop :=
  ∀ toks : List (List Char), ∃ st2 : TokSt,
    List.foldlM tokStep ⟨toks, []⟩ (node_to_str n) = .ok st2 ∧
      (flushTok st2).toks = (printToks n).reverse ++ toks

/-- Sequential application of pending stack operators to the output stack
(the common core of `popWhileGe`, `popUntilParen` and `drainOps` once the
relevant stack prefix is known). -/
def unwind : List Char → List Node → Except Err (List Node)
  | [], out => .ok out
  | op :: ops, out => do
      let out2 ← apply_op op out
      unwind ops out2

/-- The shunting-yard precedence loop for a binary operator of precedence
`p` never pops past this stack: it is empty, or starts with the `'('`
barrier, or with an operator of lower precedence. -/
def Stop (p : Nat) : List Char → Prop
  | [] => True
  | op :: _ => op = '(' ∨ prec op < p

/-- Guard precedence needed on the surrounding stack while the rendering of
a node is consumed: an `Or` chain contains bare `'|'` operators (guard 1),
an `And` chain bare `'&'` operators (guard 2); atoms and `'!'` prefixes
never trigger the precedence pop, so any stack is safe (guard 4 holds of
every stack, every operator having precedence at most 3). -/
def gP : Node → Nat
  | .Or _ => 1
  | .And _ => 2
  | _ => 4

/-- Lower bound on the precedence of the operators that consuming the
rendering of a node leaves pending on the operator stack. -/
def sP : Node → Nat
  | .Or _ => 1
  | .And _ => 2
  | _ => 3

/-- Specification of the shunting-yard loop on the rendering of one node:
consuming its tokens from any state whose stack satisfies the guard
leaves the output and a batch `σ` of pending high-precedence operators on
the stack; applying `σ` to the output pushes exactly the raw
(left-associated, not yet canonicalized) parse of the node. -/
def PSpec (n : Node) : Prop :=
  ∀ (out : List Node) (ops : List Char), Stop (gP n) ops →
    ∃ (σ : List Char) (out2 : List Node),
      List.foldlM parseStep (out, ops) (printToks n) = .ok (out2, σ ++ ops) ∧
        (∀ op ∈ σ, op ≠ '(' ∧ sP n ≤ prec op) ∧
        unwind σ out2 = .ok (rawParse n :: out)

/-! ### Supporting lemmas -/

theorem ws_enum {c : Char} (h : c.isWhitespace = true) :
    c = ' ' ∨ c = '\t' ∨ c = '\r' ∨ c = '\n' := by
  simp only [Char.isWhitespace, Bool.or_eq_true, decide_eq_true_eq] at h
  tauto

theorem alpha_not_ws {c : Char} (h : c.isAlpha = true) : c.isWhitespace = false := by
  by_contra hws
  rw [Bool.not_eq_false] at hws
  rcases ws_enum hws with h2 | h2 | h2 | h2 <;> subst h2 <;> simp_all

theorem digit_not_ws {c : Char} (h : c.isDigit = true) : c.isWhitespace = false := by
  by_contra hws
  rw [Bool.not_eq_false] at hws
  rcases ws_enum hws with h2 | h2 | h2 | h2 <;> subst h2 <;> simp_all

theorem punct_enum {c : Char} (h : isPunct c) :
    c = '!' ∨ c = '&' ∨ c = '|' ∨ c = '(' ∨ c = ')' := h

theorem alpha_not_punct {c : Char} (h : c.isAlpha = true) : ¬ isPunct c := by
  intro hp
  rcases punct_enum hp with h2 | h2 | h2 | h2 | h2 <;> subst h2 <;> simp_all

theorem digit_not_punct {c : Char} (h : c.isDigit = true) : ¬ isPunct c := by
  intro hp
  rcases punct_enum hp with h2 | h2 | h2 | h2 | h2 <;> subst h2 <;> simp_all

theorem alpha_not_digit {c : Char} (h : c.isAlpha = true) : c.isDigit = false := by
  simp only [Char.isAlpha, Char.isUpper, Char.isLower, Bool.or_eq_true,
    Bool.and_eq_true, decide_eq_true_eq] at h
  simp only [Char.isDigit, Bool.and_eq_false_iff, decide_eq_false_iff_not]
  right
  intro hc
  simp only [ge_iff_le, UInt32.le_def, BitVec.le_def] at h hc
  have e2 : (57 : UInt32).toBitVec.toNat = 57 := rfl
  have e3 : (65 : UInt32).toBitVec.toNat = 65 := rfl
  have e5 : (97 : UInt32).toBitVec.toNat = 97 := rfl
  rw [e2] at hc
  rcases h with ⟨h1, h2⟩ | ⟨h1, h2⟩
  · rw [e3] at h1
    omega
  · rw [e5] at h1
    omega

theorem underscore_facts :
    ('_').isWhitespace = false ∧ ¬ isPunct '_' ∧ ('_').isDigit = false := by
  refine ⟨by decide, by decide, by decide⟩

theorem except_bind_ok {ε α β : Type} {x : Except ε α} {f : α → Except ε β} {a : α}
    (h : x = .ok a) : (x >>= f) = f a := by subst h; rfl

theorem except_bind_error {ε α β : Type} {x : Except ε α} {f : α → Except ε β} {e : ε}
    (h : x = .error e) : (x >>= f) = .error e := by subst h; rfl

theorem tokStep_ident_start {toks : List (List Char)} {c : Char}
    (h : c.isAlpha = true ∨ c = '_') : tokStep ⟨toks, []⟩ c = .ok ⟨toks, [c]⟩ := by
  unfold tokStep
  rw [if_neg (by simp)]
  show (if c.isWhitespace = true then _ else _) = _
  rcases h with h | h
  · rw [if_neg (by simp [alpha_not_ws h]), if_neg (alpha_not_punct h),
      if_neg (by simp [alpha_not_digit h]), if_pos (by simp [h])]
    rfl
  · subst h
    rw [if_neg (by simp), if_neg (by simp [isPunct]), if_neg (by simp), if_pos (by simp)]
    rfl

theorem tokStep_ident_ext {toks : List (List Char)} {cur : List Char} {c : Char}
    (hcur : cur ≠ []) (h : c.isAlphanum = true ∨ c = '_') :
    tokStep ⟨toks, cur⟩ c = .ok ⟨toks, c :: cur⟩ := by
  unfold tokStep
  rw [if_pos]
  constructor
  · simpa using hcur
  · rcases h with h | h
    · left; exact h
    · right; exact h

theorem flushTok_neutral {toks : List (List Char)} : flushTok ⟨toks, []⟩ = ⟨toks, []⟩ := rfl

theorem flushTok_idem (st : TokSt) : flushTok (flushTok st) = flushTok st := by
  cases hc : st.cur <;> simp [flushTok, hc]

theorem flushTok_toks (toks : List (List Char)) (cur : List Char) (h : cur ≠ []) :
    (flushTok ⟨toks, cur⟩).toks = cur.reverse :: toks := by
  cases cur with
  | nil => exact absurd rfl h
  | cons a l => rfl

theorem tokStep_punct {st : TokSt} {c : Char} (h : isPunct c) :
    tokStep st c = .ok ⟨[c] :: (flushTok st).toks, []⟩ := by
  have hext : ¬ (c.isAlphanum = true ∨ c = '_') := by
    intro hx
    rcases hx with hx | hx
    · simp only [Char.isAlphanum, Bool.or_eq_true] at hx
      rcases hx with hx | hx
      · exact alpha_not_punct hx h
      · exact digit_not_punct hx h
    · subst hx
      rcases punct_enum h with h2 | h2 | h2 | h2 | h2 <;> simp at h2
  have hws : c.isWhitespace = false := by
    rcases punct_enum h with h2 | h2 | h2 | h2 | h2 <;> subst h2 <;> decide
  unfold tokStep
  rw [if_neg (by
    intro hx
    exact hext hx.2)]
  show (if c.isWhitespace = true then _ else _) = _
  rw [if_neg (by simp [hws]), if_pos h]
  have hcur : (flushTok st).cur = [] := by
    cases hc : st.cur <;> simp [flushTok, hc]
  cases hst : flushTok st with
  | mk t2 c2 =>
      rw [hst] at hcur
      simp only at hcur
      subst hcur
      rfl

theorem tokStep_space (st : TokSt) : tokStep st ' ' = .ok (flushTok st) := by
  unfold tokStep
  rw [if_neg (by simp), if_pos (by decide)]

theorem foldlM_tokStep_append (s1 s2 : List Char) (st : TokSt) :
    List.foldlM tokStep st (s1 ++ s2)
      = List.foldlM tokStep st s1 >>= fun st2 => List.foldlM tokStep st2 s2 := by
  induction s1 generalizing st with
  | nil => rfl
  | cons c s1 ih =>
      show List.foldlM tokStep st (c :: (s1 ++ s2)) = _
      rw [List.foldlM_cons, List.foldlM_cons]
      cases hstep : tokStep st c with
      | error e => rfl
      | ok st2 =>
          show List.foldlM tokStep st2 (s1 ++ s2)
              = List.foldlM tokStep st2 s1 >>= fun st3 => List.foldlM tokStep st3 s2
          exact ih st2

theorem tok_ident_run (rest : List Char) (hrest : ∀ d ∈ rest, d.isAlphanum = true ∨ d = '_') :
    ∀ (acc : List Char) (toks : List (List Char)), acc ≠ [] →
      List.foldlM tokStep ⟨toks, acc⟩ rest = .ok ⟨toks, rest.reverse ++ acc⟩ := by
  induction rest with
  | nil => intro acc toks _; rfl
  | cons d ds ih =>
      intro acc toks hacc
      rw [List.foldlM_cons, except_bind_ok (tokStep_ident_ext hacc (hrest d (by simp)))]
      rw [ih (fun e he => hrest e (by simp [he])) (d :: acc) toks (by simp)]
      simp

theorem foldlM_tokStep_single (st : TokSt) (c : Char) :
    List.foldlM tokStep st [c] = tokStep st c := by
  rw [List.foldlM_cons]
  cases h : tokStep st c with
  | error e => rfl
  | ok st2 => rfl

theorem joinToksAnd_cons (c : Node) (cs : List Node) (h : cs ≠ []) :
    joinToksAnd (c :: cs)
      = (['('] :: printToks c ++ [[')']] |> fun full =>
          match c with
          | .Or _ => full
          | _ => printToks c) ++ ['&'] :: joinToksAnd cs := by
  cases cs with
  | nil => exact absurd rfl h
  | cons d ds => cases c <;> rfl

theorem joinToksAnd_single (c : Node) :
    joinToksAnd [c]
      = (['('] :: printToks c ++ [[')']] |> fun full =>
          match c with
          | .Or _ => full
          | _ => printToks c) := by
  cases c <;> rfl

theorem joinToksOr_cons (c : Node) (cs : List Node) (h : cs ≠ []) :
    joinToksOr (c :: cs)
      = (['('] :: printToks c ++ [[')']] |> fun full =>
          match c with
          | .And _ => full
          | _ => printToks c) ++ ['|'] :: joinToksOr cs := by
  cases cs with
  | nil => exact absurd rfl h
  | cons d ds => cases c <;> rfl

theorem joinToksOr_single (c : Node) :
    joinToksOr [c]
      = (['('] :: printToks c ++ [[')']] |> fun full =>
          match c with
          | .And _ => full
          | _ => printToks c) := by
  cases c <;> rfl

theorem strJoinAnd_single (c : Node) : strJoinAnd [c] = _maybe_paren_for_and c := by
  cases c <;> rfl

theorem strJoinAnd_cons (c : Node) (cs : List Node) (h : cs ≠ []) :
    strJoinAnd (c :: cs) = _maybe_paren_for_and c ++ ' ' :: '&' :: ' ' :: strJoinAnd cs := by
  cases cs with
  | nil => exact absurd rfl h
  | cons d ds => cases c <;> rfl

theorem strJoinOr_single (c : Node) : strJoinOr [c] = _maybe_paren_for_or c := by
  cases c <;> rfl

theorem strJoinOr_cons (c : Node) (cs : List Node) (h : cs ≠ []) :
    strJoinOr (c :: cs) = _maybe_paren_for_or c ++ ' ' :: '|' :: ' ' :: strJoinOr cs := by
  cases cs with
  | nil => exact absurd rfl h
  | cons d ds => cases c <;> rfl

theorem strJoinAnd_cons2 (c d : Node) (ds : List Node) :
    strJoinAnd (c :: d :: ds) = strJoinAnd [c] ++ ' ' :: '&' :: ' ' :: strJoinAnd (d :: ds) := by
  cases c <;> rfl

theorem strJoinOr_cons2 (c d : Node) (ds : List Node) :
    strJoinOr (c :: d :: ds) = strJoinOr [c] ++ ' ' :: '|' :: ' ' :: strJoinOr (d :: ds) := by
  cases c <;> rfl

theorem joinToksAnd_cons2 (c d : Node) (ds : List Node) :
    joinToksAnd (c :: d :: ds) = joinToksAnd [c] ++ ['&'] :: joinToksAnd (d :: ds) := by
  cases c <;> rfl

theorem joinToksOr_cons2 (c d : Node) (ds : List Node) :
    joinToksOr (c :: d :: ds) = joinToksOr [c] ++ ['|'] :: joinToksOr (d :: ds) := by
  cases c <;> rfl

theorem tok_paren (c : Node) (hS : TokSpec c) (toks : List (List Char)) :
    ∃ st2 : TokSt,
      List.foldlM tokStep ⟨toks, []⟩ ('(' :: node_to_str c ++ [')']) = .ok st2 ∧
        (flushTok st2).toks = (['('] :: printToks c ++ [[')']]).reverse ++ toks := by
  obtain ⟨stm, hrun, htoks⟩ := hS (['('] :: toks)
  refine ⟨⟨[')'] :: (flushTok stm).toks, []⟩, ?_, ?_⟩
  · rw [List.cons_append, List.foldlM_cons,
      except_bind_ok (show tokStep ⟨toks, []⟩ '(' = .ok ⟨['('] :: toks, []⟩ from
        tokStep_punct (by right; right; right; left; rfl)),
      foldlM_tokStep_append, except_bind_ok hrun, foldlM_tokStep_single,
      tokStep_punct (by right; right; right; right; rfl)]
  · show [')'] :: (flushTok stm).toks = _
    rw [htoks]
    simp

theorem tok_atom_start {toks : List (List Char)} :
    tokStep ⟨toks, []⟩ '1' = .ok ⟨['1'] :: toks, []⟩ ∧
      tokStep ⟨toks, []⟩ '0' = .ok ⟨['0'] :: toks, []⟩ ∧
      tokStep ⟨toks, []⟩ '!' = .ok ⟨['!'] :: toks, []⟩ := by
  refine ⟨?_, ?_, ?_⟩ <;> rfl

theorem tok_print : ∀ n : Node, wfN n → TokSpec n := by
  have join_and : ∀ cs : List Node, (∀ c ∈ cs, TokSpec c) →
      ∀ toks : List (List Char), ∃ st2 : TokSt,
        List.foldlM tokStep ⟨toks, []⟩ (strJoinAnd cs) = .ok st2 ∧
          (flushTok st2).toks = (joinToksAnd cs).reverse ++ toks := by
    intro cs
    induction cs with
    | nil =>
        intro _ toks
        exact ⟨⟨toks, []⟩, rfl, by simp [joinToksAnd, flushTok_neutral]⟩
    | cons c cs ih =>
        intro hS toks
        have hsingle : ∀ t0 : List (List Char), ∃ stm : TokSt,
            List.foldlM tokStep ⟨t0, []⟩ (strJoinAnd [c]) = .ok stm ∧
              (flushTok stm).toks = (joinToksAnd [c]).reverse ++ t0 := by
          intro t0
          rw [strJoinAnd_single, joinToksAnd_single]
          cases c <;> simp only [_maybe_paren_for_and]
          case Or gs => exact tok_paren _ (hS _ (by simp)) t0
          all_goals exact hS _ (by simp) t0
        cases cs with
        | nil => exact hsingle toks
        | cons d ds =>
            obtain ⟨stm, hrun, htoks⟩ := hsingle toks
            obtain ⟨stf, hrunf, htoksf⟩ := ih (fun x hx => hS x (by simp [hx]))
              (['&'] :: (flushTok stm).toks)
            refine ⟨stf, ?_, ?_⟩
            · rw [strJoinAnd_cons2, foldlM_tokStep_append, except_bind_ok hrun,
                List.foldlM_cons, except_bind_ok (tokStep_space stm), List.foldlM_cons,
                except_bind_ok (tokStep_punct (show isPunct '&' by right; left; rfl)),
                List.foldlM_cons, except_bind_ok (tokStep_space _),
                flushTok_idem, flushTok_neutral]
              exact hrunf
            · rw [joinToksAnd_cons2, htoksf, htoks]
              simp
  have join_or : ∀ cs : List Node, (∀ c ∈ cs, TokSpec c) →
      ∀ toks : List (List Char), ∃ st2 : TokSt,
        List.foldlM tokStep ⟨toks, []⟩ (strJoinOr cs) = .ok st2 ∧
          (flushTok st2).toks = (joinToksOr cs).reverse ++ toks := by
    intro cs
    induction cs with
    | nil =>
        intro _ toks
        exact ⟨⟨toks, []⟩, rfl, by simp [joinToksOr, flushTok_neutral]⟩
    | cons c cs ih =>
        intro hS toks
        have hsingle : ∀ t0 : List (List Char), ∃ stm : TokSt,
            List.foldlM tokStep ⟨t0, []⟩ (strJoinOr [c]) = .ok stm ∧
              (flushTok stm).toks = (joinToksOr [c]).reverse ++ t0 := by
          intro t0
          rw [strJoinOr_single, joinToksOr_single]
          cases c <;> simp only [_maybe_paren_for_or]
          case And gs => exact tok_paren _ (hS _ (by simp)) t0
          all_goals exact hS _ (by simp) t0
        cases cs with
        | nil => exact hsingle toks
        | cons d ds =>
            obtain ⟨stm, hrun, htoks⟩ := hsingle toks
            obtain ⟨stf, hrunf, htoksf⟩ := ih (fun x hx => hS x (by simp [hx]))
              (['|'] :: (flushTok stm).toks)
            refine ⟨stf, ?_, ?_⟩
            · rw [strJoinOr_cons2, foldlM_tokStep_append, except_bind_ok hrun,
                List.foldlM_cons, except_bind_ok (tokStep_space stm), List.foldlM_cons,
                except_bind_ok (tokStep_punct (show isPunct '|' by right; right; left; rfl)),
                List.foldlM_cons, except_bind_ok (tokStep_space _),
                flushTok_idem, flushTok_neutral]
              exact hrunf
            · rw [joinToksOr_cons2, htoksf, htoks]
              simp
  intro n
  induction n using Node.myrec with
  | hc b =>
      intro _ toks
      cases b
      · exact ⟨⟨['0'] :: toks, []⟩, by
          rw [show node_to_str (.Const false) = ['0'] from rfl, foldlM_tokStep_single]
          exact tok_atom_start.2.1, by simp [printToks, flushTok_neutral]⟩
      · exact ⟨⟨['1'] :: toks, []⟩, by
          rw [show node_to_str (.Const true) = ['1'] from rfl, foldlM_tokStep_single]
          exact tok_atom_start.1, by simp [printToks, flushTok_neutral]⟩
  | hv s =>
      intro hwf toks
      have hid : isIdentTok s := by cases hwf with | var _ h => exact h
      match s, hid with
      | c :: rest, hid =>
          obtain ⟨hc, hrest⟩ := hid
          refine ⟨⟨toks, rest.reverse ++ [c]⟩, ?_, ?_⟩
          · rw [show node_to_str (.Var (c :: rest)) = c :: rest from rfl, List.foldlM_cons,
              except_bind_ok (tokStep_ident_start hc)]
            exact tok_ident_run rest hrest [c] toks (by simp)
          · rw [flushTok_toks toks (rest.reverse ++ [c]) (by simp)]
            simp [printToks]
  | hn c ihc =>
      intro hwf toks
      have hwfc : wfN c := by cases hwf with | not _ h => exact h
      have hS := ihc hwfc
      cases c
      case And cs =>
          obtain ⟨st2, hrun, htoks⟩ := tok_paren (.And cs) hS (['!'] :: toks)
          refine ⟨st2, ?_, ?_⟩
          · rw [show node_to_str (.Not (.And cs))
                = '!' :: ('(' :: node_to_str (.And cs) ++ [')']) from rfl,
              List.foldlM_cons, except_bind_ok tok_atom_start.2.2]
            exact hrun
          · rw [htoks]
            simp [printToks]
      case Or cs =>
          obtain ⟨st2, hrun, htoks⟩ := tok_paren (.Or cs) hS (['!'] :: toks)
          refine ⟨st2, ?_, ?_⟩
          · rw [show node_to_str (.Not (.Or cs))
                = '!' :: ('(' :: node_to_str (.Or cs) ++ [')']) from rfl,
              List.foldlM_cons, except_bind_ok tok_atom_start.2.2]
            exact hrun
          · rw [htoks]
            simp [printToks]
      case Const b =>
          obtain ⟨st2, hrun, htoks⟩ := hS (['!'] :: toks)
          refine ⟨st2, ?_, ?_⟩
          · rw [show node_to_str (.Not (.Const b)) = '!' :: node_to_str (.Const b) from rfl,
              List.foldlM_cons, except_bind_ok tok_atom_start.2.2]
            exact hrun
          · rw [htoks]
            simp [printToks]
      case Var s2 =>
          obtain ⟨st2, hrun, htoks⟩ := hS (['!'] :: toks)
          refine ⟨st2, ?_, ?_⟩
          · rw [show node_to_str (.Not (.Var s2)) = '!' :: node_to_str (.Var s2) from rfl,
              List.foldlM_cons, except_bind_ok tok_atom_start.2.2]
            exact hrun
          · rw [htoks]
            simp [printToks]
      case Not c2 =>
          obtain ⟨st2, hrun, htoks⟩ := hS (['!'] :: toks)
          refine ⟨st2, ?_, ?_⟩
          · rw [show node_to_str (.Not (.Not c2)) = '!' :: node_to_str (.Not c2) from rfl,
              List.foldlM_cons, except_bind_ok tok_atom_start.2.2]
            exact hrun
          · rw [htoks]
            simp [printToks]
  | ha cs ih =>
      intro hwf toks
      have hm : ∀ c ∈ cs, wfN c := by cases hwf with | and _ h => exact h
      exact join_and cs (fun c hc => ih c hc (hm c hc)) toks
  | ho cs ih =>
      intro hwf toks
      have hm : ∀ c ∈ cs, wfN c := by cases hwf with | or _ h => exact h
      exact join_or cs (fun c hc => ih c hc (hm c hc)) toks

theorem tokenize_print (n : Node) (h : wfN n) : _tokenize (node_to_str n) = .ok (printToks n) := by
  obtain ⟨st2, hrun, htoks⟩ := tok_print n h []
  unfold _tokenize
  rw [except_bind_ok hrun]
  show Except.ok (flushTok st2).toks.reverse = _
  rw [htoks]
  simp


theorem collapse1_of_ne_one (mk : List Node → Node) (kids : List Node)
    (h : kids.length ≠ 1) : collapse1 mk kids = mk kids := by
  match kids with
  | [] => rfl
  | [k] => exact absurd rfl h
  | a :: b :: t => rfl

theorem sorted_sort_nodes (l : List Node) : List.Sorted nodeLe (_sort_nodes l) :=
  List.sorted_insertionSort nodeLe l

theorem mem_sort_nodes {x : Node} {l : List Node} : x ∈ _sort_nodes l ↔ x ∈ l :=
  (List.perm_insertionSort nodeLe l).mem_iff

theorem sort_nodes_of_sorted {l : List Node} (h : List.Sorted nodeLe l) :
    _sort_nodes l = l :=
  List.Sorted.insertionSort_eq h

theorem mem_flattenAnd {cs : List Node} (hcn : ∀ c ∈ cs, CN (_normalize_tree c)) :
    ∀ x ∈ flattenAnd cs, CN x ∧ isAnd x = false := by
  induction cs with
  | nil => intro x hx; simp [flattenAnd] at hx
  | cons c cs ih =>
      intro x hx
      simp only [flattenAnd] at hx
      rcases List.mem_append.mp hx with h | h
      · have hCN := hcn c (by simp)
        cases hnc : _normalize_tree c <;> rw [hnc] at h hCN <;>
          simp only [List.mem_singleton] at h
        case And gs =>
          cases hCN with
          | and _ hg hna _ _ => exact ⟨hg x h, hna x h⟩
        all_goals subst h
        · exact ⟨hCN, rfl⟩
        · exact ⟨hCN, rfl⟩
        · exact ⟨hCN, rfl⟩
        · exact ⟨hCN, rfl⟩
      · exact ih (fun d hd => hcn d (by simp [hd])) x h

theorem mem_flattenOr {cs : List Node} (hcn : ∀ c ∈ cs, CN (_normalize_tree c)) :
    ∀ x ∈ flattenOr cs, CN x ∧ isOr x = false := by
  induction cs with
  | nil => intro x hx; simp [flattenOr] at hx
  | cons c cs ih =>
      intro x hx
      simp only [flattenOr] at hx
      rcases List.mem_append.mp hx with h | h
      · have hCN := hcn c (by simp)
        cases hnc : _normalize_tree c <;> rw [hnc] at h hCN <;>
          simp only [List.mem_singleton] at h
        case Or gs =>
          cases hCN with
          | or _ hg hno _ _ => exact ⟨hg x h, hno x h⟩
        all_goals subst h
        · exact ⟨hCN, rfl⟩
        · exact ⟨hCN, rfl⟩
        · exact ⟨hCN, rfl⟩
        · exact ⟨hCN, rfl⟩
      · exact ih (fun d hd => hcn d (by simp [hd])) x h

theorem CN_normalize (n : Node) : CN (_normalize_tree n) := by
  induction n using Node.myrec with
  | hc b => exact CN.const b
  | hv s => exact CN.var s
  | hn c ih => exact CN.not _ ih
  | ha cs ih =>
      show CN (collapse1 .And (_sort_nodes (flattenAnd cs)))
      have hmem : ∀ x ∈ _sort_nodes (flattenAnd cs), CN x ∧ isAnd x = false :=
        fun x hx => mem_flattenAnd ih x (mem_sort_nodes.mp hx)
      by_cases hlen : (_sort_nodes (flattenAnd cs)).length = 1
      · match hk : _sort_nodes (flattenAnd cs), hlen with
        | [k], _ =>
            have := hmem k (by rw [hk]; simp)
            simpa [collapse1] using this.1
      · rw [collapse1_of_ne_one _ _ hlen]
        exact CN.and _ (fun x hx => (hmem x hx).1) (fun x hx => (hmem x hx).2)
          (sorted_sort_nodes _) hlen
  | ho cs ih =>
      show CN (collapse1 .Or (_sort_nodes (flattenOr cs)))
      have hmem : ∀ x ∈ _sort_nodes (flattenOr cs), CN x ∧ isOr x = false :=
        fun x hx => mem_flattenOr ih x (mem_sort_nodes.mp hx)
      by_cases hlen : (_sort_nodes (flattenOr cs)).length = 1
      · match hk : _sort_nodes (flattenOr cs), hlen with
        | [k], _ =>
            have := hmem k (by rw [hk]; simp)
            simpa [collapse1] using this.1
      · rw [collapse1_of_ne_one _ _ hlen]
        exact CN.or _ (fun x hx => (hmem x hx).1) (fun x hx => (hmem x hx).2)
          (sorted_sort_nodes _) hlen

theorem flattenAnd_of_fixed {cs : List Node}
    (h : ∀ c ∈ cs, _normalize_tree c = c ∧ isAnd c = false) : flattenAnd cs = cs := by
  induction cs with
  | nil => rfl
  | cons c cs ih =>
      have hc := h c (by simp)
      have hrest := ih (fun d hd => h d (by simp [hd]))
      simp only [flattenAnd, hc.1, hrest]
      cases c <;> first | rfl | exact absurd hc.2 (by simp [isAnd])

theorem flattenOr_of_fixed {cs : List Node}
    (h : ∀ c ∈ cs, _normalize_tree c = c ∧ isOr c = false) : flattenOr cs = cs := by
  induction cs with
  | nil => rfl
  | cons c cs ih =>
      have hc := h c (by simp)
      have hrest := ih (fun d hd => h d (by simp [hd]))
      simp only [flattenOr, hc.1, hrest]
      cases c <;> first | rfl | exact absurd hc.2 (by simp [isOr])

theorem normalize_of_CN : ∀ n : Node, CN n → _normalize_tree n = n := by
  intro n
  induction n using Node.myrec with
  | hc b => intro _; rfl
  | hv s => intro _; rfl
  | hn c ih => intro h; cases h with | not _ hc => simp only [_normalize_tree, ih hc]
  | ha cs ih =>
      intro h
      cases h with
      | and _ hm hna hs hl =>
          show collapse1 .And (_sort_nodes (flattenAnd cs)) = .And cs
          rw [flattenAnd_of_fixed (fun c hc => ⟨ih c hc (hm c hc), hna c hc⟩),
            sort_nodes_of_sorted hs, collapse1_of_ne_one _ _ hl]
  | ho cs ih =>
      intro h
      cases h with
      | or _ hm hno hs hl =>
          show collapse1 .Or (_sort_nodes (flattenOr cs)) = .Or cs
          rw [flattenOr_of_fixed (fun c hc => ⟨ih c hc (hm c hc), hno c hc⟩),
            sort_nodes_of_sorted hs, collapse1_of_ne_one _ _ hl]


/-- C5: canonicalization is idempotent — for every AST `x`,
`_normalize_tree (_normalize_tree x) = _normalize_tree x`. -/
theorem c5_normalize_idempotent (x : Node) :
    _normalize_tree (_normalize_tree x) = _normalize_tree x :=
  normalize_of_CN _ (CN_normalize x)

theorem canonInv_CN : ∀ n : Node, canonInv n → CN n := by
  intro n
  induction n using Node.myrec with
  | hc b => intro _; exact CN.const b
  | hv s => intro _; exact CN.var s
  | hn c ih => intro h; cases h with | not _ hc => exact CN.not _ (ih hc)
  | ha cs ih =>
      intro h
      cases h with
      | and _ hm hna hs hl =>
          exact CN.and _ (fun c hc => ih c hc (hm c hc)) hna hs (by omega)
  | ho cs ih =>
      intro h
      cases h with
      | or _ hm hno hs hl =>
          exact CN.or _ (fun c hc => ih c hc (hm c hc)) hno hs (by omega)

theorem canonInv_wf1 : ∀ n : Node, canonInv n → wf1 n := by
  intro n
  induction n using Node.myrec with
  | hc b => intro _; exact wf1.const b
  | hv s => intro _; exact wf1.var s
  | hn c ih => intro h; cases h with | not _ hc => exact wf1.not _ (ih hc)
  | ha cs ih =>
      intro h
      cases h with
      | and _ hm _ _ hl =>
          exact wf1.and _ (fun c hc => ih c hc (hm c hc))
            (by intro he; rw [he] at hl; simp at hl)
  | ho cs ih =>
      intro h
      cases h with
      | or _ hm _ _ hl =>
          exact wf1.or _ (fun c hc => ih c hc (hm c hc))
            (by intro he; rw [he] at hl; simp at hl)

theorem mem_flattenAnd_canon {cs : List Node}
    (hcn : ∀ c ∈ cs, canonInv (_normalize_tree c)) :
    ∀ x ∈ flattenAnd cs, canonInv x ∧ isAnd x = false := by
  induction cs with
  | nil => intro x hx; simp [flattenAnd] at hx
  | cons c cs ih =>
      intro x hx
      simp only [flattenAnd] at hx
      rcases List.mem_append.mp hx with h | h
      · have hCN := hcn c (by simp)
        cases hnc : _normalize_tree c <;> rw [hnc] at h hCN <;>
          simp only [List.mem_singleton] at h
        case And gs =>
          cases hCN with
          | and _ hg hna _ _ => exact ⟨hg x h, hna x h⟩
        all_goals subst h
        · exact ⟨hCN, rfl⟩
        · exact ⟨hCN, rfl⟩
        · exact ⟨hCN, rfl⟩
        · exact ⟨hCN, rfl⟩
      · exact ih (fun d hd => hcn d (by simp [hd])) x h

theorem mem_flattenOr_canon {cs : List Node}
    (hcn : ∀ c ∈ cs, canonInv (_normalize_tree c)) :
    ∀ x ∈ flattenOr cs, canonInv x ∧ isOr x = false := by
  induction cs with
  | nil => intro x hx; simp [flattenOr] at hx
  | cons c cs ih =>
      intro x hx
      simp only [flattenOr] at hx
      rcases List.mem_append.mp hx with h | h
      · have hCN := hcn c (by simp)
        cases hnc : _normalize_tree c <;> rw [hnc] at h hCN <;>
          simp only [List.mem_singleton] at h
        case Or gs =>
          cases hCN with
          | or _ hg hno _ _ => exact ⟨hg x h, hno x h⟩
        all_goals subst h
        · exact ⟨hCN, rfl⟩
        · exact ⟨hCN, rfl⟩
        · exact ⟨hCN, rfl⟩
        · exact ⟨hCN, rfl⟩
      · exact ih (fun d hd => hcn d (by simp [hd])) x h

theorem flattenAnd_ne_nil {cs : List Node} (hne : cs ≠ [])
    (hcn : ∀ c ∈ cs, canonInv (_normalize_tree c)) : flattenAnd cs ≠ [] := by
  cases cs with
  | nil => exact absurd rfl hne
  | cons c cs =>
      simp only [flattenAnd]
      intro h
      rcases List.append_eq_nil.mp h with ⟨h1, _⟩
      have hCN := hcn c (by simp)
      cases hnc : _normalize_tree c <;> rw [hnc] at h1 hCN <;> simp at h1
      case And gs =>
        subst h1
        cases hCN with
        | and _ _ _ _ hl => simp at hl

theorem flattenOr_ne_nil {cs : List Node} (hne : cs ≠ [])
    (hcn : ∀ c ∈ cs, canonInv (_normalize_tree c)) : flattenOr cs ≠ [] := by
  cases cs with
  | nil => exact absurd rfl hne
  | cons c cs =>
      simp only [flattenOr]
      intro h
      rcases List.append_eq_nil.mp h with ⟨h1, _⟩
      have hCN := hcn c (by simp)
      cases hnc : _normalize_tree c <;> rw [hnc] at h1 hCN <;> simp at h1
      case Or gs =>
        subst h1
        cases hCN with
        | or _ _ _ _ hl => simp at hl

theorem canonInv_normalize : ∀ n : Node, wf1 n → canonInv (_normalize_tree n) := by
  intro n
  induction n using Node.myrec with
  | hc b => intro _; exact canonInv.const b
  | hv s => intro _; exact canonInv.var s
  | hn c ih => intro h; cases h with | not _ hc => exact canonInv.not _ (ih hc)
  | ha cs ih =>
      intro h
      cases h with
      | and _ hm hne =>
          show canonInv (collapse1 .And (_sort_nodes (flattenAnd cs)))
          have hcn : ∀ c ∈ cs, canonInv (_normalize_tree c) :=
            fun c hc => ih c hc (hm c hc)
          have hmem : ∀ x ∈ _sort_nodes (flattenAnd cs), canonInv x ∧ isAnd x = false :=
            fun x hx => mem_flattenAnd_canon hcn x (mem_sort_nodes.mp hx)
          have hlen0 : _sort_nodes (flattenAnd cs) ≠ [] := by
            intro h0
            have hperm := List.perm_insertionSort nodeLe (flattenAnd cs)
            rw [show List.insertionSort nodeLe (flattenAnd cs)
                  = _sort_nodes (flattenAnd cs) from rfl, h0] at hperm
            exact flattenAnd_ne_nil hne hcn hperm.symm.eq_nil
          by_cases hlen : (_sort_nodes (flattenAnd cs)).length = 1
          · match hk : _sort_nodes (flattenAnd cs), hlen with
            | [k], _ =>
                have := hmem k (by rw [hk]; simp)
                simpa [collapse1] using this.1
          · rw [collapse1_of_ne_one _ _ hlen]
            refine canonInv.and _ (fun x hx => (hmem x hx).1) (fun x hx => (hmem x hx).2)
              (sorted_sort_nodes _) ?_
            rcases (_sort_nodes (flattenAnd cs)).length.eq_zero_or_pos with h0 | h0
            · exact absurd (List.length_eq_zero.mp h0) hlen0
            · omega
  | ho cs ih =>
      intro h
      cases h with
      | or _ hm hne =>
          show canonInv (collapse1 .Or (_sort_nodes (flattenOr cs)))
          have hcn : ∀ c ∈ cs, canonInv (_normalize_tree c) :=
            fun c hc => ih c hc (hm c hc)
          have hmem : ∀ x ∈ _sort_nodes (flattenOr cs), canonInv x ∧ isOr x = false :=
            fun x hx => mem_flattenOr_canon hcn x (mem_sort_nodes.mp hx)
          have hlen0 : _sort_nodes (flattenOr cs) ≠ [] := by
            intro h0
            have hperm := List.perm_insertionSort nodeLe (flattenOr cs)
            rw [show List.insertionSort nodeLe (flattenOr cs)
                  = _sort_nodes (flattenOr cs) from rfl, h0] at hperm
            exact flattenOr_ne_nil hne hcn hperm.symm.eq_nil
          by_cases hlen : (_sort_nodes (flattenOr cs)).length = 1
          · match hk : _sort_nodes (flattenOr cs), hlen with
            | [k], _ =>
                have := hmem k (by rw [hk]; simp)
                simpa [collapse1] using this.1
          · rw [collapse1_of_ne_one _ _ hlen]
            refine canonInv.or _ (fun x hx => (hmem x hx).1) (fun x hx => (hmem x hx).2)
              (sorted_sort_nodes _) ?_
            rcases (_sort_nodes (flattenOr cs)).length.eq_zero_or_pos with h0 | h0
            · exact absurd (List.length_eq_zero.mp h0) hlen0
            · omega

theorem wf1_normalize (n : Node) (h : wf1 n) : wf1 (_normalize_tree n) :=
  canonInv_wf1 _ (canonInv_normalize n h)

theorem mem_unique_aux {x : Node} : ∀ {l seen : List Node}, x ∈ _unique_nodes_aux l seen → x ∈ l := by
  intro l
  induction l with
  | nil => intro seen h; simp [_unique_nodes_aux] at h
  | cons n ns ih =>
      intro seen h
      simp only [_unique_nodes_aux] at h
      split at h
      · exact List.mem_cons_of_mem n (ih h)
      · rcases List.mem_cons.mp h with h | h
        · exact h ▸ List.mem_cons_self n ns
        · exact List.mem_cons_of_mem n (ih h)

theorem mem_unique {x : Node} {l : List Node} (h : x ∈ _unique_nodes l) : x ∈ l :=
  mem_unique_aux h

theorem unique_ne_nil {l : List Node} (h : l ≠ []) : _unique_nodes l ≠ [] := by
  cases l with
  | nil => exact absurd rfl h
  | cons n ns => simp [_unique_nodes, _unique_nodes_aux]

theorem foldl_filter_subset (g : Node → Node → Bool) :
    ∀ (ts : List Node) (acc : List Node),
      ∀ x ∈ ts.foldl (fun a u => a.filter (g u)) acc, x ∈ acc := by
  intro ts
  induction ts with
  | nil => intro acc x hx; simpa using hx
  | cons t ts ih =>
      intro acc x hx
      simp only [List.foldl_cons] at hx
      exact (List.mem_filter.mp (ih _ x hx)).1

theorem commonOfTerms_subset (f : Node → List Node) (ts : List Node) :
    ∀ x ∈ commonOfTerms f ts, ∃ t ∈ ts, x ∈ f t := by
  cases ts with
  | nil => intro x hx; simp [commonOfTerms] at hx
  | cons t rest =>
      intro x hx
      simp only [commonOfTerms] at hx
      exact ⟨t, by simp, mem_unique (foldl_filter_subset _ rest _ x hx)⟩

theorem absorbAnd_mem {l : List Node} {x : Node} (h : absorbAnd l = some x) : x ∈ l := by
  unfold absorbAnd at h
  obtain ⟨c, hc, hfc⟩ := List.exists_of_findSome?_eq_some h
  cases c <;> simp only at hfc
  case Or gs =>
    obtain ⟨y, hy, hfy⟩ := List.exists_of_findSome?_eq_some hfc
    split at hfy
    · cases hfy; exact hy
    · cases hfy
  all_goals cases hfc

theorem absorbOr_mem {l : List Node} {x : Node} (h : absorbOr l = some x) : x ∈ l := by
  unfold absorbOr at h
  obtain ⟨c, hc, hfc⟩ := List.exists_of_findSome?_eq_some h
  cases c <;> simp only at hfc
  case And gs =>
    obtain ⟨y, hy, hfy⟩ := List.exists_of_findSome?_eq_some hfc
    split at hfy
    · cases hfy; exact hy
    · cases hfy
  all_goals cases hfc

theorem factors_and_wf1 {t : Node} (h : wf1 t) : ∀ x ∈ factors_and t, wf1 x := by
  cases t <;> simp only [factors_and]
  case And cs => cases h with | and _ hm _ => exact hm
  all_goals intro x hx; rw [List.mem_singleton] at hx; exact hx ▸ h

theorem factors_or_wf1 {t : Node} (h : wf1 t) : ∀ x ∈ factors_or t, wf1 x := by
  cases t <;> simp only [factors_or]
  case Or cs => cases h with | or _ hm _ => exact hm
  all_goals intro x hx; rw [List.mem_singleton] at hx; exact hx ▸ h

theorem andRules_unchanged {l : List Node} {m : Node} {law : Option (List Char)}
    (h : andRules l = (m, false, law)) : m = .And l ∧ law = none := by
  unfold andRules at h
  dsimp only at h
  repeat' split at h
  all_goals simp only [Prod.mk.injEq] at h
  all_goals
    first
    | exact ⟨h.1.symm, h.2.2.symm⟩
    | exact absurd h.2.1 (by simp)

theorem orRules_unchanged {l : List Node} {m : Node} {law : Option (List Char)}
    (h : orRules l = (m, false, law)) : m = .Or l ∧ law = none := by
  unfold orRules at h
  dsimp only at h
  repeat' split at h
  all_goals simp only [Prod.mk.injEq] at h
  all_goals
    first
    | exact ⟨h.1.symm, h.2.2.symm⟩
    | exact absurd h.2.1 (by simp)

theorem scan_unchanged_eq :
    ∀ (cs : List Node),
      (∀ c ∈ cs, ∀ m law, apply_rules_in_order c = (m, false, law) → m = c) →
      ∀ l, scanChildren cs = .unchanged l → l = cs := by
  intro cs
  induction cs with
  | nil =>
      intro _ l h
      simp only [scanChildren] at h
      cases h
      rfl
  | cons c cs ihl =>
      intro IH l h
      simp only [scanChildren] at h
      rcases hc : apply_rules_in_order c with ⟨c2, ch, law⟩
      rw [hc] at h
      cases ch
      · rcases hs : scanChildren cs with pre | rest <;> rw [hs] at h
        · cases h
        · cases h
          have h1 : c2 = c := IH c (by simp) c2 law hc
          have h2 : rest = cs := ihl (fun d hd => IH d (by simp [hd])) rest hs
          rw [h1, h2]
      · cases h

theorem apply_unchanged_eq :
    ∀ (n : Node) (m : Node) (law : Option (List Char)),
      apply_rules_in_order n = (m, false, law) → m = n := by
  intro n
  induction n using Node.myrec with
  | hc b => intro m law h; cases h; rfl
  | hv s => intro m law h; cases h; rfl
  | hn c ih =>
      intro m law h
      simp only [apply_rules_in_order] at h
      rcases hc : apply_rules_in_order c with ⟨child, ch, law2⟩
      rw [hc] at h
      cases ch
      · cases child <;> simp only at h <;> cases h <;> rfl
      · cases h
  | ha cs ih =>
      intro m law h
      simp only [apply_rules_in_order] at h
      rcases hs : scanChildren cs with pre | l <;> rw [hs] at h
      · cases h
      · have hl : l = cs := scan_unchanged_eq cs ih l hs
        rw [(andRules_unchanged h).1, hl]
  | ho cs ih =>
      intro m law h
      simp only [apply_rules_in_order] at h
      rcases hs : scanChildren cs with pre | l <;> rw [hs] at h
      · cases h
      · have hl : l = cs := scan_unchanged_eq cs ih l hs
        rw [(orRules_unchanged h).1, hl]

theorem rewrapRest_wf1 (mk : List Node → Node) (hmk : ∀ l, l ≠ [] → (∀ x ∈ l, wf1 x) → wf1 (mk l))
    (empty : Bool) (rest : List Node) (hr : ∀ x ∈ rest, wf1 x) :
    wf1 (rewrapRest mk empty rest) := by
  match rest with
  | [] => exact wf1.const empty
  | [x] => exact hr x (by simp)
  | a :: b :: t =>
      show wf1 (_normalize_tree (mk (a :: b :: t)))
      exact wf1_normalize _ (hmk _ (by simp) hr)

theorem factor_and_wf1 {l : List Node} {f : Node}
    (h : _factor_common_for_and l = some f) (hl : ∀ x ∈ l, wf1 x) : wf1 f := by
  unfold _factor_common_for_and at h
  dsimp only at h
  repeat' split at h
  all_goals try cases h
  case _ hterms hcomm hcf hall =>
    refine wf1_normalize _ (wf1.or _ ?_ (by simp))
    intro x hx
    rcases List.mem_append.mp hx with hx | hx
    · have hx2 : x ∈ commonOfTerms factors_or (l.filter isOr) :=
        (List.perm_insertionSort strLe _).mem_iff.mp hx
      obtain ⟨t, ht, hxt⟩ := commonOfTerms_subset _ _ x hx2
      exact factors_or_wf1 (hl t (List.mem_of_mem_filter ht)) x hxt
    · rw [List.mem_singleton] at hx
      subst hx
      refine wf1_normalize _ (wf1.and _ ?_ ?_)
      · intro y hy
        obtain ⟨t, ht, hyt⟩ := List.mem_map.mp hy
        subst hyt
        refine rewrapRest_wf1 _ (fun l2 hne2 hwf2 => wf1.or _ hwf2 hne2) _ _ ?_
        intro z hz
        exact factors_or_wf1 (hl t ht) z (List.mem_of_mem_filter hz)
      · intro hmape
        rw [List.map_eq_nil_iff] at hmape
        subst hmape
        simp at hterms

theorem factor_or_wf1 {l : List Node} {f : Node}
    (h : _factor_common_for_or l = some f) (hl : ∀ x ∈ l, wf1 x) : wf1 f := by
  unfold _factor_common_for_or at h
  dsimp only at h
  repeat' split at h
  all_goals try cases h
  case _ hterms hcomm hcf hall =>
    refine wf1_normalize _ (wf1.and _ ?_ (by simp))
    intro x hx
    rcases List.mem_append.mp hx with hx | hx
    · have hx2 : x ∈ commonOfTerms factors_and (l.filter isAnd) :=
        (List.perm_insertionSort strLe _).mem_iff.mp hx
      obtain ⟨t, ht, hxt⟩ := commonOfTerms_subset _ _ x hx2
      exact factors_and_wf1 (hl t (List.mem_of_mem_filter ht)) x hxt
    · rw [List.mem_singleton] at hx
      subst hx
      refine wf1_normalize _ (wf1.or _ ?_ ?_)
      · intro y hy
        obtain ⟨t, ht, hyt⟩ := List.mem_map.mp hy
        subst hyt
        refine rewrapRest_wf1 _ (fun l2 hne2 hwf2 => wf1.and _ hwf2 hne2) _ _ ?_
        intro z hz
        exact factors_and_wf1 (hl t ht) z (List.mem_of_mem_filter hz)
      · intro hmape
        rw [List.map_eq_nil_iff] at hmape
        subst hmape
        simp at hterms

theorem andRules_wf1 {l : List Node} (hl : ∀ x ∈ l, wf1 x) (hne : l ≠ []) :
    wf1 (andRules l).1 := by
  unfold andRules
  dsimp only
  repeat' split
  all_goals dsimp only
  · exact wf1_normalize _ (wf1.and _ (fun x hx => hl x (mem_unique hx)) (unique_ne_nil hne))
  · exact wf1.const false
  · exact wf1.const true
  · next x heq =>
      exact hl x (List.mem_of_mem_filter (heq ▸ List.mem_singleton_self x))
  · next heq1 heq2 =>
      refine wf1_normalize _ (wf1.and _ (fun x hx => hl x (List.mem_of_mem_filter hx)) ?_)
      intro h0
      exact heq1 (by
        rw [h0])
  · exact wf1.const false
  · next x heq => exact hl x (absorbAnd_mem heq)
  · next f heq => exact factor_and_wf1 heq hl
  · exact wf1.and _ hl hne

theorem orRules_wf1 {l : List Node} (hl : ∀ x ∈ l, wf1 x) (hne : l ≠ []) :
    wf1 (orRules l).1 := by
  unfold orRules
  dsimp only
  repeat' split
  all_goals dsimp only
  · exact wf1_normalize _ (wf1.or _ (fun x hx => hl x (mem_unique hx)) (unique_ne_nil hne))
  · exact wf1.const true
  · exact wf1.const false
  · next x heq =>
      exact hl x (List.mem_of_mem_filter (heq ▸ List.mem_singleton_self x))
  · next heq1 heq2 =>
      refine wf1_normalize _ (wf1.or _ (fun x hx => hl x (List.mem_of_mem_filter hx)) ?_)
      intro h0
      exact heq1 (by
        rw [h0])
  · exact wf1.const true
  · next x heq => exact hl x (absorbOr_mem heq)
  · next f heq => exact factor_or_wf1 heq hl
  · exact wf1.or _ hl hne

theorem scan_changed_wf (cs : List Node)
    (IH : ∀ c ∈ cs, wf1 c → wf1 (apply_rules_in_order c).1)
    (hwf : ∀ c ∈ cs, wf1 c) :
    ∀ pre c2 law suf, scanChildren cs = .changed pre c2 law suf →
      (∀ x ∈ pre, wf1 x) ∧ wf1 c2 ∧ (∀ x ∈ suf, wf1 x) := by
  induction cs with
  | nil =>
      intro pre c2 law suf h
      simp only [scanChildren] at h
      cases h
  | cons c cs ihl =>
      intro pre c2 law suf h
      simp only [scanChildren] at h
      rcases hc : apply_rules_in_order c with ⟨c2p, ch, lawp⟩
      rw [hc] at h
      cases ch <;> dsimp only at h
      · rcases hs : scanChildren cs with ⟨pre2, x2, law2, suf2⟩ | rest <;> rw [hs] at h
        · cases h
          have hin := ihl (fun d hd => IH d (by simp [hd])) (fun d hd => hwf d (by simp [hd]))
            pre2 c2 law suf hs
          refine ⟨?_, hin.2.1, hin.2.2⟩
          intro x hx
          rcases List.mem_cons.mp hx with hx | hx
          · subst hx
            have := IH c (by simp) (hwf c (by simp))
            rwa [hc] at this
          · exact hin.1 x hx
        · cases h
      · cases h
        refine ⟨by simp, ?_, fun x hx => hwf x (by simp [hx])⟩
        have := IH c (by simp) (hwf c (by simp))
        rwa [hc] at this

theorem apply_wf1 : ∀ n : Node, wf1 n → wf1 (apply_rules_in_order n).1 := by
  intro n
  induction n using Node.myrec with
  | hc b => intro _; exact wf1.const b
  | hv s => intro h; exact h
  | hn c ih =>
      intro h
      have hc1 : wf1 c := by cases h with | not _ hc => exact hc
      simp only [apply_rules_in_order]
      rcases hc : apply_rules_in_order c with ⟨child, ch, law⟩
      have hchild : wf1 child := by
        have := ih hc1
        rwa [hc] at this
      cases ch
      · cases child <;> dsimp only
        case Not g => cases hchild with | not _ hg => exact hg
        all_goals exact h
      · exact wf1.not _ hchild
  | ha cs ih =>
      intro h
      have hm : ∀ c ∈ cs, wf1 c := by cases h with | and _ hm _ => exact hm
      have hne : cs ≠ [] := by cases h with | and _ _ hne => exact hne
      simp only [apply_rules_in_order]
      rcases hs : scanChildren cs with ⟨pre, c2, law, suf⟩ | l <;> dsimp only
      · obtain ⟨hpre, hc2, hsuf⟩ := scan_changed_wf cs ih hm pre c2 law suf hs
        refine wf1_normalize _ (wf1.and _ ?_ (by simp))
        intro x hx
        rcases List.mem_append.mp hx with hx | hx
        · exact hpre x hx
        · rcases List.mem_cons.mp hx with hx | hx
          · exact hx ▸ hc2
          · exact hsuf x hx
      · have hl : l = cs := scan_unchanged_eq cs
          (fun c hcm m law2 hemp => apply_unchanged_eq c m law2 hemp) l hs
        subst hl
        exact andRules_wf1 hm hne
  | ho cs ih =>
      intro h
      have hm : ∀ c ∈ cs, wf1 c := by cases h with | or _ hm _ => exact hm
      have hne : cs ≠ [] := by cases h with | or _ _ hne => exact hne
      simp only [apply_rules_in_order]
      rcases hs : scanChildren cs with ⟨pre, c2, law, suf⟩ | l <;> dsimp only
      · obtain ⟨hpre, hc2, hsuf⟩ := scan_changed_wf cs ih hm pre c2 law suf hs
        refine wf1_normalize _ (wf1.or _ ?_ (by simp))
        intro x hx
        rcases List.mem_append.mp hx with hx | hx
        · exact hpre x hx
        · rcases List.mem_cons.mp hx with hx | hx
          · exact hx ▸ hc2
          · exact hsuf x hx
      · have hl : l = cs := scan_unchanged_eq cs
          (fun c hcm m law2 hemp => apply_unchanged_eq c m law2 hemp) l hs
        subst hl
        exact orRules_wf1 hm hne

theorem apply_op_wf {op : Char} {out out2 : List Node}
    (h : apply_op op out = .ok out2) (hwf : ∀ x ∈ out, wf1 x) : ∀ x ∈ out2, wf1 x := by
  unfold apply_op at h
  repeat' split at h
  all_goals try cases h
  · intro x hx
    rcases List.mem_cons.mp hx with hx | hx
    · exact hx ▸ wf1.not _ (hwf _ (by simp))
    · exact hwf x (by simp [hx])
  · intro x hx
    rcases List.mem_cons.mp hx with hx | hx
    · subst hx
      exact wf1.and _ (by
        intro y hy
        rcases List.mem_cons.mp hy with hy | hy
        · exact hy ▸ hwf _ (by simp)
        · rw [List.mem_singleton] at hy; exact hy ▸ hwf _ (by simp)) (by simp)
    · exact hwf x (by simp [hx])
  · intro x hx
    rcases List.mem_cons.mp hx with hx | hx
    · subst hx
      exact wf1.or _ (by
        intro y hy
        rcases List.mem_cons.mp hy with hy | hy
        · exact hy ▸ hwf _ (by simp)
        · rw [List.mem_singleton] at hy; exact hy ▸ hwf _ (by simp)) (by simp)
    · exact hwf x (by simp [hx])

theorem popWhileGe_wf (p : Nat) :
    ∀ (ops : List Char) (out out2 : List Node) (ops2 : List Char),
      (∀ x ∈ out, wf1 x) → popWhileGe p ops out = .ok (out2, ops2) →
      ∀ x ∈ out2, wf1 x := by
  intro ops
  induction ops with
  | nil =>
      intro out out2 ops2 hwf h
      cases h
      exact hwf
  | cons op ops ih =>
      intro out out2 ops2 hwf h
      simp only [popWhileGe] at h
      split at h
      · rcases hop : apply_op op out with e | out3
        · rw [except_bind_error hop] at h; cases h
        · rw [except_bind_ok hop] at h
          exact ih out3 out2 ops2 (apply_op_wf hop hwf) h
      · cases h
        exact hwf

theorem popUntilParen_wf :
    ∀ (ops : List Char) (out out2 : List Node) (ops2 : List Char),
      (∀ x ∈ out, wf1 x) → popUntilParen ops out = .ok (out2, ops2) →
      ∀ x ∈ out2, wf1 x := by
  intro ops
  induction ops with
  | nil => intro out out2 ops2 hwf h; cases h
  | cons op ops ih =>
      intro out out2 ops2 hwf h
      simp only [popUntilParen] at h
      split at h
      · cases h
        exact hwf
      · rcases hop : apply_op op out with e | out3
        · rw [except_bind_error hop] at h; cases h
        · rw [except_bind_ok hop] at h
          exact ih out3 out2 ops2 (apply_op_wf hop hwf) h

theorem drainOps_wf :
    ∀ (ops : List Char) (out out2 : List Node),
      (∀ x ∈ out, wf1 x) → drainOps ops out = .ok out2 → ∀ x ∈ out2, wf1 x := by
  intro ops
  induction ops with
  | nil => intro out out2 hwf h; cases h; exact hwf
  | cons op ops ih =>
      intro out out2 hwf h
      simp only [drainOps] at h
      split at h
      · cases h
      · rcases hop : apply_op op out with e | out3
        · rw [except_bind_error hop] at h; cases h
        · rw [except_bind_ok hop] at h
          exact ih out3 out2 (apply_op_wf hop hwf) h

theorem parseStep_wf {st : List Node × List Char} {t : List Char} {st2 : List Node × List Char}
    (h : parseStep st t = .ok st2) (hwf : ∀ x ∈ st.1, wf1 x) : ∀ x ∈ st2.1, wf1 x := by
  rcases st with ⟨output, ops⟩
  unfold parseStep at h
  dsimp only at h
  repeat' split at h
  all_goals try cases h
  all_goals try
    (intro x hx
     rcases List.mem_cons.mp hx with hx | hx
     · subst hx; first | exact wf1.const true | exact wf1.const false | exact wf1.var _
     · exact hwf x hx)
  all_goals try exact hwf
  · rcases hpop : popWhileGe (prec '&') ops output with e | pr
    · rw [except_bind_error hpop] at h; cases h
    · rcases pr with ⟨out3, ops3⟩
      rw [except_bind_ok hpop] at h
      cases h
      exact popWhileGe_wf _ ops output out3 ops3 hwf hpop
  · rcases hpop : popWhileGe (prec '|') ops output with e | pr
    · rw [except_bind_error hpop] at h; cases h
    · rcases pr with ⟨out3, ops3⟩
      rw [except_bind_ok hpop] at h
      cases h
      exact popWhileGe_wf _ ops output out3 ops3 hwf hpop
  · rcases hpop : popUntilParen ops output with e | pr
    · rw [except_bind_error hpop] at h; cases h
    · rcases pr with ⟨out3, ops3⟩
      rw [except_bind_ok hpop] at h
      cases h
      exact popUntilParen_wf ops output out3 ops3 hwf hpop

theorem foldlM_parse_wf :
    ∀ (tokens : List (List Char)) (st res : List Node × List Char),
      (∀ x ∈ st.1, wf1 x) → tokens.foldlM parseStep st = .ok res →
      ∀ x ∈ res.1, wf1 x := by
  intro tokens
  induction tokens with
  | nil => intro st res hwf h; cases h; exact hwf
  | cons t ts ih =>
      intro st res hwf h
      rw [List.foldlM_cons] at h
      rcases hstep : parseStep st t with e | st2
      · rw [except_bind_error hstep] at h; cases h
      · rw [except_bind_ok hstep] at h
        exact ih st2 res (parseStep_wf hstep hwf) h

theorem parse_canonInv {s : List Char} {ast : Node}
    (h : parse_expression s = .ok ast) : canonInv ast := by
  unfold parse_expression at h
  dsimp only at h
  split at h
  · cases h
  · rcases ht : _tokenize (strip s) with e | tokens
    · rw [except_bind_error ht] at h; cases h
    · rw [except_bind_ok ht] at h
      rcases hfold : tokens.foldlM parseStep ([], []) with e | st
      · rw [except_bind_error hfold] at h; cases h
      · rw [except_bind_ok hfold] at h
        rcases st with ⟨output, ops⟩
        dsimp only at h
        rcases hdrain : drainOps ops output with e | out2
        · rw [except_bind_error hdrain] at h; cases h
        · rw [except_bind_ok hdrain] at h
          have hwf2 : ∀ x ∈ out2, wf1 x :=
            drainOps_wf ops output out2
              (foldlM_parse_wf tokens ([], []) (output, ops) (by simp) hfold) hdrain
          match out2, h with
          | [n], h =>
              cases h
              exact canonInv_normalize n (hwf2 n (by simp))

/-! ### Size and leaf-count lemmas for termination -/

theorem size_pos : ∀ n : Node, 1 ≤ size n := by
  intro n
  cases n <;> simp [size]

theorem sizeList_append (l1 l2 : List Node) :
    size.sizeList (l1 ++ l2) = size.sizeList l1 + size.sizeList l2 := by
  induction l1 with
  | nil => simp [size.sizeList]
  | cons c cs ih =>
      show size c + size.sizeList (cs ++ l2) = size c + size.sizeList cs + size.sizeList l2
      rw [ih]
      omega

theorem leavesList_append (l1 l2 : List Node) :
    leaves.leavesList (l1 ++ l2) = leaves.leavesList l1 + leaves.leavesList l2 := by
  induction l1 with
  | nil => simp [leaves.leavesList]
  | cons c cs ih =>
      show leaves c + leaves.leavesList (cs ++ l2) = leaves c + leaves.leavesList cs + leaves.leavesList l2
      rw [ih]
      omega

theorem sizeList_eq_sum (l : List Node) : size.sizeList l = (l.map size).sum := by
  induction l with
  | nil => rfl
  | cons c cs ih => simp [size.sizeList, ih]

theorem leavesList_eq_sum (l : List Node) : leaves.leavesList l = (l.map leaves).sum := by
  induction l with
  | nil => rfl
  | cons c cs ih => simp [leaves.leavesList, ih]

theorem sizeList_perm {l1 l2 : List Node} (h : l1.Perm l2) :
    size.sizeList l1 = size.sizeList l2 := by
  rw [sizeList_eq_sum, sizeList_eq_sum]
  exact (h.map size).sum_eq

theorem leavesList_perm {l1 l2 : List Node} (h : l1.Perm l2) :
    leaves.leavesList l1 = leaves.leavesList l2 := by
  rw [leavesList_eq_sum, leavesList_eq_sum]
  exact (h.map leaves).sum_eq

theorem sizeList_sublist {l1 l2 : List Node} (h : l1.Sublist l2) :
    size.sizeList l1 ≤ size.sizeList l2 := by
  rw [sizeList_eq_sum, sizeList_eq_sum]
  exact List.Sublist.sum_le_sum (h.map size) (by simp)

theorem leavesList_sublist {l1 l2 : List Node} (h : l1.Sublist l2) :
    leaves.leavesList l1 ≤ leaves.leavesList l2 := by
  rw [leavesList_eq_sum, leavesList_eq_sum]
  exact List.Sublist.sum_le_sum (h.map leaves) (by simp)

theorem sizeList_le_length {l : List Node} : l.length ≤ size.sizeList l := by
  induction l with
  | nil => simp [size.sizeList]
  | cons c cs ih =>
      simp only [size.sizeList, List.length_cons]
      have := size_pos c
      omega

theorem sizeList_sublist_strict {l1 l2 : List Node} (h : l1.Sublist l2)
    (hlen : l1.length < l2.length) : size.sizeList l1 < size.sizeList l2 := by
  obtain ⟨l3, hperm, hsub⟩ : ∃ l3, (l1 ++ l3).Perm l2 ∧ l3 ≠ [] := by
    obtain ⟨l3, h3⟩ := h.exists_perm_append
    refine ⟨l3, h3.symm, ?_⟩
    intro he
    rw [he, List.append_nil] at h3
    rw [h3.length_eq] at hlen
    omega
  calc size.sizeList l1 < size.sizeList l1 + size.sizeList l3 := by
        have : 1 ≤ size.sizeList l3 := by
          cases l3 with
          | nil => simp at hsub
          | cons c cs => simp only [size.sizeList]; have := size_pos c; omega
        omega
    _ = size.sizeList (l1 ++ l3) := (sizeList_append _ _).symm
    _ = size.sizeList l2 := sizeList_perm hperm

theorem leaves_le_size : ∀ n : Node, leaves n ≤ size n := by
  intro n
  induction n using Node.myrec with
  | hc b => simp [leaves, size]
  | hv s => simp [leaves, size]
  | hn c ih => simp only [leaves, size]; omega
  | ha cs ih =>
      simp only [leaves, size]
      have : leaves.leavesList cs ≤ size.sizeList cs := by
        induction cs with
        | nil => simp [leaves.leavesList, size.sizeList]
        | cons c cs ihl =>
            simp only [leaves.leavesList, size.sizeList]
            have h1 := ih c (by simp)
            have h2 := ihl (fun d hd => ih d (by simp [hd]))
            omega
      omega
  | ho cs ih =>
      simp only [leaves, size]
      have : leaves.leavesList cs ≤ size.sizeList cs := by
        induction cs with
        | nil => simp [leaves.leavesList, size.sizeList]
        | cons c cs ihl =>
            simp only [leaves.leavesList, size.sizeList]
            have h1 := ih c (by simp)
            have h2 := ihl (fun d hd => ih d (by simp [hd]))
            omega
      omega

theorem canonInv_leaves_pos : ∀ n : Node, canonInv n → 1 ≤ leaves n := by
  intro n
  induction n using Node.myrec with
  | hc b => intro _; simp [leaves]
  | hv s => intro _; simp [leaves]
  | hn c ih => intro h; cases h with | not _ hc => simpa [leaves] using ih hc
  | ha cs ih =>
      intro h
      cases h with
      | and _ hm _ _ hl =>
          simp only [leaves]
          match cs, hl with
          | c :: rest, _ =>
              simp only [leaves.leavesList]
              have := ih c (by simp) (hm c (by simp))
              omega
  | ho cs ih =>
      intro h
      cases h with
      | or _ hm _ _ hl =>
          simp only [leaves]
          match cs, hl with
          | c :: rest, _ =>
              simp only [leaves.leavesList]
              have := ih c (by simp) (hm c (by simp))
              omega

theorem normalize_size_le (n : Node) : size (_normalize_tree n) ≤ size n := by
  induction n using Node.myrec with
  | hc b => simp [_normalize_tree]
  | hv s => simp [_normalize_tree]
  | hn c ih => simp only [_normalize_tree, size]; omega
  | ha cs ih =>
      show size (collapse1 .And (_sort_nodes (flattenAnd cs))) ≤ size (.And cs)
      have hflat : size.sizeList (flattenAnd cs) ≤ size.sizeList cs := by
        induction cs with
        | nil => simp [flattenAnd]
        | cons c cs ihl =>
            simp only [flattenAnd, sizeList_append, size.sizeList]
            have h1 : size.sizeList
                (match _normalize_tree c with | Node.And gs => gs | c2 => [c2]) ≤ size c := by
              have hc := ih c (by simp)
              cases hnc : _normalize_tree c <;> rw [hnc] at hc <;>
                simp only [size.sizeList] <;> simp only [size] at hc ⊢ <;> omega
            have h2 := ihl (fun d hd => ih d (by simp [hd]))
            omega
      have hsort : size.sizeList (_sort_nodes (flattenAnd cs)) = size.sizeList (flattenAnd cs) :=
        sizeList_perm (List.perm_insertionSort nodeLe _)
      match hk : _sort_nodes (flattenAnd cs) with
      | [k] =>
          show size k ≤ size (.And cs)
          have : size.sizeList [k] = size k := by simp [size.sizeList]
          simp only [size]
          rw [hk] at hsort
          omega
      | [] =>
          show size (.And []) ≤ size (.And cs)
          simp only [size, size.sizeList]
          omega
      | a :: b :: t =>
          show size (.And (a :: b :: t)) ≤ size (.And cs)
          simp only [size]
          rw [← hk, hsort] at *
          omega
  | ho cs ih =>
      show size (collapse1 .Or (_sort_nodes (flattenOr cs))) ≤ size (.Or cs)
      have hflat : size.sizeList (flattenOr cs) ≤ size.sizeList cs := by
        induction cs with
        | nil => simp [flattenOr]
        | cons c cs ihl =>
            simp only [flattenOr, sizeList_append, size.sizeList]
            have h1 : size.sizeList
                (match _normalize_tree c with | Node.Or gs => gs | c2 => [c2]) ≤ size c := by
              have hc := ih c (by simp)
              cases hnc : _normalize_tree c <;> rw [hnc] at hc <;>
                simp only [size.sizeList] <;> simp only [size] at hc ⊢ <;> omega
            have h2 := ihl (fun d hd => ih d (by simp [hd]))
            omega
      have hsort : size.sizeList (_sort_nodes (flattenOr cs)) = size.sizeList (flattenOr cs) :=
        sizeList_perm (List.perm_insertionSort nodeLe _)
      match hk : _sort_nodes (flattenOr cs) with
      | [k] =>
          show size k ≤ size (.Or cs)
          have : size.sizeList [k] = size k := by simp [size.sizeList]
          simp only [size]
          rw [hk] at hsort
          omega
      | [] =>
          show size (.Or []) ≤ size (.Or cs)
          simp only [size, size.sizeList]
          omega
      | a :: b :: t =>
          show size (.Or (a :: b :: t)) ≤ size (.Or cs)
          simp only [size]
          rw [← hk, hsort] at *
          omega

theorem normalize_leaves_eq (n : Node) : leaves (_normalize_tree n) = leaves n := by
  induction n using Node.myrec with
  | hc b => simp [_normalize_tree]
  | hv s => simp [_normalize_tree]
  | hn c ih => simp only [_normalize_tree, leaves]; omega
  | ha cs ih =>
      show leaves (collapse1 .And (_sort_nodes (flattenAnd cs))) = leaves (.And cs)
      have hflat : leaves.leavesList (flattenAnd cs) = leaves.leavesList cs := by
        induction cs with
        | nil => simp [flattenAnd]
        | cons c cs ihl =>
            simp only [flattenAnd, leavesList_append, leaves.leavesList]
            have h1 : leaves.leavesList
                (match _normalize_tree c with | Node.And gs => gs | c2 => [c2]) = leaves c := by
              have hc := ih c (by simp)
              cases hnc : _normalize_tree c <;> rw [hnc] at hc <;>
                simp only [leaves.leavesList] <;> simp only [leaves] at hc ⊢ <;> omega
            have h2 := ihl (fun d hd => ih d (by simp [hd]))
            omega
      have hsort : leaves.leavesList (_sort_nodes (flattenAnd cs))
          = leaves.leavesList (flattenAnd cs) :=
        leavesList_perm (List.perm_insertionSort nodeLe _)
      match hk : _sort_nodes (flattenAnd cs) with
      | [k] =>
          show leaves k = leaves (.And cs)
          have : leaves.leavesList [k] = leaves k := by simp [leaves.leavesList]
          simp only [leaves]
          rw [hk] at hsort
          omega
      | [] =>
          show leaves (.And []) = leaves (.And cs)
          simp only [leaves]
          rw [← hflat, ← hsort, hk]
      | a :: b :: t =>
          show leaves (.And (a :: b :: t)) = leaves (.And cs)
          simp only [leaves]
          rw [← hk, hsort, hflat]
  | ho cs ih =>
      show leaves (collapse1 .Or (_sort_nodes (flattenOr cs))) = leaves (.Or cs)
      have hflat : leaves.leavesList (flattenOr cs) = leaves.leavesList cs := by
        induction cs with
        | nil => simp [flattenOr]
        | cons c cs ihl =>
            simp only [flattenOr, leavesList_append, leaves.leavesList]
            have h1 : leaves.leavesList
                (match _normalize_tree c with | Node.Or gs => gs | c2 => [c2]) = leaves c := by
              have hc := ih c (by simp)
              cases hnc : _normalize_tree c <;> rw [hnc] at hc <;>
                simp only [leaves.leavesList] <;> simp only [leaves] at hc ⊢ <;> omega
            have h2 := ihl (fun d hd => ih d (by simp [hd]))
            omega
      have hsort : leaves.leavesList (_sort_nodes (flattenOr cs))
          = leaves.leavesList (flattenOr cs) :=
        leavesList_perm (List.perm_insertionSort nodeLe _)
      match hk : _sort_nodes (flattenOr cs) with
      | [k] =>
          show leaves k = leaves (.Or cs)
          have : leaves.leavesList [k] = leaves k := by simp [leaves.leavesList]
          simp only [leaves]
          rw [hk] at hsort
          omega
      | [] =>
          show leaves (.Or []) = leaves (.Or cs)
          simp only [leaves]
          rw [← hflat, ← hsort, hk]
      | a :: b :: t =>
          show leaves (.Or (a :: b :: t)) = leaves (.Or cs)
          simp only [leaves]
          rw [← hk, hsort, hflat]

theorem unique_aux_sublist : ∀ (l seen : List Node), (_unique_nodes_aux l seen).Sublist l := by
  intro l
  induction l with
  | nil => intro seen; simp [_unique_nodes_aux]
  | cons n ns ih =>
      intro seen
      simp only [_unique_nodes_aux]
      split
      · exact (ih seen).cons n
      · exact (ih (n :: seen)).cons₂ n

theorem unique_aux_eq_self :
    ∀ (l seen : List Node), _unique_nodes_aux l seen = l → l.Nodup ∧ ∀ x ∈ l, x ∉ seen := by
  intro l
  induction l with
  | nil => intro seen _; simp
  | cons n ns ih =>
      intro seen h
      simp only [_unique_nodes_aux] at h
      split at h
      · exfalso
        have hsub := unique_aux_sublist ns seen
        rw [h] at hsub
        have := hsub.length_le
        simp at this
      · rename_i hnmem
        injection h with h1 h2
        obtain ⟨hnd, hout⟩ := ih (n :: seen) h2
        refine ⟨List.nodup_cons.mpr ⟨fun hin => (hout n hin) (by simp), hnd⟩, ?_⟩
        intro x hx
        rcases List.mem_cons.mp hx with hx | hx
        · subst hx
          exact hnmem
        · intro hxs
          exact hout x hx (by simp [hxs])

theorem nodup_of_unique_not_lt {l : List Node}
    (h : ¬ (_unique_nodes l).length < l.length) : l.Nodup := by
  have hsub := unique_aux_sublist l []
  have hlen : (_unique_nodes l).length = l.length := by
    have := hsub.length_le
    unfold _unique_nodes at h ⊢
    omega
  have heq : _unique_nodes l = l := hsub.eq_of_length hlen
  exact (unique_aux_eq_self l [] heq).1

theorem scan_unchanged_each :
    ∀ (cs : List Node) (l : List Node), scanChildren cs = .unchanged l →
      ∀ c ∈ cs, (apply_rules_in_order c).2.1 = false := by
  intro cs
  induction cs with
  | nil => intro l _ c hc; simp at hc
  | cons c cs ih =>
      intro l h d hd
      simp only [scanChildren] at h
      rcases hc : apply_rules_in_order c with ⟨c2, ch, law⟩
      rw [hc] at h
      cases ch <;> dsimp only at h
      · rcases hs : scanChildren cs with ⟨pre2, x2, law2, suf2⟩ | rest <;> rw [hs] at h
        · cases h
        · rcases List.mem_cons.mp hd with hd | hd
          · subst hd; rw [hc]
          · exact ih rest hs d hd
      · cases h

theorem apply_or_unchanged_nodup {gs : List Node} {m : Node} {law : Option (List Char)}
    (h : apply_rules_in_order (.Or gs) = (m, false, law)) : gs.Nodup := by
  simp only [apply_rules_in_order] at h
  rcases hs : scanChildren gs with ⟨pre, c2, law2, suf⟩ | l <;> rw [hs] at h
  · cases h
  · have hl : l = gs := scan_unchanged_eq gs
      (fun c hcm m2 law3 he => apply_unchanged_eq c m2 law3 he) l hs
    subst hl
    unfold orRules at h
    dsimp only at h
    split at h
    · cases h
    · rename_i hnlt
      exact nodup_of_unique_not_lt hnlt

theorem apply_and_unchanged_nodup {gs : List Node} {m : Node} {law : Option (List Char)}
    (h : apply_rules_in_order (.And gs) = (m, false, law)) : gs.Nodup := by
  simp only [apply_rules_in_order] at h
  rcases hs : scanChildren gs with ⟨pre, c2, law2, suf⟩ | l <;> rw [hs] at h
  · cases h
  · have hl : l = gs := scan_unchanged_eq gs
      (fun c hcm m2 law3 he => apply_unchanged_eq c m2 law3 he) l hs
    subst hl
    unfold andRules at h
    dsimp only at h
    split at h
    · cases h
    · rename_i hnlt
      exact nodup_of_unique_not_lt hnlt

theorem scan_changed_struct :
    ∀ (cs : List Node) (pre : List Node) (c2 : Node) (law : Option (List Char)) (suf : List Node),
      scanChildren cs = .changed pre c2 law suf →
      ∃ c, cs = pre ++ c :: suf ∧ apply_rules_in_order c = (c2, true, law) := by
  intro cs
  induction cs with
  | nil =>
      intro pre c2 law suf h
      simp only [scanChildren] at h
      cases h
  | cons c cs ih =>
      intro pre c2 law suf h
      simp only [scanChildren] at h
      rcases hc : apply_rules_in_order c with ⟨c2p, ch, lawp⟩
      rw [hc] at h
      cases ch <;> dsimp only at h
      · rcases hs : scanChildren cs with ⟨pre2, x2, law2, suf2⟩ | rest <;> rw [hs] at h
        · cases h
          obtain ⟨d, hd1, hd2⟩ := ih pre2 c2 law suf hs
          have hcp : c2p = c := apply_unchanged_eq c c2p lawp hc
          exact ⟨d, by rw [hcp, hd1]; rfl, hd2⟩
        · cases h
      · cases h
        exact ⟨c, rfl, hc⟩

theorem sizeList_mem_le {c : Node} {l : List Node} (h : c ∈ l) : size c ≤ size.sizeList l := by
  induction l with
  | nil => simp at h
  | cons d ds ih =>
      simp only [size.sizeList]
      rcases List.mem_cons.mp h with h | h
      · subst h; omega
      · have := ih h; omega

theorem leavesList_mem_le {c : Node} {l : List Node} (h : c ∈ l) :
    leaves c ≤ leaves.leavesList l := by
  induction l with
  | nil => simp at h
  | cons d ds ih =>
      simp only [leaves.leavesList]
      rcases List.mem_cons.mp h with h | h
      · subst h; omega
      · have := ih h; omega

theorem leavesList_ge_length_canon {l : List Node} (h : ∀ c ∈ l, canonInv c) :
    l.length ≤ leaves.leavesList l := by
  induction l with
  | nil => simp [leaves.leavesList]
  | cons c cs ih =>
      simp only [leaves.leavesList, List.length_cons]
      have h1 := canonInv_leaves_pos c (h c (by simp))
      have h2 := ih (fun d hd => h d (by simp [hd]))
      omega

theorem sizeList_subperm {l1 l2 : List Node} (h : l1.Subperm l2) :
    size.sizeList l1 ≤ size.sizeList l2 := by
  obtain ⟨l3, hperm, hsub⟩ := h
  calc size.sizeList l1 = size.sizeList l3 := (sizeList_perm hperm).symm
    _ ≤ size.sizeList l2 := sizeList_sublist hsub

theorem leavesList_subperm {l1 l2 : List Node} (h : l1.Subperm l2) :
    leaves.leavesList l1 ≤ leaves.leavesList l2 := by
  obtain ⟨l3, hperm, hsub⟩ := h
  calc leaves.leavesList l1 = leaves.leavesList l3 := (leavesList_perm hperm).symm
    _ ≤ leaves.leavesList l2 := leavesList_sublist hsub

theorem unique_nodup (l : List Node) : (_unique_nodes l).Nodup := by
  suffices h : ∀ (l seen : List Node), (_unique_nodes_aux l seen).Nodup ∧
      ∀ x ∈ _unique_nodes_aux l seen, x ∉ seen by
    exact (h l []).1
  intro l
  induction l with
  | nil => intro seen; simp [_unique_nodes_aux]
  | cons n ns ih =>
      intro seen
      simp only [_unique_nodes_aux]
      split
      · exact ⟨(ih seen).1, (ih seen).2⟩
      · rename_i hns
        refine ⟨List.nodup_cons.mpr ⟨fun hin => ?_, (ih (n :: seen)).1⟩, ?_⟩
        · exact (ih (n :: seen)).2 n hin (by simp)
        · intro x hx
          rcases List.mem_cons.mp hx with hx | hx
          · subst hx; exact hns
          · intro hxs
            exact (ih (n :: seen)).2 x hx (by simp [hxs])

theorem foldl_filter_nodup (g : Node → Node → Bool) :
    ∀ (ts acc : List Node), acc.Nodup →
      (ts.foldl (fun a u => a.filter (g u)) acc).Nodup := by
  intro ts
  induction ts with
  | nil => intro acc h; simpa using h
  | cons t ts ih => intro acc h; exact ih _ (h.filter _)

theorem commonOfTerms_nodup (f : Node → List Node) (ts : List Node) :
    (commonOfTerms f ts).Nodup := by
  cases ts with
  | nil => simp [commonOfTerms]
  | cons t rest => exact foldl_filter_nodup _ rest _ (unique_nodup (f t))

theorem foldl_filter_mem (g : Node → Node → Bool) :
    ∀ (ts acc : List Node) (x : Node), x ∈ ts.foldl (fun a u => a.filter (g u)) acc →
      x ∈ acc ∧ ∀ u ∈ ts, g u x = true := by
  intro ts
  induction ts with
  | nil => intro acc x h; exact ⟨by simpa using h, by simp⟩
  | cons t ts ih =>
      intro acc x h
      obtain ⟨hacc, hall⟩ := ih _ x h
      have hx : x ∈ acc ∧ g t x = true := by
        have := List.mem_filter.mp hacc
        exact ⟨this.1, this.2⟩
      refine ⟨hx.1, fun u hu => ?_⟩
      rcases List.mem_cons.mp hu with hu | hu
      · exact hu ▸ hx.2
      · exact hall u hu

theorem mem_unique_aux_of_mem :
    ∀ (l seen : List Node) (x : Node), x ∈ l → x ∉ seen → x ∈ _unique_nodes_aux l seen := by
  intro l
  induction l with
  | nil => intro seen x h _; simp at h
  | cons n ns ih =>
      intro seen x h hns
      simp only [_unique_nodes_aux]
      rcases List.mem_cons.mp h with h | h
      · subst h
        split
        · rename_i hmem; exact absurd hmem hns
        · simp
      · split
        · exact ih seen x h hns
        · by_cases hxn : x = n
          · simp [hxn]
          · exact List.mem_cons_of_mem n (ih (n :: seen) x h (by
              intro hx
              rcases List.mem_cons.mp hx with hx | hx
              · exact hxn hx
              · exact hns hx))

theorem mem_unique_iff {x : Node} {l : List Node} : x ∈ _unique_nodes l ↔ x ∈ l :=
  ⟨mem_unique, fun h => mem_unique_aux_of_mem l [] x h (by simp)⟩

theorem commonOfTerms_mem_all (f : Node → List Node) (ts : List Node) (x : Node)
    (h : x ∈ commonOfTerms f ts) : ∀ u ∈ ts, x ∈ f u := by
  cases ts with
  | nil => simp [commonOfTerms] at h
  | cons t rest =>
      simp only [commonOfTerms] at h
      obtain ⟨hacc, hall⟩ := foldl_filter_mem _ rest _ x h
      intro u hu
      rcases List.mem_cons.mp hu with hu | hu
      · exact hu ▸ mem_unique hacc
      · exact of_decide_eq_true (hall u hu)

theorem sizeList_single (x : Node) : size.sizeList [x] = size x := by
  simp [size.sizeList]

theorem leavesList_single (x : Node) : leaves.leavesList [x] = leaves x := by
  simp [leaves.leavesList]

theorem sizeList_filter_split (q : Node → Bool) (l : List Node) :
    size.sizeList l
      = size.sizeList (l.filter q) + size.sizeList (l.filter fun x => !(q x)) := by
  induction l with
  | nil => simp [size.sizeList]
  | cons c cs ih =>
      simp only [List.filter_cons]
      cases hq : q c <;> simp [size.sizeList, ih] <;> omega

theorem leavesList_filter_split (q : Node → Bool) (l : List Node) :
    leaves.leavesList l
      = leaves.leavesList (l.filter q) + leaves.leavesList (l.filter fun x => !(q x)) := by
  induction l with
  | nil => simp [leaves.leavesList]
  | cons c cs ih =>
      simp only [List.filter_cons]
      cases hq : q c <;> simp [leaves.leavesList, ih] <;> omega

theorem remove_factors_filter (src rem : List Node) :
    _remove_factors src rem = src.filter fun x => !(decide (x ∈ rem)) := by
  unfold _remove_factors
  exact List.filter_congr (fun x _ => by simp)

theorem canonInv_and_parts {gs : List Node} (h : canonInv (.And gs)) :
    (∀ x ∈ gs, canonInv x) ∧ 2 ≤ gs.length := by
  cases h with
  | and _ hm _ _ hl => exact ⟨hm, hl⟩

theorem canonInv_or_parts {gs : List Node} (h : canonInv (.Or gs)) :
    (∀ x ∈ gs, canonInv x) ∧ 2 ≤ gs.length := by
  cases h with
  | or _ hm _ _ hl => exact ⟨hm, hl⟩

theorem sum_decrease_bound (g : Node → Node) (W D : Nat) :
    ∀ cs : List Node,
      (∀ t ∈ cs, size (g t) + 2 * leaves (g t) + W ≤ size t + 2 * leaves t + D) →
      size.sizeList (cs.map g) + 2 * leaves.leavesList (cs.map g) + cs.length * W
        ≤ size.sizeList cs + 2 * leaves.leavesList cs + cs.length * D := by
  intro cs
  induction cs with
  | nil => intro _; simp [size.sizeList, leaves.leavesList]
  | cons c cs ih =>
      intro h
      have hc := h c (by simp)
      have hrest := ih (fun t ht => h t (by simp [ht]))
      simp only [List.map_cons, size.sizeList, leaves.leavesList, List.length_cons,
        Nat.succ_mul]
      omega

theorem rewrap_size_le (mk : List Node → Node)
    (hmk : ∀ l, size (mk l) = 1 + size.sizeList l) (empty : Bool) (rest : List Node) :
    size (rewrapRest mk empty rest) ≤ 1 + size.sizeList rest := by
  match rest with
  | [] => simp [rewrapRest, size, size.sizeList]
  | [x] => simp [rewrapRest, sizeList_single]
  | a :: b :: t =>
      show size (_normalize_tree (mk (a :: b :: t))) ≤ _
      calc size (_normalize_tree (mk (a :: b :: t))) ≤ size (mk (a :: b :: t)) :=
            normalize_size_le _
        _ = 1 + size.sizeList (a :: b :: t) := hmk _

theorem rewrap_leaves_eq (mk : List Node → Node)
    (hmk : ∀ l, leaves (mk l) = leaves.leavesList l) (empty : Bool) (rest : List Node)
    (hne : rest ≠ []) :
    leaves (rewrapRest mk empty rest) = leaves.leavesList rest := by
  match rest with
  | [x] => simp [rewrapRest, leavesList_single]
  | a :: b :: t =>
      show leaves (_normalize_tree (mk (a :: b :: t))) = _
      rw [normalize_leaves_eq, hmk]

theorem rewrap_leaves_le (mk : List Node → Node)
    (hmk : ∀ l, leaves (mk l) = leaves.leavesList l) (empty : Bool) (rest : List Node) :
    leaves (rewrapRest mk empty rest) ≤ 1 + leaves.leavesList rest := by
  match rest with
  | [] => simp [rewrapRest, leaves, leaves.leavesList]
  | [x] => simp [rewrapRest, leavesList_single]
  | a :: b :: t =>
      show leaves (_normalize_tree (mk (a :: b :: t))) ≤ _
      rw [normalize_leaves_eq, hmk]
      omega

theorem factor_or_decrease {cs : List Node} {f : Node}
    (hinv : ∀ t ∈ cs, canonInv t)
    (hnodup : ∀ t ∈ cs, ∀ gs, t = Node.And gs → gs.Nodup)
    (h : _factor_common_for_or cs = some f) :
    size f + 2 * leaves f < size (.Or cs) + 2 * leaves (.Or cs) := by
  unfold _factor_common_for_or at h
  dsimp only at h
  split at h
  · cases h
  split at h
  · cases h
  split at h
  · cases h
  split at h
  case isFalse => cases h
  case isTrue hlen2 hcomm hcf hall =>
  rw [Option.some.injEq] at h
  subst h
  have hAll : ∀ t ∈ cs, isAnd t = true := by
    intro t ht
    exact List.all_eq_true.mp hall t ht
  have hfilter : cs.filter isAnd = cs := List.filter_eq_self.mpr hAll
  have hk2 : 2 ≤ cs.length := by
    rw [hfilter] at hlen2
    omega
  set CF := List.insertionSort strLe (commonOfTerms factors_and (cs.filter isAnd)) with hCF
  have hCFperm : CF.Perm (commonOfTerms factors_and (cs.filter isAnd)) :=
    List.perm_insertionSort strLe _
  have hCFnodup : CF.Nodup := hCFperm.nodup_iff.mpr (commonOfTerms_nodup _ _)
  have hCFsub : ∀ t ∈ cs, ∀ x ∈ CF, x ∈ factors_and t := by
    intro t ht x hx
    exact commonOfTerms_mem_all factors_and (cs.filter isAnd) x (hCFperm.mem_iff.mp hx)
      t (by rw [hfilter]; exact ht)
  have hCFne : CF ≠ [] := hcf
  have hCFlen1 : 1 ≤ CF.length := by
    cases hc : CF with
    | nil => exact absurd hc hCFne
    | cons a l => simp
  have hCFcanon : ∀ x ∈ CF, canonInv x := by
    intro x hx
    obtain ⟨t, ht⟩ := List.exists_mem_of_length_pos (show 0 < cs.length by omega)
    have hfx : x ∈ factors_and t := hCFsub t ht x hx
    have hAt := hAll t ht
    cases t <;> simp [isAnd] at hAt
    next gs =>
      have hparts := canonInv_and_parts (hinv _ ht)
      exact hparts.1 x (by simpa [factors_and] using hfx)
  set SC := size.sizeList CF with hSC
  set LC := leaves.leavesList CF with hLC
  have hSC1 : 1 ≤ SC := le_trans hCFlen1 sizeList_le_length
  have hLC1 : 1 ≤ LC := le_trans hCFlen1 (leavesList_ge_length_canon hCFcanon)
  -- per-term inequalities
  have hterm : ∀ t ∈ cs,
      size t + 2 * leaves t
        ≥ 1 + SC + size.sizeList (_remove_factors (factors_and t) CF)
          + 2 * (LC + leaves.leavesList (_remove_factors (factors_and t) CF)) := by
    intro t ht
    have := hAll t ht
    cases t <;> simp [isAnd] at this
    case And gs =>
      have hgnd : gs.Nodup := hnodup _ ht gs rfl
      have hsplitS := sizeList_filter_split (fun x => decide (x ∈ CF)) gs
      have hsplitL := leavesList_filter_split (fun x => decide (x ∈ CF)) gs
      have hrm : _remove_factors (factors_and (Node.And gs)) CF
          = gs.filter fun x => !(decide (x ∈ CF)) := by
        rw [remove_factors_filter]; rfl
      have hsubp : CF.Subperm (gs.filter fun x => decide (x ∈ CF)) := by
        refine List.subperm_of_subset hCFnodup ?_
        intro x hx
        exact List.mem_filter.mpr ⟨hCFsub _ ht x hx, by simp [hx]⟩
      have hS := sizeList_subperm hsubp
      have hL := leavesList_subperm hsubp
      show 1 + SC + size.sizeList (_remove_factors (factors_and (Node.And gs)) CF)
          + 2 * (LC + leaves.leavesList (_remove_factors (factors_and (Node.And gs)) CF))
          ≤ size (Node.And gs) + 2 * leaves (Node.And gs)
      rw [hrm]
      simp only [size, leaves]
      omega
  -- bounds for the rewrapped residuals
  have hmkS : ∀ l : List Node, size (Node.And l) = 1 + size.sizeList l := fun l => rfl
  have hmkL : ∀ l : List Node, leaves (Node.And l) = leaves.leavesList l := fun l => rfl
  set g := fun t => rewrapRest Node.And true (_remove_factors (factors_and t) CF) with hg
  -- outer bound
  have houter : size (_normalize_tree (Node.And (CF ++ [_normalize_tree (Node.Or (cs.map g))])))
        + 2 * leaves (_normalize_tree (Node.And (CF ++ [_normalize_tree (Node.Or (cs.map g))])))
      ≤ 2 + SC + 2 * LC + size.sizeList (cs.map g) + 2 * leaves.leavesList (cs.map g) := by
    have h1 : size (_normalize_tree (Node.And (CF ++ [_normalize_tree (Node.Or (cs.map g))])))
        ≤ 1 + SC + (1 + size.sizeList (cs.map g)) := by
      calc size (_normalize_tree (Node.And (CF ++ [_normalize_tree (Node.Or (cs.map g))])))
          ≤ size (Node.And (CF ++ [_normalize_tree (Node.Or (cs.map g))])) := normalize_size_le _
        _ = 1 + size.sizeList CF + size (_normalize_tree (Node.Or (cs.map g))) := by
            simp only [size, sizeList_append, sizeList_single]
            omega
        _ ≤ 1 + SC + (1 + size.sizeList (cs.map g)) := by
            have := normalize_size_le (Node.Or (cs.map g))
            simp only [size] at this
            omega
    have h2 : leaves (_normalize_tree (Node.And (CF ++ [_normalize_tree (Node.Or (cs.map g))])))
        = LC + leaves.leavesList (cs.map g) := by
      rw [normalize_leaves_eq]
      simp only [leaves, leavesList_append, leavesList_single]
      rw [normalize_leaves_eq]
      simp only [leaves]
    omega
  -- case split: is some residual empty?
  by_cases hempty : ∃ t ∈ cs, _remove_factors (factors_and t) CF = []
  · -- some child is wholly absorbed into the common factors: CF has ≥ 2 elements
    obtain ⟨t0, ht0, he0⟩ := hempty
    have hAt0 := hAll t0 ht0
    cases t0 <;> simp [isAnd] at hAt0
    next gs0 =>
      have hgs0sub : ∀ x ∈ gs0, x ∈ CF := by
        intro x hx
        have hrm : _remove_factors (factors_and (Node.And gs0)) CF
            = gs0.filter fun y => !(decide (y ∈ CF)) := by
          rw [remove_factors_filter]; rfl
        rw [hrm] at he0
        by_contra hnx
        have : x ∈ gs0.filter fun y => !(decide (y ∈ CF)) :=
          List.mem_filter.mpr ⟨hx, by simp [hnx]⟩
        rw [he0] at this
        simp at this
      have hgs0nd : gs0.Nodup := hnodup _ ht0 gs0 rfl
      have hgs0len : 2 ≤ gs0.length := (canonInv_and_parts (hinv _ ht0)).2
      have hlenCF : 2 ≤ CF.length :=
        le_trans hgs0len (List.subperm_of_subset hgs0nd hgs0sub).length_le
      have hSC2 : 2 ≤ SC := le_trans hlenCF sizeList_le_length
      have hLC2 : 2 ≤ LC := le_trans hlenCF (leavesList_ge_length_canon hCFcanon)
      -- uniform per-term bound with slack 2
      have hsum := sum_decrease_bound g (SC + 2 * LC) 2 cs (by
        intro t ht
        have hszg : size (g t) ≤ 1 + size.sizeList (_remove_factors (factors_and t) CF) :=
          rewrap_size_le Node.And hmkS true _
        have hlvg : leaves (g t) ≤ 1 + leaves.leavesList (_remove_factors (factors_and t) CF) :=
          rewrap_leaves_le Node.And hmkL true _
        have := hterm t ht
        omega)
      have hkW : 2 * (SC + 2 * LC) ≤ cs.length * (SC + 2 * LC) :=
        Nat.mul_le_mul_right _ hk2
      have h6k : cs.length * 6 ≤ cs.length * (SC + 2 * LC) :=
        Nat.mul_le_mul_left _ (by omega)
      have hk6 : cs.length * 6 = 6 * cs.length := Nat.mul_comm _ _
      set kW := cs.length * (SC + 2 * LC) with hkWdef
      simp only [size, leaves]
      simp only [size, leaves] at houter
      omega
  · -- every residual is non-empty: per-term decrease without slack
    push_neg at hempty
    have hsum := sum_decrease_bound g (SC + 2 * LC) 0 cs (by
      intro t ht
      have hszg : size (g t) ≤ 1 + size.sizeList (_remove_factors (factors_and t) CF) :=
        rewrap_size_le Node.And hmkS true _
      have hlvg : leaves (g t) = leaves.leavesList (_remove_factors (factors_and t) CF) :=
        rewrap_leaves_eq Node.And hmkL true _ (hempty t ht)
      have := hterm t ht
      omega)
    have hkW : 2 * (SC + 2 * LC) ≤ cs.length * (SC + 2 * LC) :=
      Nat.mul_le_mul_right _ hk2
    set kW := cs.length * (SC + 2 * LC) with hkWdef
    simp only [size, leaves]
    simp only [size, leaves] at houter
    omega

theorem factor_and_decrease {cs : List Node} {f : Node}
    (hinv : ∀ t ∈ cs, canonInv t)
    (hnodup : ∀ t ∈ cs, ∀ gs, t = Node.Or gs → gs.Nodup)
    (h : _factor_common_for_and cs = some f) :
    size f + 2 * leaves f < size (.And cs) + 2 * leaves (.And cs) := by
  unfold _factor_common_for_and at h
  dsimp only at h
  split at h
  · cases h
  split at h
  · cases h
  split at h
  · cases h
  split at h
  case isFalse => cases h
  case isTrue hlen2 hcomm hcf hall =>
  rw [Option.some.injEq] at h
  subst h
  have hAll : ∀ t ∈ cs, isOr t = true := by
    intro t ht
    exact List.all_eq_true.mp hall t ht
  have hfilter : cs.filter isOr = cs := List.filter_eq_self.mpr hAll
  have hk2 : 2 ≤ cs.length := by
    rw [hfilter] at hlen2
    omega
  set CF := List.insertionSort strLe (commonOfTerms factors_or (cs.filter isOr)) with hCF
  have hCFperm : CF.Perm (commonOfTerms factors_or (cs.filter isOr)) :=
    List.perm_insertionSort strLe _
  have hCFnodup : CF.Nodup := hCFperm.nodup_iff.mpr (commonOfTerms_nodup _ _)
  have hCFsub : ∀ t ∈ cs, ∀ x ∈ CF, x ∈ factors_or t := by
    intro t ht x hx
    exact commonOfTerms_mem_all factors_or (cs.filter isOr) x (hCFperm.mem_iff.mp hx)
      t (by rw [hfilter]; exact ht)
  have hCFne : CF ≠ [] := hcf
  have hCFlen1 : 1 ≤ CF.length := by
    cases hc : CF with
    | nil => exact absurd hc hCFne
    | cons a l => simp
  have hCFcanon : ∀ x ∈ CF, canonInv x := by
    intro x hx
    obtain ⟨t, ht⟩ := List.exists_mem_of_length_pos (show 0 < cs.length by omega)
    have hfx : x ∈ factors_or t := hCFsub t ht x hx
    have hAt := hAll t ht
    cases t <;> simp [isOr] at hAt
    next gs =>
      have hparts := canonInv_or_parts (hinv _ ht)
      exact hparts.1 x (by simpa [factors_or] using hfx)
  set SC := size.sizeList CF with hSC
  set LC := leaves.leavesList CF with hLC
  have hSC1 : 1 ≤ SC := le_trans hCFlen1 sizeList_le_length
  have hLC1 : 1 ≤ LC := le_trans hCFlen1 (leavesList_ge_length_canon hCFcanon)
  -- per-term inequalities
  have hterm : ∀ t ∈ cs,
      size t + 2 * leaves t
        ≥ 1 + SC + size.sizeList (_remove_factors (factors_or t) CF)
          + 2 * (LC + leaves.leavesList (_remove_factors (factors_or t) CF)) := by
    intro t ht
    have := hAll t ht
    cases t <;> simp [isOr] at this
    case Or gs =>
      have hgnd : gs.Nodup := hnodup _ ht gs rfl
      have hsplitS := sizeList_filter_split (fun x => decide (x ∈ CF)) gs
      have hsplitL := leavesList_filter_split (fun x => decide (x ∈ CF)) gs
      have hrm : _remove_factors (factors_or (Node.Or gs)) CF
          = gs.filter fun x => !(decide (x ∈ CF)) := by
        rw [remove_factors_filter]; rfl
      have hsubp : CF.Subperm (gs.filter fun x => decide (x ∈ CF)) := by
        refine List.subperm_of_subset hCFnodup ?_
        intro x hx
        exact List.mem_filter.mpr ⟨hCFsub _ ht x hx, by simp [hx]⟩
      have hS := sizeList_subperm hsubp
      have hL := leavesList_subperm hsubp
      show 1 + SC + size.sizeList (_remove_factors (factors_or (Node.Or gs)) CF)
          + 2 * (LC + leaves.leavesList (_remove_factors (factors_or (Node.Or gs)) CF))
          ≤ size (Node.Or gs) + 2 * leaves (Node.Or gs)
      rw [hrm]
      simp only [size, leaves]
      omega
  -- bounds for the rewrapped residuals
  have hmkS : ∀ l : List Node, size (Node.Or l) = 1 + size.sizeList l := fun l => rfl
  have hmkL : ∀ l : List Node, leaves (Node.Or l) = leaves.leavesList l := fun l => rfl
  set g := fun t => rewrapRest Node.Or false (_remove_factors (factors_or t) CF) with hg
  -- outer bound
  have houter : size (_normalize_tree (Node.Or (CF ++ [_normalize_tree (Node.And (cs.map g))])))
        + 2 * leaves (_normalize_tree (Node.Or (CF ++ [_normalize_tree (Node.And (cs.map g))])))
      ≤ 2 + SC + 2 * LC + size.sizeList (cs.map g) + 2 * leaves.leavesList (cs.map g) := by
    have h1 : size (_normalize_tree (Node.Or (CF ++ [_normalize_tree (Node.And (cs.map g))])))
        ≤ 1 + SC + (1 + size.sizeList (cs.map g)) := by
      calc size (_normalize_tree (Node.Or (CF ++ [_normalize_tree (Node.And (cs.map g))])))
          ≤ size (Node.Or (CF ++ [_normalize_tree (Node.And (cs.map g))])) := normalize_size_le _
        _ = 1 + size.sizeList CF + size (_normalize_tree (Node.And (cs.map g))) := by
            simp only [size, sizeList_append, sizeList_single]
            omega
        _ ≤ 1 + SC + (1 + size.sizeList (cs.map g)) := by
            have := normalize_size_le (Node.And (cs.map g))
            simp only [size] at this
            omega
    have h2 : leaves (_normalize_tree (Node.Or (CF ++ [_normalize_tree (Node.And (cs.map g))])))
        = LC + leaves.leavesList (cs.map g) := by
      rw [normalize_leaves_eq]
      simp only [leaves, leavesList_append, leavesList_single]
      rw [normalize_leaves_eq]
      simp only [leaves]
    omega
  -- case split: is some residual empty?
  by_cases hempty : ∃ t ∈ cs, _remove_factors (factors_or t) CF = []
  · -- some child is wholly absorbed into the common factors: CF has ≥ 2 elements
    obtain ⟨t0, ht0, he0⟩ := hempty
    have hAt0 := hAll t0 ht0
    cases t0 <;> simp [isOr] at hAt0
    next gs0 =>
      have hgs0sub : ∀ x ∈ gs0, x ∈ CF := by
        intro x hx
        have hrm : _remove_factors (factors_or (Node.Or gs0)) CF
            = gs0.filter fun y => !(decide (y ∈ CF)) := by
          rw [remove_factors_filter]; rfl
        rw [hrm] at he0
        by_contra hnx
        have : x ∈ gs0.filter fun y => !(decide (y ∈ CF)) :=
          List.mem_filter.mpr ⟨hx, by simp [hnx]⟩
        rw [he0] at this
        simp at this
      have hgs0nd : gs0.Nodup := hnodup _ ht0 gs0 rfl
      have hgs0len : 2 ≤ gs0.length := (canonInv_or_parts (hinv _ ht0)).2
      have hlenCF : 2 ≤ CF.length :=
        le_trans hgs0len (List.subperm_of_subset hgs0nd hgs0sub).length_le
      have hSC2 : 2 ≤ SC := le_trans hlenCF sizeList_le_length
      have hLC2 : 2 ≤ LC := le_trans hlenCF (leavesList_ge_length_canon hCFcanon)
      -- uniform per-term bound with slack 2
      have hsum := sum_decrease_bound g (SC + 2 * LC) 2 cs (by
        intro t ht
        have hszg : size (g t) ≤ 1 + size.sizeList (_remove_factors (factors_or t) CF) :=
          rewrap_size_le Node.Or hmkS false _
        have hlvg : leaves (g t) ≤ 1 + leaves.leavesList (_remove_factors (factors_or t) CF) :=
          rewrap_leaves_le Node.Or hmkL false _
        have := hterm t ht
        omega)
      have hkW : 2 * (SC + 2 * LC) ≤ cs.length * (SC + 2 * LC) :=
        Nat.mul_le_mul_right _ hk2
      have h6k : cs.length * 6 ≤ cs.length * (SC + 2 * LC) :=
        Nat.mul_le_mul_left _ (by omega)
      have hk6 : cs.length * 6 = 6 * cs.length := Nat.mul_comm _ _
      set kW := cs.length * (SC + 2 * LC) with hkWdef
      simp only [size, leaves]
      simp only [size, leaves] at houter
      omega
  · -- every residual is non-empty: per-term decrease without slack
    push_neg at hempty
    have hsum := sum_decrease_bound g (SC + 2 * LC) 0 cs (by
      intro t ht
      have hszg : size (g t) ≤ 1 + size.sizeList (_remove_factors (factors_or t) CF) :=
        rewrap_size_le Node.Or hmkS false _
      have hlvg : leaves (g t) = leaves.leavesList (_remove_factors (factors_or t) CF) :=
        rewrap_leaves_eq Node.Or hmkL false _ (hempty t ht)
      have := hterm t ht
      omega)
    have hkW : 2 * (SC + 2 * LC) ≤ cs.length * (SC + 2 * LC) :=
      Nat.mul_le_mul_right _ hk2
    set kW := cs.length * (SC + 2 * LC) with hkWdef
    simp only [size, leaves]
    simp only [size, leaves] at houter
    omega

theorem andRules_decrease {cs : List Node} {m : Node} {law : Option (List Char)}
    (hinv : canonInv (.And cs))
    (hunch : ∀ c ∈ cs, (apply_rules_in_order c).2.1 = false)
    (h : andRules cs = (m, true, law)) :
    size m + 2 * leaves m < size (.And cs) + 2 * leaves (.And cs) := by
  obtain ⟨hm, hlen⟩ := canonInv_and_parts hinv
  have hS2 : 2 ≤ size.sizeList cs := le_trans hlen sizeList_le_length
  have hL2 : 2 ≤ leaves.leavesList cs := le_trans hlen (leavesList_ge_length_canon hm)
  unfold andRules at h
  dsimp only at h
  repeat' split at h
  all_goals rw [Prod.mk.injEq, Prod.mk.injEq] at h
  all_goals obtain ⟨h1, h2, h3⟩ := h
  all_goals try exact Bool.noConfusion h2
  all_goals subst h1
  -- idempotence
  · rename_i hlt
    have hsub := unique_aux_sublist cs []
    have hslt : size.sizeList (_unique_nodes cs) < size.sizeList cs :=
      sizeList_sublist_strict hsub hlt
    have hlle : leaves.leavesList (_unique_nodes cs) ≤ leaves.leavesList cs :=
      leavesList_sublist hsub
    have hns := normalize_size_le (Node.And (_unique_nodes cs))
    have hnl := normalize_leaves_eq (Node.And (_unique_nodes cs))
    simp only [size, leaves] at *
    omega
  -- annihilator
  · simp only [size, leaves]
    omega
  -- identity, all children were Const true
  · simp only [size, leaves]
    omega
  -- identity, single child remains
  · rename_i x heq
    have hx : x ∈ cs := List.mem_of_mem_filter (heq ▸ List.mem_singleton_self x)
    have h1 := sizeList_mem_le hx
    have h2 := leavesList_mem_le hx
    simp only [size, leaves]
    omega
  -- identity, several children remain
  · have hlt : (List.filter (fun c => decide ¬ decide (c = Node.Const true) = true) cs).length
        < cs.length := by assumption
    have hsub := List.filter_sublist cs
      (p := fun c => decide ¬ decide (c = Node.Const true) = true)
    have hslt := sizeList_sublist_strict hsub hlt
    have hlle := leavesList_sublist hsub
    have hns := normalize_size_le
      (Node.And (cs.filter fun c => ¬ decide (c = Node.Const true)))
    have hnl := normalize_leaves_eq
      (Node.And (cs.filter fun c => ¬ decide (c = Node.Const true)))
    simp only [size, leaves] at *
    omega
  -- complement
  · simp only [size, leaves]
    omega
  -- absorption
  · rename_i x heq
    have hx : x ∈ cs := absorbAnd_mem heq
    have h1 := sizeList_mem_le hx
    have h2 := leavesList_mem_le hx
    simp only [size, leaves]
    omega
  -- common factor extraction
  · rename_i f heq
    refine factor_and_decrease hm ?_ heq
    intro t ht gs hgs
    subst hgs
    rcases happ : apply_rules_in_order (Node.Or gs) with ⟨m2, ch2, law2⟩
    have hch : ch2 = false := by
      have := hunch _ ht
      rw [happ] at this
      exact this
    subst hch
    exact apply_or_unchanged_nodup happ

theorem orRules_decrease {cs : List Node} {m : Node} {law : Option (List Char)}
    (hinv : canonInv (.Or cs))
    (hunch : ∀ c ∈ cs, (apply_rules_in_order c).2.1 = false)
    (h : orRules cs = (m, true, law)) :
    size m + 2 * leaves m < size (.Or cs) + 2 * leaves (.Or cs) := by
  obtain ⟨hm, hlen⟩ := canonInv_or_parts hinv
  have hS2 : 2 ≤ size.sizeList cs := le_trans hlen sizeList_le_length
  have hL2 : 2 ≤ leaves.leavesList cs := le_trans hlen (leavesList_ge_length_canon hm)
  unfold orRules at h
  dsimp only at h
  repeat' split at h
  all_goals rw [Prod.mk.injEq, Prod.mk.injEq] at h
  all_goals obtain ⟨h1, h2, h3⟩ := h
  all_goals try exact Bool.noConfusion h2
  all_goals subst h1
  · rename_i hlt
    have hsub := unique_aux_sublist cs []
    have hslt : size.sizeList (_unique_nodes cs) < size.sizeList cs :=
      sizeList_sublist_strict hsub hlt
    have hlle : leaves.leavesList (_unique_nodes cs) ≤ leaves.leavesList cs :=
      leavesList_sublist hsub
    have hns := normalize_size_le (Node.Or (_unique_nodes cs))
    have hnl := normalize_leaves_eq (Node.Or (_unique_nodes cs))
    simp only [size, leaves] at *
    omega
  · simp only [size, leaves]
    omega
  · simp only [size, leaves]
    omega
  · rename_i x heq
    have hx : x ∈ cs := List.mem_of_mem_filter (heq ▸ List.mem_singleton_self x)
    have h1 := sizeList_mem_le hx
    have h2 := leavesList_mem_le hx
    simp only [size, leaves]
    omega
  · have hlt : (List.filter (fun c => decide ¬ decide (c = Node.Const false) = true) cs).length
        < cs.length := by assumption
    have hsub := List.filter_sublist cs
      (p := fun c => decide ¬ decide (c = Node.Const false) = true)
    have hslt := sizeList_sublist_strict hsub hlt
    have hlle := leavesList_sublist hsub
    have hns := normalize_size_le
      (Node.Or (cs.filter fun c => ¬ decide (c = Node.Const false)))
    have hnl := normalize_leaves_eq
      (Node.Or (cs.filter fun c => ¬ decide (c = Node.Const false)))
    simp only [size, leaves] at *
    omega
  · simp only [size, leaves]
    omega
  · rename_i x heq
    have hx : x ∈ cs := absorbOr_mem heq
    have h1 := sizeList_mem_le hx
    have h2 := leavesList_mem_le hx
    simp only [size, leaves]
    omega
  · rename_i f heq
    refine factor_or_decrease hm ?_ heq
    intro t ht gs hgs
    subst hgs
    rcases happ : apply_rules_in_order (Node.And gs) with ⟨m2, ch2, law2⟩
    have hch : ch2 = false := by
      have := hunch _ ht
      rw [happ] at this
      exact this
    subst hch
    exact apply_and_unchanged_nodup happ

theorem apply_decreases :
    ∀ n : Node, canonInv n → ∀ m law, apply_rules_in_order n = (m, true, law) →
      size m + 2 * leaves m < size n + 2 * leaves n := by
  intro n
  induction n using Node.myrec with
  | hc b => intro _ m law h; simp [apply_rules_in_order] at h
  | hv s => intro _ m law h; simp [apply_rules_in_order] at h
  | hn c ih =>
      intro hcn m law h
      have hc1 : canonInv c := by cases hcn with | not _ h2 => exact h2
      simp only [apply_rules_in_order] at h
      rcases happ : apply_rules_in_order c with ⟨child, ch, law2⟩
      rw [happ] at h
      cases ch <;> dsimp only at h
      · cases hchild : child <;> rw [hchild] at h <;> try simp at h
        case Not g =>
          have hceq : child = c := apply_unchanged_eq c child law2 happ
          obtain ⟨h1, _⟩ := h
          subst h1
          rw [← hceq, hchild]
          simp only [size, leaves]
          have := size_pos g
          omega
      · rw [Prod.mk.injEq, Prod.mk.injEq] at h
        obtain ⟨h1, _, _⟩ := h
        subst h1
        have := ih hc1 child law2 happ
        simp only [size, leaves]
        omega
  | ha cs ih =>
      intro hcn m law h
      obtain ⟨hm, hlen⟩ := canonInv_and_parts hcn
      simp only [apply_rules_in_order] at h
      rcases hs : scanChildren cs with ⟨pre, c2, law2, suf⟩ | l <;> rw [hs] at h <;>
        dsimp only at h
      · obtain ⟨corig, hceq, happ⟩ := scan_changed_struct cs pre c2 law2 suf hs
        rw [Prod.mk.injEq, Prod.mk.injEq] at h
        obtain ⟨h1, _, _⟩ := h
        subst h1
        have hmem : corig ∈ cs := by rw [hceq]; simp
        have hdec := ih corig hmem (hm corig hmem) c2 law2 happ
        have hns := normalize_size_le (Node.And (pre ++ c2 :: suf))
        have hnl := normalize_leaves_eq (Node.And (pre ++ c2 :: suf))
        rw [hceq]
        simp only [size, leaves, sizeList_append, leavesList_append,
          size.sizeList, leaves.leavesList] at *
        omega
      · have hl : l = cs := scan_unchanged_eq cs
          (fun c hcm m2 l3 he => apply_unchanged_eq c m2 l3 he) l hs
        subst hl
        exact andRules_decrease hcn (scan_unchanged_each _ _ hs) h
  | ho cs ih =>
      intro hcn m law h
      obtain ⟨hm, hlen⟩ := canonInv_or_parts hcn
      simp only [apply_rules_in_order] at h
      rcases hs : scanChildren cs with ⟨pre, c2, law2, suf⟩ | l <;> rw [hs] at h <;>
        dsimp only at h
      · obtain ⟨corig, hceq, happ⟩ := scan_changed_struct cs pre c2 law2 suf hs
        rw [Prod.mk.injEq, Prod.mk.injEq] at h
        obtain ⟨h1, _, _⟩ := h
        subst h1
        have hmem : corig ∈ cs := by rw [hceq]; simp
        have hdec := ih corig hmem (hm corig hmem) c2 law2 happ
        have hns := normalize_size_le (Node.Or (pre ++ c2 :: suf))
        have hnl := normalize_leaves_eq (Node.Or (pre ++ c2 :: suf))
        rw [hceq]
        simp only [size, leaves, sizeList_append, leavesList_append,
          size.sizeList, leaves.leavesList] at *
        omega
      · have hl : l = cs := scan_unchanged_eq cs
          (fun c hcm m2 l3 he => apply_unchanged_eq c m2 l3 he) l hs
        subst hl
        exact orRules_decrease hcn (scan_unchanged_each _ _ hs) h

theorem simplifyLoop_isSome :
    ∀ (fuel : Nat) (ast : Node), canonInv ast →
      size ast + 2 * leaves ast ≤ fuel + 2 → (simplifyLoop fuel ast).isSome := by
  intro fuel
  induction fuel with
  | zero =>
      intro ast hinv hM
      have h1 := size_pos ast
      have h2 := canonInv_leaves_pos ast hinv
      omega
  | succ fuel ih =>
      intro ast hinv hM
      simp only [simplifyLoop]
      rcases happ : apply_rules_in_order ast with ⟨m, ch, law⟩
      cases ch <;> dsimp only
      · simp
      · have hdec := apply_decreases ast hinv m law happ
        have hwfm : wf1 m := by
          have := apply_wf1 ast (canonInv_wf1 _ hinv)
          rwa [happ] at this
        have hnext : canonInv (_normalize_tree m) := canonInv_normalize _ hwfm
        have hns := normalize_size_le m
        have hnl := normalize_leaves_eq m
        have hfits : size (_normalize_tree m) + 2 * leaves (_normalize_tree m) ≤ fuel + 2 := by
          omega
        have hsome := ih (_normalize_tree m) hnext hfits
        rcases hloop : simplifyLoop fuel (_normalize_tree m) with _ | ⟨fin, steps⟩
        · rw [hloop] at hsome
          simp at hsome
        · simp

/-! ### Shunting-yard correctness on printed token lists -/

theorem foldlM_parseStep_append (l1 l2 : List (List Char)) (st : List Node × List Char) :
    List.foldlM parseStep st (l1 ++ l2)
      = List.foldlM parseStep st l1 >>= fun st2 => List.foldlM parseStep st2 l2 := by
  induction l1 generalizing st with
  | nil => rfl
  | cons t l1 ih =>
      show List.foldlM parseStep st (t :: (l1 ++ l2)) = _
      rw [List.foldlM_cons, List.foldlM_cons]
      cases h : parseStep st t with
      | error e => rfl
      | ok st2 =>
          show List.foldlM parseStep st2 (l1 ++ l2)
              = List.foldlM parseStep st2 l1 >>= fun st3 => List.foldlM parseStep st3 l2
          exact ih st2

theorem foldlM_parseStep_single (st : List Node × List Char) (t : List Char) :
    List.foldlM parseStep st [t] = parseStep st t := by
  rw [List.foldlM_cons]
  cases h : parseStep st t with
  | error e => rfl
  | ok st2 => rfl

theorem parseStep_one (out : List Node) (ops : List Char) :
    parseStep (out, ops) ['1'] = .ok (.Const true :: out, ops) := rfl

theorem parseStep_zero (out : List Node) (ops : List Char) :
    parseStep (out, ops) ['0'] = .ok (.Const false :: out, ops) := rfl

theorem parseStep_bang (out : List Node) (ops : List Char) :
    parseStep (out, ops) ['!'] = .ok (out, '!' :: ops) := rfl

theorem parseStep_lpar (out : List Node) (ops : List Char) :
    parseStep (out, ops) ['('] = .ok (out, '(' :: ops) := rfl

theorem parseStep_ident {t : List Char} (h : isIdentTok t) (out : List Node) (ops : List Char) :
    parseStep (out, ops) t = .ok (.Var t :: out, ops) := by
  have h1 : t ≠ ['1'] := by rintro rfl; exact absurd h (by decide)
  have h0 : t ≠ ['0'] := by rintro rfl; exact absurd h (by decide)
  unfold parseStep
  dsimp only
  rw [if_neg h1, if_neg h0, if_pos h]

theorem parseStep_amp_ok {out out2 : List Node} {ops ops2 : List Char}
    (h : popWhileGe 2 ops out = .ok (out2, ops2)) :
    parseStep (out, ops) ['&'] = .ok (out2, '&' :: ops2) := by
  have e : parseStep (out, ops) ['&']
      = (popWhileGe 2 ops out >>= fun r => .ok (r.1, '&' :: r.2)) := rfl
  rw [e, except_bind_ok h]

theorem parseStep_pipe_ok {out out2 : List Node} {ops ops2 : List Char}
    (h : popWhileGe 1 ops out = .ok (out2, ops2)) :
    parseStep (out, ops) ['|'] = .ok (out2, '|' :: ops2) := by
  have e : parseStep (out, ops) ['|']
      = (popWhileGe 1 ops out >>= fun r => .ok (r.1, '|' :: r.2)) := rfl
  rw [e, except_bind_ok h]

theorem parseStep_rpar_ok {out out2 : List Node} {ops ops2 : List Char}
    (h : popUntilParen ops out = .ok (out2, ops2)) :
    parseStep (out, ops) [')'] = .ok (out2, ops2) := by
  have e : parseStep (out, ops) [')']
      = (popUntilParen ops out >>= fun r => .ok (r.1, r.2)) := rfl
  rw [e, except_bind_ok h]

theorem unwind_append (σ1 σ2 : List Char) (out : List Node) :
    unwind (σ1 ++ σ2) out = unwind σ1 out >>= fun out2 => unwind σ2 out2 := by
  induction σ1 generalizing out with
  | nil => rfl
  | cons op σ1 ih =>
      rw [show ((op :: σ1) ++ σ2 : List Char) = op :: (σ1 ++ σ2) from rfl]
      rw [show unwind (op :: (σ1 ++ σ2)) out
          = apply_op op out >>= fun o => unwind (σ1 ++ σ2) o from rfl]
      rw [show unwind (op :: σ1) out
          = apply_op op out >>= fun o => unwind σ1 o from rfl]
      cases h : apply_op op out with
      | error e => rfl
      | ok o => exact ih o

theorem Stop_mono {p q : Nat} (hpq : p ≤ q) : ∀ ops : List Char, Stop p ops → Stop q ops := by
  intro ops h
  cases ops with
  | nil => trivial
  | cons op rest =>
      have h2 : op = '(' ∨ prec op < p := h
      show op = '(' ∨ prec op < q
      rcases h2 with h2 | h2
      · exact Or.inl h2
      · exact Or.inr (by omega)

theorem prec_le_three (op : Char) : prec op ≤ 3 := by
  unfold prec
  repeat' split
  all_goals omega

theorem Stop_four (ops : List Char) : Stop 4 ops := by
  cases ops with
  | nil => trivial
  | cons op rest =>
      show op = '(' ∨ prec op < 4
      exact Or.inr (by have := prec_le_three op; omega)

theorem popWhileGe_unwind (p : Nat) :
    ∀ (σ : List Char) (out : List Node) (ops : List Char),
      (∀ op ∈ σ, op ≠ '(' ∧ p ≤ prec op) → Stop p ops →
      popWhileGe p (σ ++ ops) out
        = unwind σ out >>= fun out2 => .ok (out2, ops) := by
  intro σ
  induction σ with
  | nil =>
      intro out ops _ hstop
      cases ops with
      | nil => rfl
      | cons op rest =>
          show popWhileGe p (op :: rest) out = _
          unfold popWhileGe
          rw [if_neg]
          · rfl
          · have h2 : op = '(' ∨ prec op < p := hstop
            rcases h2 with h2 | h2
            · rintro ⟨h1, _⟩; exact h1 h2
            · rintro ⟨_, h3⟩; omega
  | cons op σ ih =>
      intro out ops hσ hstop
      show popWhileGe p (op :: (σ ++ ops)) out = _
      unfold popWhileGe
      rw [if_pos ⟨(hσ op (by simp)).1, (hσ op (by simp)).2⟩]
      rw [show unwind (op :: σ) out = apply_op op out >>= fun o => unwind σ o from rfl]
      cases h : apply_op op out with
      | error e => rfl
      | ok o => exact ih o ops (fun x hx => hσ x (by simp [hx])) hstop

theorem popUntilParen_unwind :
    ∀ (σ : List Char) (out : List Node) (ops : List Char), (∀ op ∈ σ, op ≠ '(') →
      popUntilParen (σ ++ '(' :: ops) out
        = unwind σ out >>= fun out2 => .ok (out2, ops) := by
  intro σ
  induction σ with
  | nil =>
      intro out ops _
      show popUntilParen ('(' :: ops) out = _
      unfold popUntilParen
      rw [if_pos rfl]
      rfl
  | cons op σ ih =>
      intro out ops hσ
      show popUntilParen (op :: (σ ++ '(' :: ops)) out = _
      unfold popUntilParen
      rw [if_neg (hσ op (by simp))]
      rw [show unwind (op :: σ) out = apply_op op out >>= fun o => unwind σ o from rfl]
      cases h : apply_op op out with
      | error e => rfl
      | ok o => exact ih o ops (fun x hx => hσ x (by simp [hx]))

theorem drainOps_unwind :
    ∀ (σ : List Char) (out : List Node), (∀ op ∈ σ, op ≠ '(' ∧ op ≠ ')') →
      drainOps σ out = unwind σ out := by
  intro σ
  induction σ with
  | nil => intro out _; rfl
  | cons op σ ih =>
      intro out hσ
      show drainOps (op :: σ) out = _
      unfold drainOps
      rw [if_neg (by
        rintro (h | h)
        · exact (hσ op (by simp)).1 h
        · exact (hσ op (by simp)).2 h)]
      rw [show unwind (op :: σ) out = apply_op op out >>= fun o => unwind σ o from rfl]
      cases h : apply_op op out with
      | error e => rfl
      | ok o => exact ih o (fun x hx => hσ x (by simp [hx]))

theorem parse_group {c : Node} (hP : PSpec c) (out : List Node) (ops : List Char) :
    List.foldlM parseStep (out, ops) ([['(']] ++ (printToks c ++ [[')']]))
      = .ok (rawParse c :: out, ops) := by
  obtain ⟨σ, out2, hrun, hσ, hunw⟩ := hP out ('(' :: ops) (Or.inl rfl)
  rw [foldlM_parseStep_append, foldlM_parseStep_single, parseStep_lpar, except_bind_ok rfl,
    foldlM_parseStep_append, except_bind_ok hrun, foldlM_parseStep_single,
    parseStep_rpar_ok (show popUntilParen (σ ++ '(' :: ops) out2 = .ok (rawParse c :: out, ops) by
      rw [popUntilParen_unwind σ out2 ops (fun op hop => (hσ op hop).1), except_bind_ok hunw])]

theorem parse_print_master : ∀ n : Node, wfN n → canonInv n → PSpec n := by
  intro n
  induction n using Node.myrec with
  | hc b =>
      intro _ _ out ops _
      cases b
      · refine ⟨[], .Const false :: out, ?_, by simp, rfl⟩
        show List.foldlM parseStep (out, ops) [['0']] = .ok (.Const false :: out, [] ++ ops)
        rw [foldlM_parseStep_single, parseStep_zero, List.nil_append]
      · refine ⟨[], .Const true :: out, ?_, by simp, rfl⟩
        show List.foldlM parseStep (out, ops) [['1']] = .ok (.Const true :: out, [] ++ ops)
        rw [foldlM_parseStep_single, parseStep_one, List.nil_append]
  | hv s =>
      intro hwf _ out ops _
      have hid : isIdentTok s := by cases hwf with | var _ h => exact h
      refine ⟨[], .Var s :: out, ?_, by simp, rfl⟩
      show List.foldlM parseStep (out, ops) [s] = .ok (.Var s :: out, [] ++ ops)
      rw [foldlM_parseStep_single, parseStep_ident hid, List.nil_append]
  | hn c ihc =>
      intro hwf hinv
      have hwfc : wfN c := by cases hwf with | not _ h => exact h
      have hinvc : canonInv c := by cases hinv with | not _ h => exact h
      have hP := ihc hwfc hinvc
      have parenNot : printToks (.Not c) = [['!']] ++ ([['(']] ++ (printToks c ++ [[')']])) →
          PSpec (.Not c) := by
        intro hshape out ops _
        refine ⟨['!'], rawParse c :: out, ?_, ?_, ?_⟩
        · rw [hshape, foldlM_parseStep_append, foldlM_parseStep_single, parseStep_bang,
            except_bind_ok rfl, parse_group hP]
          rfl
        · intro op hop
          simp only [List.mem_singleton] at hop
          subst hop
          exact ⟨by decide, Nat.le.refl⟩
        · show unwind ['!'] (rawParse c :: out) = .ok (rawParse (.Not c) :: out)
          rfl
      have atomNot : printToks (.Not c) = ['!'] :: printToks c → sP c = 3 → gP c = 4 →
          PSpec (.Not c) := by
        intro hshape hsp hg out ops _
        obtain ⟨σc, out2, hrun, hσ, hunw⟩ := hP out ('!' :: ops) (by rw [hg]; exact Stop_four _)
        refine ⟨σc ++ ['!'], out2, ?_, ?_, ?_⟩
        · rw [hshape, show ((['!'] :: printToks c : List (List Char)))
              = [['!']] ++ printToks c from rfl,
            foldlM_parseStep_append, foldlM_parseStep_single, parseStep_bang,
            except_bind_ok rfl, hrun, List.append_assoc]
          rfl
        · intro op hop
          rcases List.mem_append.mp hop with h | h
          · have h2 := hσ op h
            rw [hsp] at h2
            exact ⟨h2.1, h2.2⟩
          · simp only [List.mem_singleton] at h
            subst h
            exact ⟨by decide, Nat.le.refl⟩
        · rw [unwind_append, except_bind_ok hunw]
          show unwind ['!'] (rawParse c :: out) = .ok (rawParse (.Not c) :: out)
          rfl
      cases c with
      | And cs => exact parenNot rfl
      | Or cs => exact parenNot rfl
      | Const b => exact atomNot rfl rfl rfl
      | Var s => exact atomNot rfl rfl rfl
      | Not c2 => exact atomNot rfl rfl rfl
  | ha cs ih =>
      intro hwf hinv
      have hm : ∀ c ∈ cs, wfN c := by cases hwf with | and _ h => exact h
      have hparts : (∀ c ∈ cs, canonInv c) ∧ (∀ c ∈ cs, isAnd c = false) ∧
          List.Sorted nodeLe cs ∧ 2 ≤ cs.length := by
        cases hinv with | and _ h hna hs hl => exact ⟨h, hna, hs, hl⟩
      obtain ⟨hinvm, hna, _, hlen⟩ := hparts
      have hchild : ∀ c ∈ cs, ∀ (out : List Node) (ops : List Char),
          ∃ (σ : List Char) (out2 : List Node),
            List.foldlM parseStep (out, ops) (joinToksAnd [c]) = .ok (out2, σ ++ ops) ∧
              (∀ op ∈ σ, op ≠ '(' ∧ 2 ≤ prec op) ∧
              unwind σ out2 = .ok (rawParse c :: out) := by
        intro c hc out ops
        have hPc := ih c hc (hm c hc) (hinvm c hc)
        cases c with
        | Or gs =>
            refine ⟨[], rawParse (.Or gs) :: out, ?_, by simp, rfl⟩
            show List.foldlM parseStep (out, ops) ([['(']] ++ (printToks (.Or gs) ++ [[')']]))
                = .ok (rawParse (.Or gs) :: out, [] ++ ops)
            rw [parse_group hPc, List.nil_append]
        | And gs => exact absurd (hna _ hc) (by simp [isAnd])
        | Const b =>
            obtain ⟨σ, out2, hrun, hσ, hunw⟩ := hPc out ops (Stop_four ops)
            refine ⟨σ, out2, hrun, fun op hop => ⟨(hσ op hop).1, ?_⟩, hunw⟩
            have h2 := (hσ op hop).2
            simp only [sP] at h2
            omega
        | Var s =>
            obtain ⟨σ, out2, hrun, hσ, hunw⟩ := hPc out ops (Stop_four ops)
            refine ⟨σ, out2, hrun, fun op hop => ⟨(hσ op hop).1, ?_⟩, hunw⟩
            have h2 := (hσ op hop).2
            simp only [sP] at h2
            omega
        | Not c2 =>
            obtain ⟨σ, out2, hrun, hσ, hunw⟩ := hPc out ops (Stop_four ops)
            refine ⟨σ, out2, hrun, fun op hop => ⟨(hσ op hop).1, ?_⟩, hunw⟩
            have h2 := (hσ op hop).2
            simp only [sP] at h2
            omega
      have fold_and : ∀ ds : List Node, ds ≠ [] → (∀ d ∈ ds, d ∈ cs) →
          ∀ (acc : Node) (out : List Node) (ops : List Char), Stop 2 ops →
          ∃ (σ : List Char) (out2 : List Node),
            List.foldlM parseStep (acc :: out, '&' :: ops) (joinToksAnd ds)
              = .ok (out2, σ ++ '&' :: ops) ∧
            (∀ op ∈ σ, op ≠ '(' ∧ 2 ≤ prec op) ∧
            unwind (σ ++ ['&']) out2 = .ok (rawFoldAnd acc ds :: out) := by
        intro ds
        induction ds with
        | nil => intro h; exact absurd rfl h
        | cons d es ihd =>
            intro _ hmem acc out ops hstop
            cases es with
            | nil =>
                obtain ⟨σ, out2, hrun, hσ, hunw⟩ :=
                  hchild d (hmem d (by simp)) (acc :: out) ('&' :: ops)
                refine ⟨σ, out2, hrun, hσ, ?_⟩
                rw [unwind_append, except_bind_ok hunw]
                show unwind ['&'] (rawParse d :: acc :: out) = .ok (rawFoldAnd acc [d] :: out)
                rfl
            | cons e es2 =>
                obtain ⟨σd, outd, hrund, hσd, hunwd⟩ :=
                  hchild d (hmem d (by simp)) (acc :: out) ('&' :: ops)
                have hgood : ∀ op ∈ σd ++ ['&'], op ≠ '(' ∧ 2 ≤ prec op := by
                  intro op hop
                  rcases List.mem_append.mp hop with h | h
                  · exact hσd op h
                  · simp only [List.mem_singleton] at h
                    subst h
                    exact ⟨by decide, by decide⟩
                have hpop : popWhileGe 2 (σd ++ '&' :: ops) outd
                    = .ok (Node.And [acc, rawParse d] :: out, ops) := by
                  rw [show (σd ++ '&' :: ops : List Char) = (σd ++ ['&']) ++ ops by simp,
                    popWhileGe_unwind 2 (σd ++ ['&']) outd ops hgood hstop,
                    unwind_append, except_bind_ok hunwd]
                  rfl
                obtain ⟨σ, out2, hrun, hσ, hunw⟩ := ihd (by simp)
                  (fun x hx => hmem x (by simp [hx])) (.And [acc, rawParse d]) out ops hstop
                refine ⟨σ, out2, ?_, hσ, ?_⟩
                · rw [joinToksAnd_cons2, foldlM_parseStep_append, except_bind_ok hrund,
                    List.foldlM_cons, except_bind_ok (parseStep_amp_ok hpop)]
                  exact hrun
                · rw [hunw]
                  rfl
      intro out ops hstop
      obtain ⟨c, d, ds, rfl⟩ : ∃ c d ds, cs = c :: d :: ds := by
        match cs, hlen with
        | c :: d :: ds, _ => exact ⟨c, d, ds, rfl⟩
      obtain ⟨σ1, out1, hrun1, hσ1, hunw1⟩ := hchild c (by simp) out ops
      have hpop1 : popWhileGe 2 (σ1 ++ ops) out1 = .ok (rawParse c :: out, ops) := by
        rw [popWhileGe_unwind 2 σ1 out1 ops hσ1 hstop, except_bind_ok hunw1]
      obtain ⟨σ, out2, hrun, hσ, hunw⟩ := fold_and (d :: ds) (by simp)
        (fun x hx => by simp [hx]) (rawParse c) out ops hstop
      refine ⟨σ ++ ['&'], out2, ?_, ?_, ?_⟩
      · show List.foldlM parseStep (out, ops) (joinToksAnd (c :: d :: ds)) = _
        rw [joinToksAnd_cons2, foldlM_parseStep_append, except_bind_ok hrun1,
          List.foldlM_cons, except_bind_ok (parseStep_amp_ok hpop1), hrun, List.append_assoc]
        rfl
      · intro op hop
        rcases List.mem_append.mp hop with h | h
        · exact hσ op h
        · simp only [List.mem_singleton] at h
          subst h
          exact ⟨by decide, Nat.le.refl⟩
      · exact hunw
  | ho cs ih =>
      intro hwf hinv
      have hm : ∀ c ∈ cs, wfN c := by cases hwf with | or _ h => exact h
      have hparts : (∀ c ∈ cs, canonInv c) ∧ (∀ c ∈ cs, isOr c = false) ∧
          List.Sorted nodeLe cs ∧ 2 ≤ cs.length := by
        cases hinv with | or _ h hno hs hl => exact ⟨h, hno, hs, hl⟩
      obtain ⟨hinvm, hno, _, hlen⟩ := hparts
      have hchild : ∀ c ∈ cs, ∀ (out : List Node) (ops : List Char),
          ∃ (σ : List Char) (out2 : List Node),
            List.foldlM parseStep (out, ops) (joinToksOr [c]) = .ok (out2, σ ++ ops) ∧
              (∀ op ∈ σ, op ≠ '(' ∧ 1 ≤ prec op) ∧
              unwind σ out2 = .ok (rawParse c :: out) := by
        intro c hc out ops
        have hPc := ih c hc (hm c hc) (hinvm c hc)
        cases c with
        | And gs =>
            refine ⟨[], rawParse (.And gs) :: out, ?_, by simp, rfl⟩
            show List.foldlM parseStep (out, ops) ([['(']] ++ (printToks (.And gs) ++ [[')']]))
                = .ok (rawParse (.And gs) :: out, [] ++ ops)
            rw [parse_group hPc, List.nil_append]
        | Or gs => exact absurd (hno _ hc) (by simp [isOr])
        | Const b =>
            obtain ⟨σ, out2, hrun, hσ, hunw⟩ := hPc out ops (Stop_four ops)
            refine ⟨σ, out2, hrun, fun op hop => ⟨(hσ op hop).1, ?_⟩, hunw⟩
            have h2 := (hσ op hop).2
            simp only [sP] at h2
            omega
        | Var s =>
            obtain ⟨σ, out2, hrun, hσ, hunw⟩ := hPc out ops (Stop_four ops)
            refine ⟨σ, out2, hrun, fun op hop => ⟨(hσ op hop).1, ?_⟩, hunw⟩
            have h2 := (hσ op hop).2
            simp only [sP] at h2
            omega
        | Not c2 =>
            obtain ⟨σ, out2, hrun, hσ, hunw⟩ := hPc out ops (Stop_four ops)
            refine ⟨σ, out2, hrun, fun op hop => ⟨(hσ op hop).1, ?_⟩, hunw⟩
            have h2 := (hσ op hop).2
            simp only [sP] at h2
            omega
      have fold_or : ∀ ds : List Node, ds ≠ [] → (∀ d ∈ ds, d ∈ cs) →
          ∀ (acc : Node) (out : List Node) (ops : List Char), Stop 1 ops →
          ∃ (σ : List Char) (out2 : List Node),
            List.foldlM parseStep (acc :: out, '|' :: ops) (joinToksOr ds)
              = .ok (out2, σ ++ '|' :: ops) ∧
            (∀ op ∈ σ, op ≠ '(' ∧ 1 ≤ prec op) ∧
            unwind (σ ++ ['|']) out2 = .ok (rawFoldOr acc ds :: out) := by
        intro ds
        induction ds with
        | nil => intro h; exact absurd rfl h
        | cons d es ihd =>
            intro _ hmem acc out ops hstop
            cases es with
            | nil =>
                obtain ⟨σ, out2, hrun, hσ, hunw⟩ :=
                  hchild d (hmem d (by simp)) (acc :: out) ('|' :: ops)
                refine ⟨σ, out2, hrun, hσ, ?_⟩
                rw [unwind_append, except_bind_ok hunw]
                show unwind ['|'] (rawParse d :: acc :: out) = .ok (rawFoldOr acc [d] :: out)
                rfl
            | cons e es2 =>
                obtain ⟨σd, outd, hrund, hσd, hunwd⟩ :=
                  hchild d (hmem d (by simp)) (acc :: out) ('|' :: ops)
                have hgood : ∀ op ∈ σd ++ ['|'], op ≠ '(' ∧ 1 ≤ prec op := by
                  intro op hop
                  rcases List.mem_append.mp hop with h | h
                  · exact hσd op h
                  · simp only [List.mem_singleton] at h
                    subst h
                    exact ⟨by decide, by decide⟩
                have hpop : popWhileGe 1 (σd ++ '|' :: ops) outd
                    = .ok (Node.Or [acc, rawParse d] :: out, ops) := by
                  rw [show (σd ++ '|' :: ops : List Char) = (σd ++ ['|']) ++ ops by simp,
                    popWhileGe_unwind 1 (σd ++ ['|']) outd ops hgood hstop,
                    unwind_append, except_bind_ok hunwd]
                  rfl
                obtain ⟨σ, out2, hrun, hσ, hunw⟩ := ihd (by simp)
                  (fun x hx => hmem x (by simp [hx])) (.Or [acc, rawParse d]) out ops hstop
                refine ⟨σ, out2, ?_, hσ, ?_⟩
                · rw [joinToksOr_cons2, foldlM_parseStep_append, except_bind_ok hrund,
                    List.foldlM_cons, except_bind_ok (parseStep_pipe_ok hpop)]
                  exact hrun
                · rw [hunw]
                  rfl
      intro out ops hstop
      obtain ⟨c, d, ds, rfl⟩ : ∃ c d ds, cs = c :: d :: ds := by
        match cs, hlen with
        | c :: d :: ds, _ => exact ⟨c, d, ds, rfl⟩
      obtain ⟨σ1, out1, hrun1, hσ1, hunw1⟩ := hchild c (by simp) out ops
      have hpop1 : popWhileGe 1 (σ1 ++ ops) out1 = .ok (rawParse c :: out, ops) := by
        rw [popWhileGe_unwind 1 σ1 out1 ops hσ1 hstop, except_bind_ok hunw1]
      obtain ⟨σ, out2, hrun, hσ, hunw⟩ := fold_or (d :: ds) (by simp)
        (fun x hx => by simp [hx]) (rawParse c) out ops hstop
      refine ⟨σ ++ ['|'], out2, ?_, ?_, ?_⟩
      · show List.foldlM parseStep (out, ops) (joinToksOr (c :: d :: ds)) = _
        rw [joinToksOr_cons2, foldlM_parseStep_append, except_bind_ok hrun1,
          List.foldlM_cons, except_bind_ok (parseStep_pipe_ok hpop1), hrun, List.append_assoc]
        rfl
      · intro op hop
        rcases List.mem_append.mp hop with h | h
        · exact hσ op h
        · simp only [List.mem_singleton] at h
          subst h
          exact ⟨by decide, Nat.le.refl⟩
      · exact hunw

/-! ### The printed string has non-whitespace edges, so `strip` is the identity -/

theorem identChar_not_ws {d : Char} (h : d.isAlphanum = true ∨ d = '_') :
    d.isWhitespace = false := by
  rcases h with h | h
  · simp only [Char.isAlphanum, Bool.or_eq_true] at h
    rcases h with h | h
    · exact alpha_not_ws h
    · exact digit_not_ws h
  · subst h
    decide

theorem print_head : ∀ n : Node, wfN n → wf1 n →
    ∃ (c : Char) (t : List Char), node_to_str n = c :: t ∧ c.isWhitespace = false := by
  intro n
  induction n using Node.myrec with
  | hc b =>
      intro _ _
      cases b
      · exact ⟨'0', [], rfl, by decide⟩
      · exact ⟨'1', [], rfl, by decide⟩
  | hv s =>
      intro hwf _
      have hid : isIdentTok s := by cases hwf with | var _ h => exact h
      match s, hid with
      | c :: rest, hid =>
          refine ⟨c, rest, rfl, ?_⟩
          rcases hid.1 with h | h
          · exact alpha_not_ws h
          · subst h
            decide
  | hn c ihc =>
      intro _ _
      cases c with
      | Const b => exact ⟨'!', node_to_str (.Const b), rfl, by decide⟩
      | Var s => exact ⟨'!', node_to_str (.Var s), rfl, by decide⟩
      | Not c2 => exact ⟨'!', node_to_str (.Not c2), rfl, by decide⟩
      | And cs => exact ⟨'!', '(' :: strJoinAnd cs ++ [')'], rfl, by decide⟩
      | Or cs => exact ⟨'!', '(' :: strJoinOr cs ++ [')'], rfl, by decide⟩
  | ha cs ih =>
      intro hwf hw1
      have hm : ∀ c ∈ cs, wfN c := by cases hwf with | and _ h => exact h
      have hm1 : ∀ c ∈ cs, wf1 c := by cases hw1 with | and _ h _ => exact h
      have hne : cs ≠ [] := by cases hw1 with | and _ _ h => exact h
      have hsingle : ∀ c ∈ cs, ∃ (ch : Char) (t : List Char),
          strJoinAnd [c] = ch :: t ∧ ch.isWhitespace = false := by
        intro c hc
        cases c with
        | Or gs => exact ⟨'(', strJoinOr gs ++ [')'], rfl, by decide⟩
        | Const b =>
            obtain ⟨ch, t, he, hws⟩ := ih _ hc (hm _ hc) (hm1 _ hc)
            exact ⟨ch, t, by rw [strJoinAnd_single]; exact he, hws⟩
        | Var s2 =>
            obtain ⟨ch, t, he, hws⟩ := ih _ hc (hm _ hc) (hm1 _ hc)
            exact ⟨ch, t, by rw [strJoinAnd_single]; exact he, hws⟩
        | Not c2 =>
            obtain ⟨ch, t, he, hws⟩ := ih _ hc (hm _ hc) (hm1 _ hc)
            exact ⟨ch, t, by rw [strJoinAnd_single]; exact he, hws⟩
        | And gs =>
            obtain ⟨ch, t, he, hws⟩ := ih _ hc (hm _ hc) (hm1 _ hc)
            exact ⟨ch, t, by rw [strJoinAnd_single]; exact he, hws⟩
      match cs, hne with
      | c :: cs2, _ =>
          obtain ⟨ch, t, he, hws⟩ := hsingle c (by simp)
          cases cs2 with
          | nil =>
              refine ⟨ch, t, ?_, hws⟩
              show strJoinAnd [c] = ch :: t
              exact he
          | cons d ds =>
              refine ⟨ch, t ++ ' ' :: '&' :: ' ' :: strJoinAnd (d :: ds), ?_, hws⟩
              show strJoinAnd (c :: d :: ds) = _
              rw [strJoinAnd_cons2, show strJoinAnd [c] = ch :: t from he]
              rfl
  | ho cs ih =>
      intro hwf hw1
      have hm : ∀ c ∈ cs, wfN c := by cases hwf with | or _ h => exact h
      have hm1 : ∀ c ∈ cs, wf1 c := by cases hw1 with | or _ h _ => exact h
      have hne : cs ≠ [] := by cases hw1 with | or _ _ h => exact h
      have hsingle : ∀ c ∈ cs, ∃ (ch : Char) (t : List Char),
          strJoinOr [c] = ch :: t ∧ ch.isWhitespace = false := by
        intro c hc
        cases c with
        | And gs => exact ⟨'(', strJoinAnd gs ++ [')'], rfl, by decide⟩
        | Const b =>
            obtain ⟨ch, t, he, hws⟩ := ih _ hc (hm _ hc) (hm1 _ hc)
            exact ⟨ch, t, by rw [strJoinOr_single]; exact he, hws⟩
        | Var s2 =>
            obtain ⟨ch, t, he, hws⟩ := ih _ hc (hm _ hc) (hm1 _ hc)
            exact ⟨ch, t, by rw [strJoinOr_single]; exact he, hws⟩
        | Not c2 =>
            obtain ⟨ch, t, he, hws⟩ := ih _ hc (hm _ hc) (hm1 _ hc)
            exact ⟨ch, t, by rw [strJoinOr_single]; exact he, hws⟩
        | Or gs =>
            obtain ⟨ch, t, he, hws⟩ := ih _ hc (hm _ hc) (hm1 _ hc)
            exact ⟨ch, t, by rw [strJoinOr_single]; exact he, hws⟩
      match cs, hne with
      | c :: cs2, _ =>
          obtain ⟨ch, t, he, hws⟩ := hsingle c (by simp)
          cases cs2 with
          | nil =>
              refine ⟨ch, t, ?_, hws⟩
              show strJoinOr [c] = ch :: t
              exact he
          | cons d ds =>
              refine ⟨ch, t ++ ' ' :: '|' :: ' ' :: strJoinOr (d :: ds), ?_, hws⟩
              show strJoinOr (c :: d :: ds) = _
              rw [strJoinOr_cons2, show strJoinOr [c] = ch :: t from he]
              rfl

theorem print_last : ∀ n : Node, wfN n → wf1 n →
    ∃ (t : List Char) (c : Char), node_to_str n = t ++ [c] ∧ c.isWhitespace = false := by
  intro n
  induction n using Node.myrec with
  | hc b =>
      intro _ _
      cases b
      · exact ⟨[], '0', rfl, by decide⟩
      · exact ⟨[], '1', rfl, by decide⟩
  | hv s =>
      intro hwf _
      have hid : isIdentTok s := by cases hwf with | var _ h => exact h
      match s, hid with
      | c :: rest, hid =>
          rcases List.eq_nil_or_concat rest with h | ⟨t2, a, h⟩
          · subst h
            refine ⟨[], c, rfl, ?_⟩
            rcases hid.1 with h | h
            · exact alpha_not_ws h
            · subst h
              decide
          · subst h
            refine ⟨c :: t2, a, by simp [node_to_str], ?_⟩
            exact identChar_not_ws (hid.2 a (by simp))
  | hn c ihc =>
      intro hwf hw1
      have hwfc : wfN c := by cases hwf with | not _ h => exact h
      have hw1c : wf1 c := by cases hw1 with | not _ h => exact h
      cases c with
      | And cs => exact ⟨'!' :: '(' :: strJoinAnd cs, ')', rfl, by decide⟩
      | Or cs => exact ⟨'!' :: '(' :: strJoinOr cs, ')', rfl, by decide⟩
      | Const b =>
          obtain ⟨t, cl, he, hws⟩ := ihc hwfc hw1c
          refine ⟨'!' :: t, cl, ?_, hws⟩
          show '!' :: node_to_str (.Const b) = ('!' :: t) ++ [cl]
          rw [he]
          rfl
      | Var s2 =>
          obtain ⟨t, cl, he, hws⟩ := ihc hwfc hw1c
          refine ⟨'!' :: t, cl, ?_, hws⟩
          show '!' :: node_to_str (.Var s2) = ('!' :: t) ++ [cl]
          rw [he]
          rfl
      | Not c2 =>
          obtain ⟨t, cl, he, hws⟩ := ihc hwfc hw1c
          refine ⟨'!' :: t, cl, ?_, hws⟩
          show '!' :: node_to_str (.Not c2) = ('!' :: t) ++ [cl]
          rw [he]
          rfl
  | ha cs ih =>
      intro hwf hw1
      have hm : ∀ c ∈ cs, wfN c := by cases hwf with | and _ h => exact h
      have hm1 : ∀ c ∈ cs, wf1 c := by cases hw1 with | and _ h _ => exact h
      have hne : cs ≠ [] := by cases hw1 with | and _ _ h => exact h
      have hsingle : ∀ c ∈ cs, ∃ (t : List Char) (cl : Char),
          strJoinAnd [c] = t ++ [cl] ∧ cl.isWhitespace = false := by
        intro c hc
        cases c with
        | Or gs => exact ⟨'(' :: strJoinOr gs, ')', rfl, by decide⟩
        | Const b =>
            obtain ⟨t, cl, he, hws⟩ := ih _ hc (hm _ hc) (hm1 _ hc)
            exact ⟨t, cl, by rw [strJoinAnd_single]; exact he, hws⟩
        | Var s2 =>
            obtain ⟨t, cl, he, hws⟩ := ih _ hc (hm _ hc) (hm1 _ hc)
            exact ⟨t, cl, by rw [strJoinAnd_single]; exact he, hws⟩
        | Not c2 =>
            obtain ⟨t, cl, he, hws⟩ := ih _ hc (hm _ hc) (hm1 _ hc)
            exact ⟨t, cl, by rw [strJoinAnd_single]; exact he, hws⟩
        | And gs =>
            obtain ⟨t, cl, he, hws⟩ := ih _ hc (hm _ hc) (hm1 _ hc)
            exact ⟨t, cl, by rw [strJoinAnd_single]; exact he, hws⟩
      have hchain : ∀ cs2 : List Node, cs2 ≠ [] → (∀ c ∈ cs2, c ∈ cs) →
          ∃ (t : List Char) (cl : Char),
            strJoinAnd cs2 = t ++ [cl] ∧ cl.isWhitespace = false := by
        intro cs2
        induction cs2 with
        | nil => intro h; exact absurd rfl h
        | cons c rest ihr =>
            intro _ hmem
            cases rest with
            | nil => exact hsingle c (hmem c (by simp))
            | cons d ds =>
                obtain ⟨t, cl, he, hws⟩ := ihr (by simp) (fun x hx => hmem x (by simp [hx]))
                refine ⟨strJoinAnd [c] ++ ' ' :: '&' :: ' ' :: t, cl, ?_, hws⟩
                rw [strJoinAnd_cons2, he]
                simp
      match cs, hne with
      | c :: cs2, _ => exact hchain (c :: cs2) (by simp) (fun x hx => hx)
  | ho cs ih =>
      intro hwf hw1
      have hm : ∀ c ∈ cs, wfN c := by cases hwf with | or _ h => exact h
      have hm1 : ∀ c ∈ cs, wf1 c := by cases hw1 with | or _ h _ => exact h
      have hne : cs ≠ [] := by cases hw1 with | or _ _ h => exact h
      have hsingle : ∀ c ∈ cs, ∃ (t : List Char) (cl : Char),
          strJoinOr [c] = t ++ [cl] ∧ cl.isWhitespace = false := by
        intro c hc
        cases c with
        | And gs => exact ⟨'(' :: strJoinAnd gs, ')', rfl, by decide⟩
        | Const b =>
            obtain ⟨t, cl, he, hws⟩ := ih _ hc (hm _ hc) (hm1 _ hc)
            exact ⟨t, cl, by rw [strJoinOr_single]; exact he, hws⟩
        | Var s2 =>
            obtain ⟨t, cl, he, hws⟩ := ih _ hc (hm _ hc) (hm1 _ hc)
            exact ⟨t, cl, by rw [strJoinOr_single]; exact he, hws⟩
        | Not c2 =>
            obtain ⟨t, cl, he, hws⟩ := ih _ hc (hm _ hc) (hm1 _ hc)
            exact ⟨t, cl, by rw [strJoinOr_single]; exact he, hws⟩
        | Or gs =>
            obtain ⟨t, cl, he, hws⟩ := ih _ hc (hm _ hc) (hm1 _ hc)
            exact ⟨t, cl, by rw [strJoinOr_single]; exact he, hws⟩
      have hchain : ∀ cs2 : List Node, cs2 ≠ [] → (∀ c ∈ cs2, c ∈ cs) →
          ∃ (t : List Char) (cl : Char),
            strJoinOr cs2 = t ++ [cl] ∧ cl.isWhitespace = false := by
        intro cs2
        induction cs2 with
        | nil => intro h; exact absurd rfl h
        | cons c rest ihr =>
            intro _ hmem
            cases rest with
            | nil => exact hsingle c (hmem c (by simp))
            | cons d ds =>
                obtain ⟨t, cl, he, hws⟩ := ihr (by simp) (fun x hx => hmem x (by simp [hx]))
                refine ⟨strJoinOr [c] ++ ' ' :: '|' :: ' ' :: t, cl, ?_, hws⟩
                rw [strJoinOr_cons2, he]
                simp
      match cs, hne with
      | c :: cs2, _ => exact hchain (c :: cs2) (by simp) (fun x hx => hx)

theorem strip_print (n : Node) (hwf : wfN n) (h1 : wf1 n) :
    strip (node_to_str n) = node_to_str n := by
  obtain ⟨c, t, hct, hc⟩ := print_head n hwf h1
  obtain ⟨t2, d, hdt, hd⟩ := print_last n hwf h1
  have e1 : (node_to_str n).dropWhile Char.isWhitespace = node_to_str n := by
    rw [hct]
    simp [List.dropWhile_cons, hc]
  have e2 : (node_to_str n).reverse.dropWhile Char.isWhitespace = (node_to_str n).reverse := by
    rw [hdt]
    simp [List.dropWhile_cons, hd]
  unfold strip
  rw [e1, e2, List.reverse_reverse]

theorem print_ne_nil (n : Node) (hwf : wfN n) (h1 : wf1 n) : node_to_str n ≠ [] := by
  obtain ⟨c, t, hct, _⟩ := print_head n hwf h1
  rw [hct]
  simp

/-! ### Canonicalizing the raw parse of a canonical rendering is the identity -/

theorem flattenAnd_cons_of {c d : Node} (cs : List Node)
    (hx : _normalize_tree c = d) (hd : isAnd d = false) :
    flattenAnd (c :: cs) = d :: flattenAnd cs := by
  simp only [flattenAnd]
  rw [hx]
  cases d with
  | And gs => simp [isAnd] at hd
  | Const b => rfl
  | Var s => rfl
  | Not c2 => rfl
  | Or gs => rfl

theorem flattenAnd_cons_and {c : Node} {gs : List Node} (cs : List Node)
    (hx : _normalize_tree c = .And gs) :
    flattenAnd (c :: cs) = gs ++ flattenAnd cs := by
  simp only [flattenAnd]
  rw [hx]

theorem flattenOr_cons_of {c d : Node} (cs : List Node)
    (hx : _normalize_tree c = d) (hd : isOr d = false) :
    flattenOr (c :: cs) = d :: flattenOr cs := by
  simp only [flattenOr]
  rw [hx]
  cases d with
  | Or gs => simp [isOr] at hd
  | Const b => rfl
  | Var s => rfl
  | Not c2 => rfl
  | And gs => rfl

theorem flattenOr_cons_or {c : Node} {gs : List Node} (cs : List Node)
    (hx : _normalize_tree c = .Or gs) :
    flattenOr (c :: cs) = gs ++ flattenOr cs := by
  simp only [flattenOr]
  rw [hx]

theorem norm_fold_and : ∀ (ds pre : List Node) (acc : Node),
    2 ≤ pre.length → _normalize_tree acc = .And pre →
    List.Sorted nodeLe (pre ++ ds) →
    (∀ d ∈ ds, _normalize_tree (rawParse d) = d ∧ isAnd d = false) →
    _normalize_tree (rawFoldAnd acc ds) = .And (pre ++ ds) := by
  intro ds
  induction ds with
  | nil =>
      intro pre acc _ hacc _ _
      simpa using hacc
  | cons d es ih =>
      intro pre acc hlen hacc hsort hds
      have hd := hds d (by simp)
      have hflat : flattenAnd [acc, rawParse d] = pre ++ [d] := by
        rw [flattenAnd_cons_and [rawParse d] hacc,
          flattenAnd_cons_of ([] : List Node) hd.1 hd.2]
        rfl
      have hsort2 : List.Sorted nodeLe (pre ++ [d]) := by
        have hsub : (pre ++ [d]).Sublist (pre ++ d :: es) :=
          List.Sublist.append_left (List.cons_sublist_cons.mpr (List.nil_sublist es)) pre
        exact List.Pairwise.sublist hsub hsort
      have hnorm : _normalize_tree (.And [acc, rawParse d]) = .And (pre ++ [d]) := by
        show collapse1 .And (_sort_nodes (flattenAnd [acc, rawParse d])) = _
        rw [hflat, sort_nodes_of_sorted hsort2, collapse1_of_ne_one _ _ (by
          simp only [List.length_append, List.length_cons, List.length_nil]
          omega)]
      show _normalize_tree (rawFoldAnd (.And [acc, rawParse d]) es) = _
      rw [ih (pre ++ [d]) (.And [acc, rawParse d]) (by
          simp only [List.length_append, List.length_cons, List.length_nil]
          omega) hnorm (by simpa using hsort)
        (fun x hx => hds x (by simp [hx]))]
      simp

theorem norm_fold_or : ∀ (ds pre : List Node) (acc : Node),
    2 ≤ pre.length → _normalize_tree acc = .Or pre →
    List.Sorted nodeLe (pre ++ ds) →
    (∀ d ∈ ds, _normalize_tree (rawParse d) = d ∧ isOr d = false) →
    _normalize_tree (rawFoldOr acc ds) = .Or (pre ++ ds) := by
  intro ds
  induction ds with
  | nil =>
      intro pre acc _ hacc _ _
      simpa using hacc
  | cons d es ih =>
      intro pre acc hlen hacc hsort hds
      have hd := hds d (by simp)
      have hflat : flattenOr [acc, rawParse d] = pre ++ [d] := by
        rw [flattenOr_cons_or [rawParse d] hacc,
          flattenOr_cons_of ([] : List Node) hd.1 hd.2]
        rfl
      have hsort2 : List.Sorted nodeLe (pre ++ [d]) := by
        have hsub : (pre ++ [d]).Sublist (pre ++ d :: es) :=
          List.Sublist.append_left (List.cons_sublist_cons.mpr (List.nil_sublist es)) pre
        exact List.Pairwise.sublist hsub hsort
      have hnorm : _normalize_tree (.Or [acc, rawParse d]) = .Or (pre ++ [d]) := by
        show collapse1 .Or (_sort_nodes (flattenOr [acc, rawParse d])) = _
        rw [hflat, sort_nodes_of_sorted hsort2, collapse1_of_ne_one _ _ (by
          simp only [List.length_append, List.length_cons, List.length_nil]
          omega)]
      show _normalize_tree (rawFoldOr (.Or [acc, rawParse d]) es) = _
      rw [ih (pre ++ [d]) (.Or [acc, rawParse d]) (by
          simp only [List.length_append, List.length_cons, List.length_nil]
          omega) hnorm (by simpa using hsort)
        (fun x hx => hds x (by simp [hx]))]
      simp

theorem normalize_rawParse : ∀ n : Node, canonInv n → _normalize_tree (rawParse n) = n := by
  intro n
  induction n using Node.myrec with
  | hc b => intro _; rfl
  | hv s => intro _; rfl
  | hn c ihc =>
      intro hinv
      have hc : canonInv c := by cases hinv with | not _ h => exact h
      show Node.Not (_normalize_tree (rawParse c)) = .Not c
      rw [ihc hc]
  | ha cs ih =>
      intro hinv
      obtain ⟨hm, hna, hsort, hlen⟩ : (∀ c ∈ cs, canonInv c) ∧ (∀ c ∈ cs, isAnd c = false) ∧
          List.Sorted nodeLe cs ∧ 2 ≤ cs.length := by
        cases hinv with | and _ h hna hs hl => exact ⟨h, hna, hs, hl⟩
      obtain ⟨c, d, ds, rfl⟩ : ∃ c d ds, cs = c :: d :: ds := by
        match cs, hlen with
        | c :: d :: ds, _ => exact ⟨c, d, ds, rfl⟩
      have hbase : _normalize_tree (.And [rawParse c, rawParse d]) = .And [c, d] := by
        show collapse1 .And (_sort_nodes (flattenAnd [rawParse c, rawParse d])) = _
        have hs2 : List.Sorted nodeLe [c, d] := List.Pairwise.sublist
          (List.Sublist.append_left (List.nil_sublist ds) [c, d]) hsort
        rw [flattenAnd_cons_of [rawParse d] (ih c (by simp) (hm c (by simp))) (hna c (by simp)),
          flattenAnd_cons_of ([] : List Node) (ih d (by simp) (hm d (by simp))) (hna d (by simp)),
          show flattenAnd ([] : List Node) = [] from rfl,
          sort_nodes_of_sorted hs2, collapse1_of_ne_one _ _ (by simp)]
      show _normalize_tree (rawFoldAnd (.And [rawParse c, rawParse d]) ds) = _
      rw [norm_fold_and ds [c, d] _ (by simp) hbase (by simpa using hsort)
        (fun x hx => ⟨ih x (by simp [hx]) (hm x (by simp [hx])), hna x (by simp [hx])⟩)]
      rfl
  | ho cs ih =>
      intro hinv
      obtain ⟨hm, hno, hsort, hlen⟩ : (∀ c ∈ cs, canonInv c) ∧ (∀ c ∈ cs, isOr c = false) ∧
          List.Sorted nodeLe cs ∧ 2 ≤ cs.length := by
        cases hinv with | or _ h hno hs hl => exact ⟨h, hno, hs, hl⟩
      obtain ⟨c, d, ds, rfl⟩ : ∃ c d ds, cs = c :: d :: ds := by
        match cs, hlen with
        | c :: d :: ds, _ => exact ⟨c, d, ds, rfl⟩
      have hbase : _normalize_tree (.Or [rawParse c, rawParse d]) = .Or [c, d] := by
        show collapse1 .Or (_sort_nodes (flattenOr [rawParse c, rawParse d])) = _
        have hs2 : List.Sorted nodeLe [c, d] := List.Pairwise.sublist
          (List.Sublist.append_left (List.nil_sublist ds) [c, d]) hsort
        rw [flattenOr_cons_of [rawParse d] (ih c (by simp) (hm c (by simp))) (hno c (by simp)),
          flattenOr_cons_of ([] : List Node) (ih d (by simp) (hm d (by simp))) (hno d (by simp)),
          show flattenOr ([] : List Node) = [] from rfl,
          sort_nodes_of_sorted hs2, collapse1_of_ne_one _ _ (by simp)]
      show _normalize_tree (rawFoldOr (.Or [rawParse c, rawParse d]) ds) = _
      rw [norm_fold_or ds [c, d] _ (by simp) hbase (by simpa using hsort)
        (fun x hx => ⟨ih x (by simp [hx]) (hm x (by simp [hx])), hno x (by simp [hx])⟩)]
      rfl

/-! ### Identifier well-formedness is preserved by the canonicalizer, the
rewrite rules and the parser -/

theorem mem_flattenAnd_wfN {cs : List Node} (hcn : ∀ c ∈ cs, wfN (_normalize_tree c)) :
    ∀ x ∈ flattenAnd cs, wfN x := by
  induction cs with
  | nil => intro x hx; simp [flattenAnd] at hx
  | cons c cs ih =>
      intro x hx
      simp only [flattenAnd] at hx
      rcases List.mem_append.mp hx with h | h
      · have hW := hcn c (by simp)
        cases hnc : _normalize_tree c <;> rw [hnc] at h hW <;>
          simp only [List.mem_singleton] at h
        case And gs =>
          cases hW with
          | and _ hg => exact hg x h
        all_goals subst h
        · exact hW
        · exact hW
        · exact hW
        · exact hW
      · exact ih (fun d hd => hcn d (by simp [hd])) x h

theorem mem_flattenOr_wfN {cs : List Node} (hcn : ∀ c ∈ cs, wfN (_normalize_tree c)) :
    ∀ x ∈ flattenOr cs, wfN x := by
  induction cs with
  | nil => intro x hx; simp [flattenOr] at hx
  | cons c cs ih =>
      intro x hx
      simp only [flattenOr] at hx
      rcases List.mem_append.mp hx with h | h
      · have hW := hcn c (by simp)
        cases hnc : _normalize_tree c <;> rw [hnc] at h hW <;>
          simp only [List.mem_singleton] at h
        case Or gs =>
          cases hW with
          | or _ hg => exact hg x h
        all_goals subst h
        · exact hW
        · exact hW
        · exact hW
        · exact hW
      · exact ih (fun d hd => hcn d (by simp [hd])) x h

theorem wfN_normalize : ∀ n : Node, wfN n → wfN (_normalize_tree n) := by
  intro n
  induction n using Node.myrec with
  | hc b => intro _; exact wfN.const b
  | hv s => intro h; exact h
  | hn c ih =>
      intro h
      cases h with | not _ hc => exact wfN.not _ (ih hc)
  | ha cs ih =>
      intro h
      have hm : ∀ c ∈ cs, wfN c := by cases h with | and _ hm => exact hm
      show wfN (collapse1 .And (_sort_nodes (flattenAnd cs)))
      have hmem : ∀ x ∈ _sort_nodes (flattenAnd cs), wfN x :=
        fun x hx => mem_flattenAnd_wfN (fun c hc => ih c hc (hm c hc)) x (mem_sort_nodes.mp hx)
      by_cases hlen : (_sort_nodes (flattenAnd cs)).length = 1
      · match hk : _sort_nodes (flattenAnd cs), hlen with
        | [k], _ =>
            have := hmem k (by rw [hk]; simp)
            simpa [collapse1] using this
      · rw [collapse1_of_ne_one _ _ hlen]
        exact wfN.and _ hmem
  | ho cs ih =>
      intro h
      have hm : ∀ c ∈ cs, wfN c := by cases h with | or _ hm => exact hm
      show wfN (collapse1 .Or (_sort_nodes (flattenOr cs)))
      have hmem : ∀ x ∈ _sort_nodes (flattenOr cs), wfN x :=
        fun x hx => mem_flattenOr_wfN (fun c hc => ih c hc (hm c hc)) x (mem_sort_nodes.mp hx)
      by_cases hlen : (_sort_nodes (flattenOr cs)).length = 1
      · match hk : _sort_nodes (flattenOr cs), hlen with
        | [k], _ =>
            have := hmem k (by rw [hk]; simp)
            simpa [collapse1] using this
      · rw [collapse1_of_ne_one _ _ hlen]
        exact wfN.or _ hmem

theorem factors_and_wfN {t : Node} (h : wfN t) : ∀ x ∈ factors_and t, wfN x := by
  cases t <;> simp only [factors_and]
  case And cs => cases h with | and _ hm => exact hm
  all_goals intro x hx; rw [List.mem_singleton] at hx; exact hx ▸ h

theorem factors_or_wfN {t : Node} (h : wfN t) : ∀ x ∈ factors_or t, wfN x := by
  cases t <;> simp only [factors_or]
  case Or cs => cases h with | or _ hm => exact hm
  all_goals intro x hx; rw [List.mem_singleton] at hx; exact hx ▸ h

theorem rewrapRest_wfN (mk : List Node → Node) (hmk : ∀ l, (∀ x ∈ l, wfN x) → wfN (mk l))
    (empty : Bool) (rest : List Node) (hr : ∀ x ∈ rest, wfN x) :
    wfN (rewrapRest mk empty rest) := by
  match rest with
  | [] => exact wfN.const empty
  | [x] => exact hr x (by simp)
  | a :: b :: t =>
      show wfN (_normalize_tree (mk (a :: b :: t)))
      exact wfN_normalize _ (hmk _ hr)

theorem factor_and_wfN {l : List Node} {f : Node}
    (h : _factor_common_for_and l = some f) (hl : ∀ x ∈ l, wfN x) : wfN f := by
  unfold _factor_common_for_and at h
  dsimp only at h
  repeat' split at h
  all_goals try cases h
  case _ hterms hcomm hcf hall =>
    refine wfN_normalize _ (wfN.or _ ?_)
    intro x hx
    rcases List.mem_append.mp hx with hx | hx
    · have hx2 : x ∈ commonOfTerms factors_or (l.filter isOr) :=
        (List.perm_insertionSort strLe _).mem_iff.mp hx
      obtain ⟨t, ht, hxt⟩ := commonOfTerms_subset _ _ x hx2
      exact factors_or_wfN (hl t (List.mem_of_mem_filter ht)) x hxt
    · rw [List.mem_singleton] at hx
      subst hx
      refine wfN_normalize _ (wfN.and _ ?_)
      intro y hy
      obtain ⟨t, ht, hyt⟩ := List.mem_map.mp hy
      subst hyt
      refine rewrapRest_wfN _ (fun l2 hwf2 => wfN.or _ hwf2) _ _ ?_
      intro z hz
      exact factors_or_wfN (hl t ht) z (List.mem_of_mem_filter hz)

theorem factor_or_wfN {l : List Node} {f : Node}
    (h : _factor_common_for_or l = some f) (hl : ∀ x ∈ l, wfN x) : wfN f := by
  unfold _factor_common_for_or at h
  dsimp only at h
  repeat' split at h
  all_goals try cases h
  case _ hterms hcomm hcf hall =>
    refine wfN_normalize _ (wfN.and _ ?_)
    intro x hx
    rcases List.mem_append.mp hx with hx | hx
    · have hx2 : x ∈ commonOfTerms factors_and (l.filter isAnd) :=
        (List.perm_insertionSort strLe _).mem_iff.mp hx
      obtain ⟨t, ht, hxt⟩ := commonOfTerms_subset _ _ x hx2
      exact factors_and_wfN (hl t (List.mem_of_mem_filter ht)) x hxt
    · rw [List.mem_singleton] at hx
      subst hx
      refine wfN_normalize _ (wfN.or _ ?_)
      intro y hy
      obtain ⟨t, ht, hyt⟩ := List.mem_map.mp hy
      subst hyt
      refine rewrapRest_wfN _ (fun l2 hwf2 => wfN.and _ hwf2) _ _ ?_
      intro z hz
      exact factors_and_wfN (hl t ht) z (List.mem_of_mem_filter hz)

theorem andRules_wfN {l : List Node} (hl : ∀ x ∈ l, wfN x) :
    wfN (andRules l).1 := by
  unfold andRules
  dsimp only
  repeat' split
  all_goals dsimp only
  · exact wfN_normalize _ (wfN.and _ (fun x hx => hl x (mem_unique hx)))
  · exact wfN.const false
  · exact wfN.const true
  · next x heq =>
      exact hl x (List.mem_of_mem_filter (heq ▸ List.mem_singleton_self x))
  · next heq1 heq2 =>
      exact wfN_normalize _ (wfN.and _ (fun x hx => hl x (List.mem_of_mem_filter hx)))
  · exact wfN.const false
  · next x heq => exact hl x (absorbAnd_mem heq)
  · next f heq => exact factor_and_wfN heq hl
  · exact wfN.and _ hl

theorem orRules_wfN {l : List Node} (hl : ∀ x ∈ l, wfN x) :
    wfN (orRules l).1 := by
  unfold orRules
  dsimp only
  repeat' split
  all_goals dsimp only
  · exact wfN_normalize _ (wfN.or _ (fun x hx => hl x (mem_unique hx)))
  · exact wfN.const true
  · exact wfN.const false
  · next x heq =>
      exact hl x (List.mem_of_mem_filter (heq ▸ List.mem_singleton_self x))
  · next heq1 heq2 =>
      exact wfN_normalize _ (wfN.or _ (fun x hx => hl x (List.mem_of_mem_filter hx)))
  · exact wfN.const true
  · next x heq => exact hl x (absorbOr_mem heq)
  · next f heq => exact factor_or_wfN heq hl
  · exact wfN.or _ hl

theorem scan_changed_wfN (cs : List Node)
    (IH : ∀ c ∈ cs, wfN c → wfN (apply_rules_in_order c).1)
    (hwf : ∀ c ∈ cs, wfN c) :
    ∀ pre c2 law suf, scanChildren cs = .changed pre c2 law suf →
      (∀ x ∈ pre, wfN x) ∧ wfN c2 ∧ (∀ x ∈ suf, wfN x) := by
  induction cs with
  | nil =>
      intro pre c2 law suf h
      simp only [scanChildren] at h
      cases h
  | cons c cs ihl =>
      intro pre c2 law suf h
      simp only [scanChildren] at h
      rcases hc : apply_rules_in_order c with ⟨c2p, ch, lawp⟩
      rw [hc] at h
      cases ch <;> dsimp only at h
      · rcases hs : scanChildren cs with ⟨pre2, x2, law2, suf2⟩ | rest <;> rw [hs] at h
        · cases h
          have hin := ihl (fun d hd => IH d (by simp [hd])) (fun d hd => hwf d (by simp [hd]))
            pre2 c2 law suf hs
          refine ⟨?_, hin.2.1, hin.2.2⟩
          intro x hx
          rcases List.mem_cons.mp hx with hx | hx
          · subst hx
            have := IH c (by simp) (hwf c (by simp))
            rwa [hc] at this
          · exact hin.1 x hx
        · cases h
      · cases h
        refine ⟨by simp, ?_, fun x hx => hwf x (by simp [hx])⟩
        have := IH c (by simp) (hwf c (by simp))
        rwa [hc] at this

theorem apply_wfN : ∀ n : Node, wfN n → wfN (apply_rules_in_order n).1 := by
  intro n
  induction n using Node.myrec with
  | hc b => intro _; exact wfN.const b
  | hv s => intro h; exact h
  | hn c ih =>
      intro h
      have hc1 : wfN c := by cases h with | not _ hc => exact hc
      simp only [apply_rules_in_order]
      rcases hc : apply_rules_in_order c with ⟨child, ch, law⟩
      have hchild : wfN child := by
        have := ih hc1
        rwa [hc] at this
      cases ch
      · cases child <;> dsimp only
        case Not g => cases hchild with | not _ hg => exact hg
        all_goals exact h
      · exact wfN.not _ hchild
  | ha cs ih =>
      intro h
      have hm : ∀ c ∈ cs, wfN c := by cases h with | and _ hm => exact hm
      simp only [apply_rules_in_order]
      rcases hs : scanChildren cs with ⟨pre, c2, law, suf⟩ | l <;> dsimp only
      · obtain ⟨hpre, hc2, hsuf⟩ := scan_changed_wfN cs ih hm pre c2 law suf hs
        refine wfN_normalize _ (wfN.and _ ?_)
        intro x hx
        rcases List.mem_append.mp hx with hx | hx
        · exact hpre x hx
        · rcases List.mem_cons.mp hx with hx | hx
          · exact hx ▸ hc2
          · exact hsuf x hx
      · have hl : l = cs := scan_unchanged_eq cs
          (fun c hcm m law2 hemp => apply_unchanged_eq c m law2 hemp) l hs
        subst hl
        exact andRules_wfN hm
  | ho cs ih =>
      intro h
      have hm : ∀ c ∈ cs, wfN c := by cases h with | or _ hm => exact hm
      simp only [apply_rules_in_order]
      rcases hs : scanChildren cs with ⟨pre, c2, law, suf⟩ | l <;> dsimp only
      · obtain ⟨hpre, hc2, hsuf⟩ := scan_changed_wfN cs ih hm pre c2 law suf hs
        refine wfN_normalize _ (wfN.or _ ?_)
        intro x hx
        rcases List.mem_append.mp hx with hx | hx
        · exact hpre x hx
        · rcases List.mem_cons.mp hx with hx | hx
          · exact hx ▸ hc2
          · exact hsuf x hx
      · have hl : l = cs := scan_unchanged_eq cs
          (fun c hcm m law2 hemp => apply_unchanged_eq c m law2 hemp) l hs
        subst hl
        exact orRules_wfN hm

theorem apply_op_wfN {op : Char} {out out2 : List Node}
    (h : apply_op op out = .ok out2) (hwf : ∀ x ∈ out, wfN x) : ∀ x ∈ out2, wfN x := by
  unfold apply_op at h
  repeat' split at h
  all_goals try cases h
  · intro x hx
    rcases List.mem_cons.mp hx with hx | hx
    · exact hx ▸ wfN.not _ (hwf _ (by simp))
    · exact hwf x (by simp [hx])
  · intro x hx
    rcases List.mem_cons.mp hx with hx | hx
    · subst hx
      exact wfN.and _ (by
        intro y hy
        rcases List.mem_cons.mp hy with hy | hy
        · exact hy ▸ hwf _ (by simp)
        · rw [List.mem_singleton] at hy; exact hy ▸ hwf _ (by simp))
    · exact hwf x (by simp [hx])
  · intro x hx
    rcases List.mem_cons.mp hx with hx | hx
    · subst hx
      exact wfN.or _ (by
        intro y hy
        rcases List.mem_cons.mp hy with hy | hy
        · exact hy ▸ hwf _ (by simp)
        · rw [List.mem_singleton] at hy; exact hy ▸ hwf _ (by simp))
    · exact hwf x (by simp [hx])

theorem popWhileGe_wfN (p : Nat) :
    ∀ (ops : List Char) (out out2 : List Node) (ops2 : List Char),
      (∀ x ∈ out, wfN x) → popWhileGe p ops out = .ok (out2, ops2) →
      ∀ x ∈ out2, wfN x := by
  intro ops
  induction ops with
  | nil =>
      intro out out2 ops2 hwf h
      cases h
      exact hwf
  | cons op ops ih =>
      intro out out2 ops2 hwf h
      simp only [popWhileGe] at h
      split at h
      · rcases hop : apply_op op out with e | out3
        · rw [except_bind_error hop] at h; cases h
        · rw [except_bind_ok hop] at h
          exact ih out3 out2 ops2 (apply_op_wfN hop hwf) h
      · cases h
        exact hwf

theorem popUntilParen_wfN :
    ∀ (ops : List Char) (out out2 : List Node) (ops2 : List Char),
      (∀ x ∈ out, wfN x) → popUntilParen ops out = .ok (out2, ops2) →
      ∀ x ∈ out2, wfN x := by
  intro ops
  induction ops with
  | nil => intro out out2 ops2 hwf h; cases h
  | cons op ops ih =>
      intro out out2 ops2 hwf h
      simp only [popUntilParen] at h
      split at h
      · cases h
        exact hwf
      · rcases hop : apply_op op out with e | out3
        · rw [except_bind_error hop] at h; cases h
        · rw [except_bind_ok hop] at h
          exact ih out3 out2 ops2 (apply_op_wfN hop hwf) h

theorem drainOps_wfN :
    ∀ (ops : List Char) (out out2 : List Node),
      (∀ x ∈ out, wfN x) → drainOps ops out = .ok out2 → ∀ x ∈ out2, wfN x := by
  intro ops
  induction ops with
  | nil => intro out out2 hwf h; cases h; exact hwf
  | cons op ops ih =>
      intro out out2 hwf h
      simp only [drainOps] at h
      split at h
      · cases h
      · rcases hop : apply_op op out with e | out3
        · rw [except_bind_error hop] at h; cases h
        · rw [except_bind_ok hop] at h
          exact ih out3 out2 (apply_op_wfN hop hwf) h

theorem parseStep_wfN {st : List Node × List Char} {t : List Char} {st2 : List Node × List Char}
    (h : parseStep st t = .ok st2) (hwf : ∀ x ∈ st.1, wfN x) : ∀ x ∈ st2.1, wfN x := by
  rcases st with ⟨output, ops⟩
  unfold parseStep at h
  dsimp only at h
  repeat' split at h
  all_goals try cases h
  all_goals try
    (intro x hx
     rcases List.mem_cons.mp hx with hx | hx
     · subst hx
       first
         | exact wfN.const true
         | exact wfN.const false
         | exact wfN.var _ (by assumption)
     · exact hwf x hx)
  all_goals try exact hwf
  · rcases hpop : popWhileGe (prec '&') ops output with e | pr
    · rw [except_bind_error hpop] at h; cases h
    · rcases pr with ⟨out3, ops3⟩
      rw [except_bind_ok hpop] at h
      cases h
      exact popWhileGe_wfN _ ops output out3 ops3 hwf hpop
  · rcases hpop : popWhileGe (prec '|') ops output with e | pr
    · rw [except_bind_error hpop] at h; cases h
    · rcases pr with ⟨out3, ops3⟩
      rw [except_bind_ok hpop] at h
      cases h
      exact popWhileGe_wfN _ ops output out3 ops3 hwf hpop
  · rcases hpop : popUntilParen ops output with e | pr
    · rw [except_bind_error hpop] at h; cases h
    · rcases pr with ⟨out3, ops3⟩
      rw [except_bind_ok hpop] at h
      cases h
      exact popUntilParen_wfN ops output out3 ops3 hwf hpop

theorem foldlM_parse_wfN :
    ∀ (tokens : List (List Char)) (st res : List Node × List Char),
      (∀ x ∈ st.1, wfN x) → tokens.foldlM parseStep st = .ok res →
      ∀ x ∈ res.1, wfN x := by
  intro tokens
  induction tokens with
  | nil => intro st res hwf h; cases h; exact hwf
  | cons t ts ih =>
      intro st res hwf h
      rw [List.foldlM_cons] at h
      rcases hstep : parseStep st t with e | st2
      · rw [except_bind_error hstep] at h; cases h
      · rw [except_bind_ok hstep] at h
        exact ih st2 res (parseStep_wfN hstep hwf) h

theorem parse_wfN {s : List Char} {ast : Node}
    (h : parse_expression s = .ok ast) : wfN ast := by
  unfold parse_expression at h
  dsimp only at h
  split at h
  · cases h
  · rcases ht : _tokenize (strip s) with e | tokens
    · rw [except_bind_error ht] at h; cases h
    · rw [except_bind_ok ht] at h
      rcases hfold : tokens.foldlM parseStep ([], []) with e | st
      · rw [except_bind_error hfold] at h; cases h
      · rw [except_bind_ok hfold] at h
        rcases st with ⟨output, ops⟩
        dsimp only at h
        rcases hdrain : drainOps ops output with e | out2
        · rw [except_bind_error hdrain] at h; cases h
        · rw [except_bind_ok hdrain] at h
          have hwf2 : ∀ x ∈ out2, wfN x :=
            drainOps_wfN ops output out2
              (foldlM_parse_wfN tokens ([], []) (output, ops) (by simp) hfold) hdrain
          match out2, h with
          | [n], h =>
              cases h
              exact wfN_normalize n (hwf2 n (by simp))

theorem simplifyLoop_fin : ∀ (fuel : Nat) (n fin : Node) (steps : List Step),
    canonInv n → wfN n → simplifyLoop fuel n = some (fin, steps) →
    canonInv fin ∧ wfN fin := by
  intro fuel
  induction fuel with
  | zero =>
      intro n fin steps hinv hwf h
      simp only [simplifyLoop] at h
      rcases happ : apply_rules_in_order n with ⟨m, ch, law⟩
      rw [happ] at h
      cases ch <;> dsimp only at h
      · cases h
        exact ⟨hinv, hwf⟩
      · cases h
  | succ fuel ih =>
      intro n fin steps hinv hwf h
      simp only [simplifyLoop] at h
      rcases happ : apply_rules_in_order n with ⟨m, ch, law⟩
      rw [happ] at h
      cases ch <;> dsimp only at h
      · cases h
        exact ⟨hinv, hwf⟩
      · rcases hloop : simplifyLoop fuel (_normalize_tree m) with _ | ⟨fin2, steps2⟩ <;>
          rw [hloop] at h
        · cases h
        · cases h
          refine ih (_normalize_tree m) _ _ ?_ ?_ hloop
          · refine canonInv_normalize _ ?_
            have := apply_wf1 n (canonInv_wf1 _ hinv)
            rwa [happ] at this
          · refine wfN_normalize _ ?_
            have := apply_wfN n hwf
            rwa [happ] at this

/-! ### The round trip -/

theorem sP_pos (n : Node) : 1 ≤ sP n := by
  cases n <;> simp [sP]

theorem roundtrip_canon {n : Node} (hinv : canonInv n) (hwf : wfN n) :
    parse_expression (node_to_str n) = .ok n := by
  have h1 : wf1 n := canonInv_wf1 n hinv
  obtain ⟨σ, out2, hrun, hσ, hunw⟩ := parse_print_master n hwf hinv [] [] trivial
  have hrun2 : List.foldlM parseStep ([], []) (printToks n) = .ok (out2, σ) := by
    simpa using hrun
  have hσ2 : ∀ op ∈ σ, op ≠ '(' ∧ op ≠ ')' := by
    intro op hop
    refine ⟨(hσ op hop).1, ?_⟩
    intro hcon
    have h2 := (hσ op hop).2
    rw [hcon, show prec ')' = 0 from rfl] at h2
    have h3 := sP_pos n
    omega
  have hdrain : drainOps σ out2 = .ok [rawParse n] := by
    rw [drainOps_unwind σ out2 hσ2]
    exact hunw
  unfold parse_expression
  dsimp only
  rw [strip_print n hwf h1, if_neg (print_ne_nil n hwf h1), tokenize_print n hwf,
    except_bind_ok rfl, except_bind_ok hrun2, except_bind_ok hdrain]
  show Except.ok (_normalize_tree (rawParse n)) = .ok n
  rw [normalize_rawParse n hinv]

/-! ### Claim theorems for the normalizer, tokenizer and scenario claims -/

/-- C2: termination of the rewrite loop — for every AST that
`parse_expression` produces, the fixpoint loop of `simplify_expression`
reaches an unchanged step within a number of iterations proportional to
the node count of the initial AST (fuel `3 * size ast` always suffices:
every fired law strictly decreases the measure `size + 2 * leaves`). -/
theorem c2_termination :
    ∀ (s : List Char) (ast : Node), parse_expression s = .ok ast →
      (simplifyLoop (3 * size ast) ast).isSome := by
  intro s ast h
  have hinv := parse_canonInv h
  refine simplifyLoop_isSome _ ast hinv ?_
  have := leaves_le_size ast
  omega

/-- C2 witness: the loop halts within `3 * size` iterations on the parse
of `"A | A & B"`. -/
theorem c2_termination_witness :
    (simplifyLoop
      (3 * size (Node.Or [Node.Var ['A'], Node.And [Node.Var ['A'], Node.Var ['B']]]))
      (Node.Or [Node.Var ['A'], Node.And [Node.Var ['A'], Node.Var ['B']]])).isSome :=
  c2_termination ("A | A & B".data)
    (Node.Or [Node.Var ['A'], Node.And [Node.Var ['A'], Node.Var ['B']]]) (by decide)


/-- C3: every AST returned by `parse_expression` satisfies the canonical
invariant (no `And` child of an `And`, no `Or` child of an `Or`, at least
two children per `And`/`Or`, children sorted by the rank/arity/printed
key), and the invariant is preserved by each loop iteration of
`simplify_expression` (one `apply_rules_in_order` step followed by
re-canonicalization). -/
theorem c3_canonical_invariant :
    (∀ (s : List Char) (ast : Node), parse_expression s = .ok ast → canonInv ast) ∧
    (∀ n : Node, canonInv n → canonInv (_normalize_tree (apply_rules_in_order n).1)) := by
  constructor
  · exact fun s ast h => parse_canonInv h
  · intro n h
    exact canonInv_normalize _ (apply_wf1 n (canonInv_wf1 n h))

/-- C3 witness: the parse of `"B & A"` is canonical (children sorted), and
one rewrite iteration keeps the invariant. -/
theorem c3_canonical_invariant_witness :
    canonInv (Node.And [Node.Var ['A'], Node.Var ['B']]) ∧
      canonInv (_normalize_tree
        (apply_rules_in_order (Node.And [Node.Var ['A'], Node.Var ['B']])).1) := by
  have h1 := c3_canonical_invariant.1 ("B & A".data)
    (Node.And [Node.Var ['A'], Node.Var ['B']]) (by decide)
  exact ⟨h1, c3_canonical_invariant.2 _ h1⟩



theorem normalize_symbols_cases (s : List Char) :
    normalize_symbols s
        = .error (.invalidChars (sortedSet ((normalize_core s).filter fun c => ¬ allowedChar c)))
      ∨ normalize_symbols s = .ok (normalize_core s) := by
  by_cases h : (normalize_core s).filter (fun c => ¬ allowedChar c) = []
  · right; simp only [normalize_symbols]; rw [if_pos h]
  · left; simp only [normalize_symbols]; rw [if_neg h]

theorem normalize_symbols_ok_iff (s : List Char) :
    normalize_symbols s = .ok (normalize_core s) ↔ ∀ c ∈ normalize_core s, allowedChar c := by
  by_cases h : (normalize_core s).filter (fun c => ¬ allowedChar c) = []
  · rw [List.filter_eq_nil_iff] at h
    simp only [normalize_symbols, List.filter_eq_nil_iff.mpr h, if_pos rfl]
    constructor
    · intro _ c hc
      by_contra hbad
      exact absurd (by simpa using hbad) (h c hc)
    · intro _; rfl
  · simp only [normalize_symbols, if_neg h]
    constructor
    · intro hco; exact absurd hco (by simp)
    · intro hall
      exfalso
      apply h
      rw [List.filter_eq_nil_iff]
      intro c hc
      simpa using hall c hc

/-- C9: `normalize_symbols` fails with a `ValidationError` carrying the
sorted set of offending characters if and only if, after alias
substitution and whitespace normalization, a character outside the
allowed alphabet remains; in particular `"A # B"` fails reporting `#`. -/
theorem c9_normalizer_validation :
    (∀ s : List Char,
      normalize_symbols s
          = .error (.invalidChars (sortedSet ((normalize_core s).filter fun c => ¬ allowedChar c)))
        ↔ ¬ ∀ c ∈ normalize_core s, allowedChar c) ∧
    normalize_symbols ("A # B".data) = .error (.invalidChars ['#']) := by
  constructor
  · intro s
    constructor
    · intro herr hall
      have hok := (normalize_symbols_ok_iff s).mpr hall
      rw [hok] at herr
      exact absurd herr (by simp)
    · intro hnall
      rcases normalize_symbols_cases s with h | h
      · exact h
      · exact absurd ((normalize_symbols_ok_iff s).mp h) hnall
  · decide

/-- C9 witness: the general direction applied at the concrete input `"A#B"`. -/
theorem c9_normalizer_validation_witness :
    normalize_symbols ("A#B".data)
      = .error (.invalidChars (sortedSet (((normalize_core ("A#B".data))).filter
          fun c => ¬ allowedChar c))) :=
  (c9_normalizer_validation.1 ("A#B".data)).mpr (by decide)

/-- C10: alias substitution in `normalize_symbols` is plain substring
replacement with no word boundaries: the valid identifier `origin` is
rewritten to `|igin` because the `or` inside the name is replaced. -/
theorem c10_substring_replacement :
    normalize_symbols ("origin".data) = .ok ("|igin".data) ∧
      isIdentTok ("origin".data) ∧ "origin".data ≠ "|igin".data := by
  refine ⟨by decide, by decide, by decide⟩

/-- C7 counterexample: the mixed casing `aNd` is not an alias — it passes
through `normalize_symbols` unchanged, so an input containing `aNd`
between operands does not normalize to the same string as one containing
`AND`, contradicting the claim that every case form of the word aliases
is mapped to the canonical operator. -/
theorem c7_mixed_case_not_alias :
    normalize_symbols ("A aNd B".data) = .ok ("A aNd B".data) ∧
      normalize_symbols ("A AND B".data) = .ok ("A & B".data) ∧
      ("A aNd B".data : List Char) ≠ "A & B".data := by
  refine ⟨by decide, by decide, by decide⟩

/-- C7 amended: `normalize_symbols` maps exactly the two casings of each
word alias that appear in `_SYMBOL_MAP` — `AND`/`and` to `&`, `OR`/`or`
to `|`, `NOT`/`not` to `!` — longest match first, and leaves any other
casing (such as `aNd`) unchanged. -/
theorem c7_exact_case_aliases :
    normalize_symbols ("A AND B".data) = .ok ("A & B".data) ∧
      normalize_symbols ("A and B".data) = .ok ("A & B".data) ∧
      normalize_symbols ("x OR y".data) = .ok ("x | y".data) ∧
      normalize_symbols ("x or y".data) = .ok ("x | y".data) ∧
      normalize_symbols ("NOT A".data) = .ok ("! A".data) ∧
      normalize_symbols ("not A".data) = .ok ("! A".data) ∧
      normalize_symbols ("A aNd B".data) = .ok ("A aNd B".data) ∧
      normalize_symbols ("A nOT B".data) = .ok ("A nOT B".data) := by
  refine ⟨by decide, by decide, by decide, by decide, by decide, by decide, by decide, by decide⟩

/-- C8 counterexample: tokenizing the standalone digit `2` succeeds and
emits `2` as a token — it does not fail with an InvalidCharacter error as
the claim states. -/
theorem c8_digit_two_tokenizes :
    _tokenize ("2".data) = .ok [['2']] := by decide

/-- C8 amended: the tokenizer emits a single-character token for any digit
(not only `0`/`1`); a digit other than `0`/`1` is instead rejected later
by `parse_expression` as an unexpected token, while genuinely foreign
characters such as `#` do fail tokenization with InvalidCharacter. -/
theorem c8_digits_are_tokens :
    _tokenize ("2".data) = .ok [['2']] ∧
      _tokenize ("25!".data) = .ok [['2'], ['5'], ['!']] ∧
      parse_expression ("2".data) = .error (.unexpectedToken ['2']) ∧
      parse_expression ("A & 2".data) = .error (.unexpectedToken ['2']) ∧
      _tokenize ("#".data) = .error (.invalidChar '#') := by
  refine ⟨by decide, by decide, by decide, by decide, by decide⟩

/-- C6 counterexample: on `"(A & B) | (A & C)"` the single recorded step
carries the law string `"Organización (factor común) – Distributiva"`
(the value of `LAW_FACT` in `logica.py`), not the display name
`"Organización (factor común)"` stated by the claim. -/
theorem c6_law_name_differs :
    simplify_expression ("(A & B) | (A & C)".data)
        = .ok ("A & (B | C)".data,
            [{ before := "(A & B) | (A & C)".data, law := LAW_FACT,
               after := "A & (B | C)".data }]) ∧
      LAW_FACT ≠ "Organización (factor común)".data := by
  refine ⟨by decide, by decide⟩

/-- C6 amended: `simplify_expression "(A & B) | (A & C)"` returns final
text `"A & (B | C)"` with exactly one step, whose law field is the
display name `"Organización (factor común) – Distributiva"`. -/
theorem c6_common_factor_scenario :
    simplify_expression ("(A & B) | (A & C)".data)
      = .ok ("A & (B | C)".data,
          [{ before := "(A & B) | (A & C)".data,
             law := "Organización (factor común) – Distributiva".data,
             after := "A & (B | C)".data }]) := by decide

/-- C1 (code bug): the absorption rule drops all other siblings, so
simplification is unsound. On `"A & (A | B) & C"` the engine returns
`"A"` via Absorción, yet under the assignment A=true, B=false, C=false
the parsed input evaluates to `false` while the result `A` evaluates to
`true` — the claimed evaluation-preservation fails at this input. -/
theorem c1_absorption_unsound :
    simplify_expression ("A & (A | B) & C".data)
        = .ok ("A".data,
            [{ before := "A & C & (A | B)".data, law := LAW_ABS, after := "A".data }]) ∧
      (parse_expression ("A & (A | B) & C".data)).map (eval fun v => decide (v = ['A']))
        = .ok false ∧
      eval (fun v => decide (v = ['A'])) (.Var ['A']) = true := by
  refine ⟨by decide, by decide, by decide⟩


/-- C4: round-trip — every AST the engine produces re-parses to a
structurally equal AST. If `parse_expression` returns `ast`, then
`parse_expression (node_to_str ast) = .ok ast`; and if the
`simplify_expression` fixpoint loop run from such an `ast` returns a final
node `fin`, then `parse_expression (node_to_str fin) = .ok fin`. -/
theorem c4_roundtrip :
    (∀ (s : List Char) (ast : Node), parse_expression s = .ok ast →
        parse_expression (node_to_str ast) = .ok ast) ∧
    (∀ (s : List Char) (ast : Node) (fuel : Nat) (fin : Node) (steps : List Step),
        parse_expression s = .ok ast → simplifyLoop fuel ast = some (fin, steps) →
        parse_expression (node_to_str fin) = .ok fin) := by
  constructor
  · intro s ast h
    exact roundtrip_canon (parse_canonInv h) (parse_wfN h)
  · intro s ast fuel fin steps h hloop
    obtain ⟨hinv, hwf⟩ := simplifyLoop_fin fuel ast fin steps (parse_canonInv h) (parse_wfN h) hloop
    exact roundtrip_canon hinv hwf

/-- C4 witness: the parse of `"B & A"` is `A & B`, which re-parses to
itself, and the AST the rewrite loop returns from it re-parses to itself. -/
theorem c4_roundtrip_witness :
    (parse_expression ("B & A".data) = .ok (Node.And [Node.Var ['A'], Node.Var ['B']]) ∧
      parse_expression (node_to_str (Node.And [Node.Var ['A'], Node.Var ['B']]))
        = .ok (Node.And [Node.Var ['A'], Node.Var ['B']])) ∧
    (simplifyLoop 1 (Node.And [Node.Var ['A'], Node.Var ['B']])
        = some (Node.And [Node.Var ['A'], Node.Var ['B']], []) ∧
      parse_expression (node_to_str (Node.And [Node.Var ['A'], Node.Var ['B']]))
        = .ok (Node.And [Node.Var ['A'], Node.Var ['B']])) :=
  ⟨⟨by decide, c4_roundtrip.1 ("B & A".data) (Node.And [Node.Var ['A'], Node.Var ['B']])
      (by decide)⟩,
   ⟨by decide, c4_roundtrip.2 ("B & A".data) (Node.And [Node.Var ['A'], Node.Var ['B']]) 1
      (Node.And [Node.Var ['A'], Node.Var ['B']]) [] (by decide) (by decide)⟩⟩

end Logica
